import Mathlib

/-!
# Huffman file compression (`File_Compression/Huffman_File_Compression.cpp`)

A shallow embedding of the compressor and the properties of its code tables and
output layout.

Modelling conventions.

* `char` is a byte (`Fin 256`), `std::string` is a list of bytes; the characters
  `'0'`, `'1'` and `'#'` are the bytes 48, 49 and 35.
* `int` is a 32-bit two's-complement integer: values are `Int`s and every
  addition the program performs is wrapped by `wrapInt32`.
* `HuffmanNode*` is the inductive type `HuffmanNode`: `null` or a node owning
  its two child pointers.
* `std::priority_queue` and the iteration order of `std::unordered_map` are
  fixed by the C++ standard only up to their contracts.  They are parameters
  (`PriorityQueue`, `MapOrder`, bundled in `Platform`) carrying exactly those
  contracts, so every theorem holds for every conforming standard library,
  whatever it does with equal frequencies.  `refPlatform` is one executable
  instance.
* Reading `top()` of an empty queue, and the exception of
  `bitset<8>(string)`, are the `Fault`s of the `Except` monad.  The loop of
  `buildHuffmanTree` runs on a bound of as many iterations as the queue has
  elements; the theorems show that the bound is never reached.
* `sizeof(int) = 4` and an `int` is written least significant byte first.
* Opening and reading the files is outside the model: `compressFile` maps the
  content read to the content written.
-/

namespace Huffman

deriving instance DecidableEq for Except

/-- The C++ type `char`: one byte. -/
abbrev Byte := Fin 256

/-- The C++ type `std::string`: a sequence of `char`. -/
abbrev CString := List Byte

/-- The character `'0'`. -/
abbrev chr0 : Byte := 48

/-- The character `'1'`. -/
abbrev chr1 : Byte := 49

/-- The character `'#'` stored in internal nodes. -/
abbrev chrHash : Byte := 35

/-- Reduction of a mathematical integer into the range of a 32-bit `int`. -/
def wrapInt32 (x : Int) : Int := (x + 2147483648) % 4294967296 - 2147483648

/-- Ways in which the program leaves defined behaviour or throws. -/
inductive Fault
  | emptyQueueTop
  | invalidArgument
  | outOfFuel
  deriving DecidableEq, Repr

/-- A value of type `HuffmanNode*`: the null pointer, or a pointer to a node
with its `data`, `frequency`, `left` and `right` members. -/
inductive HuffmanNode
  | null : HuffmanNode
  | node (data : Byte) (frequency : Int) (left right : HuffmanNode) : HuffmanNode
  deriving DecidableEq, Repr

/-- The member `frequency` (only read through non-null pointers). -/
def HuffmanNode.frequency : HuffmanNode → Int
  | .null => 0
  | .node _ f _ _ => f

/-- The test `!p` on a pointer. -/
def HuffmanNode.isNull : HuffmanNode → Bool
  | .null => true
  | .node _ _ _ _ => false

/-- The constructor `HuffmanNode(data, frequency)`: both children are `NULL`. -/
def newHuffmanNode (data : Byte) (frequency : Int) : HuffmanNode :=
  .node data frequency .null .null

/-- The comparison `Compare::operator()`. -/
def Compare (a b : HuffmanNode) : Bool := decide (a.frequency > b.frequency)

/-- The map `unordered_map<char, V>`, as its entries in insertion order. -/
abbrev UMap (V : Type) := List (Byte × V)

/-- The statement `freq[c]++`. -/
def UMap.increment : UMap Int → Byte → UMap Int
  | [], c => [(c, wrapInt32 (0 + 1))]
  | (k, v) :: rest, c =>
    if k = c then (k, wrapInt32 (v + 1)) :: rest else (k, v) :: UMap.increment rest c

/-- The statement `codes[key] = value`. -/
def UMap.assign {V : Type} : UMap V → Byte → V → UMap V
  | [], key, value => [(key, value)]
  | (k, v) :: rest, key, value =>
    if k = key then (k, value) :: rest else (k, v) :: UMap.assign rest key value

/-- The expression `codes[c]` read as a value: the default `""` when absent. -/
def UMap.at : UMap CString → Byte → CString
  | [], _ => []
  | (k, v) :: rest, c => if k = c then v else UMap.at rest c

/-- The frequency loop `for (char c : input) freq[c]++`. -/
def countFreq (input : CString) : UMap Int :=
  input.foldl UMap.increment []

/-- An implementation of
`priority_queue<HuffmanNode*, vector<HuffmanNode*>, Compare>`: the state is the
underlying vector and `valid` is its representation invariant (the heap order,
for a binary heap), which the empty queue has and `push` and `pop` keep.  On
valid states `push`, `top` and `pop` satisfy the contract of the standard: the
content changes by exactly the pushed or popped element, and no element
compares before `top()` under `Compare`.  Reading `top()` of the empty queue is
undefined and yields `none`. -/
structure PriorityQueue where
  push : List HuffmanNode → HuffmanNode → List HuffmanNode
  top : List HuffmanNode → Option HuffmanNode
  pop : List HuffmanNode → List HuffmanNode
  valid : List HuffmanNode → Prop
  valid_nil : valid []
  valid_push : ∀ q x, valid q → valid (push q x)
  valid_pop : ∀ q, valid q → q ≠ [] → valid (pop q)
  push_perm : ∀ q x, valid q → (push q x).Perm (x :: q)
  top_nil : top [] = none
  top_min : ∀ q, valid q → q ≠ [] →
    ∃ x, top q = some x ∧ x ∈ q ∧ ∀ y ∈ q, Compare x y = false
  pop_perm : ∀ q x, valid q → top q = some x → (x :: pop q).Perm q

/-- The order in which a range-for loop visits an `unordered_map<char, V>`:
some arrangement of its entries. -/
structure MapOrder (V : Type) where
  iterate : UMap V → UMap V
  iterate_perm : ∀ m, (iterate m).Perm m

/-- The implementation-defined parts of the standard library. -/
structure Platform where
  queue : PriorityQueue
  freqOrder : MapOrder Int
  codeOrder : MapOrder CString

/-- The function `generateCodes(root, code, codes)`; the table after the call. -/
def generateCodes : HuffmanNode → CString → UMap CString → UMap CString
  | .null, _, codes => codes
  | .node data _ left right, code, codes =>
    let codes1 := if left.isNull && right.isNull then UMap.assign codes data code else codes
    let codes2 := if !left.isNull then generateCodes left (code ++ [chr0]) codes1 else codes1
    if !right.isNull then generateCodes right (code ++ [chr1]) codes2 else codes2

/-- The loop `while (pq.size() > 1) { ... }` of `buildHuffmanTree`, with a bound
on the number of iterations. -/
def mergeLoop (Q : PriorityQueue) : Nat → List HuffmanNode → Except Fault (List HuffmanNode)
  | 0, pq => if pq.length > 1 then .error .outOfFuel else .ok pq
  | fuel + 1, pq =>
    if pq.length > 1 then
      match Q.top pq with
      | none => .error .emptyQueueTop
      | some left =>
        let pq1 := Q.pop pq
        match Q.top pq1 with
        | none => .error .emptyQueueTop
        | some right =>
          let pq2 := Q.pop pq1
          let newNode :=
            HuffmanNode.node chrHash (wrapInt32 (left.frequency + right.frequency)) left right
          mergeLoop Q fuel (Q.push pq2 newNode)
    else .ok pq

/-- The loop `for (auto pair : freq) pq.push(new HuffmanNode(...))`, over the
entries in the order the map is visited. -/
def pushLeaves (Q : PriorityQueue) (freq : UMap Int) : List HuffmanNode :=
  freq.foldl (fun pq pair => Q.push pq (newHuffmanNode pair.1 pair.2)) []

/-- The function `buildHuffmanTree(freq)`; `freq` lists the entries of the map
in the order the range-for loop visits them. -/
def buildHuffmanTree (Q : PriorityQueue) (freq : UMap Int) : Except Fault HuffmanNode :=
  let pq := pushLeaves Q freq
  match mergeLoop Q pq.length pq with
  | .error e => .error e
  | .ok pq1 =>
    match Q.top pq1 with
    | none => .error .emptyQueueTop
    | some root => .ok root

/-- The encoding loop `for (char c : input) encoded += codes[c]`. -/
def encodeWith (codes : UMap CString) (input : CString) : CString :=
  input.foldl (fun encoded c => encoded ++ UMap.at codes c) []

/-- The function `huffmanEncode(input)`. -/
def huffmanEncode (P : Platform) (input : CString) : Except Fault CString :=
  let freq := countFreq input
  match buildHuffmanTree P.queue (P.freqOrder.iterate freq) with
  | .error e => .error e
  | .ok root =>
    let codes := generateCodes root [] []
    .ok (encodeWith codes input)

/-- The conversion `static_cast<char>(n)` of an unsigned value. -/
def toByte (n : Nat) : Byte := ⟨n % 256, Nat.mod_lt _ (by decide)⟩

/-- The four bytes of an `int` in memory, as `write(reinterpret_cast<const char*>(&x),
sizeof(x))` emits them (`sizeof(int) = 4`, least significant byte first). -/
def int32Bytes (x : Int) : List Byte :=
  let u := (x % 4294967296).toNat
  [toByte u, toByte (u / 256), toByte (u / 65536), toByte (u / 16777216)]

/-- One entry of the header: the symbol, `codeSize`, and `codeSize` characters
of the code string. -/
def writeEntry (pair : Byte × CString) : List Byte :=
  let codeSize := wrapInt32 pair.2.length
  [pair.1] ++ int32Bytes codeSize ++ pair.2.take codeSize.toNat

/-- The header part of `writeCompressedDataToFile`: `codesSize` and then one
entry per pair of the table, in the order the map is visited. -/
def writeHeader (entries : UMap CString) : List Byte :=
  let codesSize := wrapInt32 entries.length
  int32Bytes codesSize ++ entries.flatMap writeEntry

/-- The value `bitset<8>(s).to_ulong()`: the first eight characters of `s` read
as a binary numeral, most significant digit first; any character other than
`'0'` and `'1'` throws `std::invalid_argument`. -/
def bitset8 (s : CString) : Except Fault Nat :=
  if s.all (fun c => c == chr0 || c == chr1) then
    .ok ((s.take 8).foldl (fun acc c => 2 * acc + (if c = chr1 then 1 else 0)) 0)
  else .error .invalidArgument

/-- One iteration of `for (char bit : compressedData)`: the state is
`byteBuffer` and the bytes written so far. -/
def packStep (st : CString × List Byte) (bit : Byte) : Except Fault (CString × List Byte) :=
  let byteBuffer := st.1 ++ [bit]
  if byteBuffer.length = 8 then
    match bitset8 byteBuffer with
    | .error e => .error e
    | .ok v => .ok ([], st.2 ++ [toByte v])
  else .ok (byteBuffer, st.2)

/-- The loop `for (char bit : compressedData)`. -/
def packLoop : CString → CString × List Byte → Except Fault (CString × List Byte)
  | [], st => .ok st
  | bit :: rest, st =>
    match packStep st bit with
    | .error e => .error e
    | .ok st1 => packLoop rest st1

/-- The loop `while (byteBuffer.size() < 8) byteBuffer += '0'`; at most eight
iterations are ever needed. -/
def padZeros : Nat → CString → CString
  | 0, byteBuffer => byteBuffer
  | fuel + 1, byteBuffer =>
    if byteBuffer.length < 8 then padZeros fuel (byteBuffer ++ [chr0]) else byteBuffer

/-- The body part of `writeCompressedDataToFile`: the bytes written after the
header. -/
def writeBody (compressedData : CString) : Except Fault (List Byte) :=
  match packLoop compressedData ([], []) with
  | .error e => .error e
  | .ok (byteBuffer, out) =>
    if !byteBuffer.isEmpty then
      match bitset8 (padZeros 8 byteBuffer) with
      | .error e => .error e
      | .ok v => .ok (out ++ [toByte v])
    else .ok out

/-- The function `writeCompressedDataToFile`; the content of the output file. -/
def writeCompressedDataToFile (P : Platform) (compressedData : CString)
    (codes : UMap CString) : Except Fault (List Byte) :=
  match writeBody compressedData with
  | .error e => .error e
  | .ok body => .ok (writeHeader (P.codeOrder.iterate codes) ++ body)

/-- The function `compressFile`, from the content read from the input file to
the content written to the output file. -/
def compressFile (P : Platform) (inputContent : CString) : Except Fault (List Byte) :=
  match huffmanEncode P inputContent with
  | .error e => .error e
  | .ok compressedData =>
    let freq := countFreq inputContent
    match buildHuffmanTree P.queue (P.freqOrder.iterate freq) with
    | .error e => .error e
    | .ok root =>
      let codes := generateCodes root [] []
      writeCompressedDataToFile P compressedData codes

/-! ### Notions used to state the properties -/

/-- The node `buildHuffmanTree` creates from the two nodes it extracted. -/
def mergeNodes (left right : HuffmanNode) : HuffmanNode :=
  .node chrHash (wrapInt32 (left.frequency + right.frequency)) left right

/-- The leaves of a tree from left to right, each with its symbol, its
frequency and the path from `code` down to it (`'0'` left, `'1'` right). -/
def leafInfo : HuffmanNode → CString → List (Byte × Int × CString)
  | .null, _ => []
  | .node data f left right, code =>
    (if left.isNull && right.isNull then [(data, f, code)] else []) ++
      (leafInfo left (code ++ [chr0]) ++ leafInfo right (code ++ [chr1]))

/-- The leaves of a tree with their frequencies. -/
def leaves (t : HuffmanNode) : UMap Int :=
  (leafInfo t []).map (fun x => (x.1, x.2.1))

/-- The leaves of a tree with their paths. -/
def paths (t : HuffmanNode) (code : CString) : UMap CString :=
  (leafInfo t code).map (fun x => (x.1, x.2.2))

/-- A non-null tree in which every node has either no child or two. -/
def isStrict : HuffmanNode → Bool
  | .null => false
  | .node _ _ left right => (left.isNull && right.isNull) || (isStrict left && isStrict right)

/-- The keys of a map. -/
def UMap.keys {V : Type} (m : UMap V) : List Byte := m.map Prod.fst

/-- The queue invariant behind the shape of the tree: every tree of the queue
is strict and the leaves of the queue are the entries of the map. -/
def ShapeInv (freq : UMap Int) (q : List HuffmanNode) : Prop :=
  (∀ t ∈ q, isStrict t = true) ∧ (q.flatMap leaves).Perm freq

/-- Neither string is a beginning of the other. -/
def Incomparable (x y : CString) : Prop := ¬ x <+: y ∧ ¬ y <+: x

/-- The Kraft sum of the code lengths `ls`, scaled by `2 ^ M`. -/
def kraftSum (M : Nat) (ls : List Nat) : Nat := (ls.map (fun l => 2 ^ (M - l))).sum

/-- Code lengths that satisfy Kraft's inequality. -/
def Feasible (ls : List Nat) : Prop := ∃ M, (∀ l ∈ ls, l ≤ M) ∧ kraftSum M ls ≤ 2 ^ M

/-- The cost of a list of (weight, code length) pairs. -/
def assignCost (ps : List (Int × Nat)) : Int := (ps.map (fun p => p.1 * (p.2 : Int))).sum

/-- The strings of `cs` that begin with `b`, without that first character. -/
def tailsOf (b : Byte) (cs : List CString) : List CString :=
  cs.filterMap (fun c => match c with
    | [] => none
    | x :: t => if x = b then some t else none)

/-- Every node that has a child carries the sum of the frequencies of its two
children. -/
def sumInvariant : HuffmanNode → Bool
  | .null => true
  | .node _ f left right =>
    (left.isNull && right.isNull) ||
      (decide (f = left.frequency + right.frequency) && sumInvariant left && sumInvariant right)

/-- The sum of the frequencies of the leaves. -/
def weight (t : HuffmanNode) : Int := ((leaves t).map Prod.snd).sum

/-- The sum over the leaves of frequency times length of the path, the paths
starting from `code`. -/
def pathCost (t : HuffmanNode) (code : CString) : Int :=
  ((leafInfo t code).map (fun x => x.2.1 * (x.2.2.length : Int))).sum

/-- The sum over the symbols of a map of frequency times code length. -/
def codeCost (freq : UMap Int) (codeOf : Byte → CString) : Int :=
  (freq.map (fun p => p.2 * ((codeOf p.1).length : Int))).sum

/-- The queue invariant behind the weights: every tree satisfies the sum
invariant and has a non-negative frequency, and the frequencies of the queue
add up to `total`. -/
def WeightInv (total : Int) (q : List HuffmanNode) : Prop :=
  (∀ t ∈ q, sumInvariant t = true ∧ 0 ≤ t.frequency) ∧
    (q.map HuffmanNode.frequency).sum = total

/-- The number `K` is at most the cost of every assignment of feasible code
lengths to the trees of the queue, counted with the path costs inside the
trees. -/
def OptBound (K : Int) (q : List HuffmanNode) : Prop :=
  ∀ ps : List (Int × Nat), (ps.map Prod.fst).Perm (q.map HuffmanNode.frequency) →
    Feasible (ps.map Prod.snd) → K ≤ assignCost ps + (q.map (fun t => pathCost t [])).sum

/-- The number `K` is at most the cost of every assignment of feasible code
lengths to the entries of the map. -/
def OptGoal (freq : UMap Int) (K : Int) : Prop :=
  ∀ ps : List (Int × Nat), (ps.map Prod.fst).Perm (freq.map Prod.snd) →
    Feasible (ps.map Prod.snd) → K ≤ assignCost ps

/-- The queue invariant behind optimality: shape, weights, and every bound
that holds for the queue holds for the map. -/
def OptInv (freq : UMap Int) (q : List HuffmanNode) : Prop :=
  ShapeInv freq q ∧ WeightInv (freq.map Prod.snd).sum q ∧
    ∀ K, OptBound K q → OptGoal freq K

/-- The value stored under a key of a frequency map, `0` when the key is
absent. -/
def UMap.get : UMap Int → Byte → Int
  | [], _ => 0
  | (k, v) :: rest, c => if k = c then v else UMap.get rest c

/-- The bits of a byte as characters, most significant first. -/
def expandByte (b : Byte) : CString :=
  [7, 6, 5, 4, 3, 2, 1, 0].map (fun i => if (b.val / 2 ^ i) % 2 = 1 then chr1 else chr0)

/-- A string of the characters `'0'` and `'1'`. -/
def IsBits (s : CString) : Prop := ∀ c ∈ s, c = chr0 ∨ c = chr1

instance IsBits.decidable (s : CString) : Decidable (IsBits s) :=
  inferInstanceAs (Decidable (∀ c ∈ s, c = chr0 ∨ c = chr1))

/-- The character for bit `7 - i` of a byte, the `i`-th from the most
significant end. -/
def bitChar (b : Byte) (i : Nat) : Byte :=
  if (b.val / 2 ^ (7 - i)) % 2 = 1 then chr1 else chr0

/-- The path from the root of a tree to the leaf holding `sym`: `'0'` for each
step to a left child, `'1'` for each step to a right child; its length is the
depth of the leaf. -/
inductive LeafPath : HuffmanNode → CString → Byte → Prop
  | here (sym : Byte) (f : Int) : LeafPath (.node sym f .null .null) [] sym
  | left {d : Byte} {f : Int} {l r : HuffmanNode} {code : CString} {sym : Byte} :
      LeafPath l code sym → LeafPath (.node d f l r) (chr0 :: code) sym
  | right {d : Byte} {f : Int} {l r : HuffmanNode} {code : CString} {sym : Byte} :
      LeafPath r code sym → LeafPath (.node d f l r) (chr1 :: code) sym

/-- A tree whose root has children. -/
def hasChildren : HuffmanNode → Bool
  | .null => false
  | .node _ _ left right => !(left.isNull && right.isNull)

/-- At every node that has children the left child has at most the frequency
of the right child. -/
def childOrdered : HuffmanNode → Bool
  | .null => true
  | .node _ _ left right =>
    (left.isNull && right.isNull) ||
      (decide (left.frequency ≤ right.frequency) && childOrdered left && childOrdered right)

/-- Exchange of two symbols. -/
def swapKeys (x y k : Byte) : Byte := if k = x then y else if k = y then x else k

/-- One iteration of the loop of `buildHuffmanTree`: the queue before it, the
two nodes extracted, and the queue after the new node was pushed. -/
structure MergeStep where
  before : List HuffmanNode
  left : HuffmanNode
  right : HuffmanNode
  after : List HuffmanNode

/-- The loop `while (pq.size() > 1) { ... }` of `buildHuffmanTree` again, also
recording its iterations. -/
def mergeLoopTrace (Q : PriorityQueue) :
    Nat → List HuffmanNode → Except Fault (List MergeStep × List HuffmanNode)
  | 0, pq => if pq.length > 1 then .error .outOfFuel else .ok ([], pq)
  | fuel + 1, pq =>
    if pq.length > 1 then
      match Q.top pq with
      | none => .error .emptyQueueTop
      | some left =>
        let pq1 := Q.pop pq
        match Q.top pq1 with
        | none => .error .emptyQueueTop
        | some right =>
          let pq2 := Q.pop pq1
          let newNode :=
            HuffmanNode.node chrHash (wrapInt32 (left.frequency + right.frequency)) left right
          let pq3 := Q.push pq2 newNode
          match mergeLoopTrace Q fuel pq3 with
          | .error e => .error e
          | .ok (steps, final) => .ok (⟨pq, left, right, pq3⟩ :: steps, final)
    else .ok ([], pq)

/-- What the claim says of one iteration: the two nodes extracted have the two
smallest frequencies of the queue, and the queue afterwards holds the node
made of them in their place. -/
def MergeStep.Correct (s : MergeStep) : Prop :=
  ∃ rest, s.before.Perm (s.left :: s.right :: rest) ∧
    (∀ y ∈ s.right :: rest, s.left.frequency ≤ y.frequency) ∧
    (∀ y ∈ rest, s.right.frequency ≤ y.frequency) ∧
    s.after.Perm (mergeNodes s.left s.right :: rest) ∧
    s.after.length + 1 = s.before.length

/-- The number of leaves of a tree. -/
def leafCount : HuffmanNode → Nat
  | .null => 0
  | .node _ _ left right =>
    if left.isNull && right.isNull then 1 else leafCount left + leafCount right

/-- The number of nodes of a tree that have a child. -/
def internalCount : HuffmanNode → Nat
  | .null => 0
  | .node _ _ left right =>
    if left.isNull && right.isNull then 0 else 1 + internalCount left + internalCount right

/-- Every node with children carries the sum of the frequencies of its two
children as the 32-bit `int` addition computes it. -/
def wrapSumInvariant : HuffmanNode → Bool
  | .null => true
  | .node _ f left right =>
    (left.isNull && right.isNull) ||
      (decide (f = wrapInt32 (left.frequency + right.frequency)) &&
        wrapSumInvariant left && wrapSumInvariant right)

/-! ### A reference platform -/

/-- Linear scan for an element no other compares before, earliest first. -/
def scanMin : HuffmanNode → List HuffmanNode → HuffmanNode
  | best, [] => best
  | best, x :: xs => if Compare best x then scanMin x xs else scanMin best xs

/-- Reference `top()`. -/
def refTop : List HuffmanNode → Option HuffmanNode
  | [] => none
  | x :: xs => some (scanMin x xs)

/-- Reference `pop()`. -/
def refPop (q : List HuffmanNode) : List HuffmanNode :=
  match refTop q with
  | none => []
  | some x => q.erase x

theorem scanMin_mem (best : HuffmanNode) (xs : List HuffmanNode) :
    scanMin best xs ∈ best :: xs := by
  induction xs generalizing best with
  | nil => simp [scanMin]
  | cons x xs ih =>
    unfold scanMin
    split
    · have := ih x
      simp only [List.mem_cons] at this ⊢
      tauto
    · have := ih best
      simp only [List.mem_cons] at this ⊢
      tauto

theorem scanMin_le (best : HuffmanNode) (xs : List HuffmanNode) :
    (scanMin best xs).frequency ≤ best.frequency ∧
      ∀ y ∈ xs, (scanMin best xs).frequency ≤ y.frequency := by
  induction xs generalizing best with
  | nil => simp [scanMin]
  | cons x xs ih =>
    unfold scanMin
    split
    · rename_i h
      simp only [Compare, decide_eq_true_eq, gt_iff_lt] at h
      obtain ⟨h1, h2⟩ := ih x
      refine ⟨by omega, ?_⟩
      intro y hy
      rcases List.mem_cons.1 hy with rfl | hy
      · exact h1
      · exact h2 y hy
    · rename_i h
      simp only [Compare, decide_eq_true_eq, gt_iff_lt, not_lt] at h
      obtain ⟨h1, h2⟩ := ih best
      refine ⟨h1, ?_⟩
      intro y hy
      rcases List.mem_cons.1 hy with rfl | hy
      · omega
      · exact h2 y hy

/-- A priority queue that keeps the elements in arrival order and scans for
the minimum. -/
def refQueue : PriorityQueue where
  push q x := q ++ [x]
  top := refTop
  pop := refPop
  valid _ := True
  valid_nil := trivial
  valid_push _ _ _ := trivial
  valid_pop _ _ _ := trivial
  push_perm q x _ := by
    exact (List.perm_append_comm : (q ++ [x]).Perm ([x] ++ q))
  top_nil := rfl
  top_min q _ hq := by
    cases q with
    | nil => exact absurd rfl hq
    | cons x xs =>
      refine ⟨scanMin x xs, rfl, scanMin_mem x xs, ?_⟩
      intro y hy
      obtain ⟨h1, h2⟩ := scanMin_le x xs
      simp only [Compare, gt_iff_lt, decide_eq_false_iff_not, not_lt]
      rcases List.mem_cons.1 hy with rfl | hy
      · exact h1
      · exact h2 y hy
  pop_perm q x _ h := by
    cases q with
    | nil => simp [refTop] at h
    | cons y ys =>
      simp only [refTop, Option.some.injEq] at h
      subst h
      simp only [refPop, refTop]
      exact (List.perm_cons_erase (scanMin_mem y ys)).symm

/-- A map visited in insertion order. -/
def refOrder (V : Type) : MapOrder V where
  iterate m := m
  iterate_perm m := List.Perm.refl m

/-- A reference platform: scanning queue, maps visited in insertion order. -/
def refPlatform : Platform where
  queue := refQueue
  freqOrder := refOrder Int
  codeOrder := refOrder CString

/-- The run of the merge loop on the reference queue never meets two nodes of
equal frequency in the queue. -/
def tieFree : Nat → List HuffmanNode → Bool
  | 0, _ => true
  | fuel + 1, pq =>
    if pq.length > 1 then
      decide ((pq.map HuffmanNode.frequency).Nodup) &&
        (match refTop pq with
          | none => false
          | some left =>
            match refTop (refPop pq) with
            | none => false
            | some right => tieFree fuel (refPop (refPop pq) ++ [mergeNodes left right]))
    else true

/-! ### The tree, its leaves and the code table -/

theorem assign_absent {V : Type} (codes : UMap V) (k : Byte) (v : V)
    (h : k ∉ codes.keys) : UMap.assign codes k v = codes ++ [(k, v)] := by
  induction codes with
  | nil => rfl
  | cons p rest ih =>
    obtain ⟨k1, v1⟩ := p
    simp only [UMap.keys, List.map_cons, List.mem_cons, not_or] at h
    have hne : ¬ k1 = k := fun e => h.1 e.symm
    simp only [UMap.assign, hne, if_false, List.cons_append]
    rw [ih h.2]

theorem assign_fold_eq {V : Type} (codes : UMap V) (ps : UMap V)
    (hnd : (codes ++ ps).keys.Nodup) :
    ps.foldl (fun m p => UMap.assign m p.1 p.2) codes = codes ++ ps := by
  induction ps generalizing codes with
  | nil => simp
  | cons p ps ih =>
    have hk : p.1 ∉ codes.keys := by
      intro hmem
      simp only [UMap.keys, List.map_append, List.map_cons] at hnd
      have := (List.nodup_append.1 hnd).2.2
      exact this hmem (List.mem_cons_self _ _)
    simp only [List.foldl_cons]
    rw [assign_absent codes p.1 p.2 hk, ih]
    · simp
    · simpa using hnd


theorem leafInfo_map_code (t : HuffmanNode) (c1 c2 : CString) :
    (leafInfo t c1).map (fun x => (x.1, x.2.1)) = (leafInfo t c2).map (fun x => (x.1, x.2.1)) := by
  induction t generalizing c1 c2 with
  | null => rfl
  | node d f l r ihl ihr =>
    simp only [leafInfo, List.map_append]
    rw [ihl (c1 ++ [chr0]) (c2 ++ [chr0]), ihr (c1 ++ [chr1]) (c2 ++ [chr1])]
    split <;> rfl

theorem leaves_node (d : Byte) (f : Int) (l r : HuffmanNode) :
    leaves (.node d f l r) =
      (if l.isNull && r.isNull then [(d, f)] else []) ++ (leaves l ++ leaves r) := by
  simp only [leaves, leafInfo, List.map_append]
  rw [leafInfo_map_code l ([] ++ [chr0]) [], leafInfo_map_code r ([] ++ [chr1]) []]
  split <;> rfl

theorem isNull_iff (t : HuffmanNode) : t.isNull = true ↔ t = .null := by
  cases t <;> simp [HuffmanNode.isNull]

theorem generateCodes_eq_fold (t : HuffmanNode) (code : CString) (codes : UMap CString) :
    generateCodes t code codes =
      (paths t code).foldl (fun m p => UMap.assign m p.1 p.2) codes := by
  induction t generalizing code codes with
  | null => rfl
  | node d f l r ihl ihr =>
    simp only [generateCodes, paths, leafInfo, List.map_append, List.foldl_append]
    have hl : ∀ cs, (if (!l.isNull) = true then generateCodes l (code ++ [chr0]) cs else cs)
        = generateCodes l (code ++ [chr0]) cs := by
      intro cs
      cases l <;> simp [HuffmanNode.isNull, generateCodes]
    have hr : ∀ cs, (if (!r.isNull) = true then generateCodes r (code ++ [chr1]) cs else cs)
        = generateCodes r (code ++ [chr1]) cs := by
      intro cs
      cases r <;> simp [HuffmanNode.isNull, generateCodes]
    rw [hl, hr, ihr, ihl]
    simp only [paths]
    split <;> simp

/-! ### The merge loop -/


theorem compare_false_iff (a b : HuffmanNode) :
    Compare a b = false ↔ a.frequency ≤ b.frequency := by
  simp [Compare]

theorem top_singleton (Q : PriorityQueue) (r : HuffmanNode) (hv : Q.valid [r]) :
    Q.top [r] = some r := by
  obtain ⟨x, hx, hmem, _⟩ := Q.top_min [r] hv (by simp)
  rw [List.mem_singleton] at hmem
  rw [hx, hmem]

theorem mergeLoop_invariant (Q : PriorityQueue) (Inv : List HuffmanNode → Prop)
    (hstep : ∀ q left right rest q1, q.Perm (left :: right :: rest) →
      (∀ y ∈ right :: rest, left.frequency ≤ y.frequency) →
      (∀ y ∈ rest, right.frequency ≤ y.frequency) →
      q1.Perm (mergeNodes left right :: rest) → Inv q → Inv q1) :
    ∀ fuel q, Q.valid q → q ≠ [] → q.length ≤ fuel + 1 → Inv q →
      ∃ r, mergeLoop Q fuel q = .ok [r] ∧ Q.valid [r] ∧ Inv [r] := by
  intro fuel
  induction fuel with
  | zero =>
    intro q hv hne hlen hinv
    match q, hv, hne, hlen with
    | [r], hv, _, _ => exact ⟨r, by simp [mergeLoop], hv, hinv⟩
    | _ :: _ :: _, _, _, h => simp at h
  | succ fuel ih =>
    intro q hv hne hlen hinv
    by_cases hq : q.length > 1
    · obtain ⟨left, hl, hlmem, hlmin⟩ := Q.top_min q hv hne
      have hp1 := Q.pop_perm q left hv hl
      have hv1 := Q.valid_pop q hv hne
      have hlen1 : (Q.pop q).length + 1 = q.length := by
        simpa using hp1.length_eq
      have hne1 : Q.pop q ≠ [] := by
        intro h
        rw [h] at hlen1
        simp at hlen1
        omega
      obtain ⟨right, hr, hrmem, hrmin⟩ := Q.top_min (Q.pop q) hv1 hne1
      have hp2 := Q.pop_perm (Q.pop q) right hv1 hr
      have hv2 := Q.valid_pop (Q.pop q) hv1 hne1
      have hlen2 : (Q.pop (Q.pop q)).length + 1 = (Q.pop q).length := by
        simpa using hp2.length_eq
      have hp3 := Q.push_perm (Q.pop (Q.pop q)) (mergeNodes left right) hv2
      have hv3 := Q.valid_push (Q.pop (Q.pop q)) (mergeNodes left right) hv2
      have hlen3 : (Q.push (Q.pop (Q.pop q)) (mergeNodes left right)).length
          = (Q.pop (Q.pop q)).length + 1 := by
        simpa using hp3.length_eq
      have hperm : q.Perm (left :: right :: Q.pop (Q.pop q)) :=
        hp1.symm.trans (List.Perm.cons left hp2.symm)
      have hmin1 : ∀ y ∈ right :: Q.pop (Q.pop q), left.frequency ≤ y.frequency := by
        intro y hy
        have hyq : y ∈ q := hp1.subset (List.mem_cons_of_mem _ (hp2.subset hy))
        exact (compare_false_iff _ _).1 (hlmin y hyq)
      have hmin2 : ∀ y ∈ Q.pop (Q.pop q), right.frequency ≤ y.frequency := by
        intro y hy
        have hyq : y ∈ Q.pop q := hp2.subset (List.mem_cons_of_mem _ hy)
        exact (compare_false_iff _ _).1 (hrmin y hyq)
      have hinv1 := hstep q left right _ _ hperm hmin1 hmin2 hp3 hinv
      obtain ⟨r, hrun, hvr, hfin⟩ := ih (Q.push (Q.pop (Q.pop q)) (mergeNodes left right))
        hv3 (by intro h; rw [h] at hlen3; simp at hlen3) (by omega) hinv1
      refine ⟨r, ?_, hvr, hfin⟩
      rw [mergeLoop, if_pos hq, hl]
      simp only [hr]
      exact hrun
    · match q, hv, hne, hq with
      | [r], hv, _, _ => exact ⟨r, by simp [mergeLoop], hv, hinv⟩
      | _ :: _ :: _, _, _, h => simp at h

theorem pushLeaves_valid_perm (Q : PriorityQueue) (freq : UMap Int) :
    Q.valid (pushLeaves Q freq) ∧
      (pushLeaves Q freq).Perm (freq.map (fun p => newHuffmanNode p.1 p.2)) := by
  have key : ∀ (fr : UMap Int) (acc : List HuffmanNode), Q.valid acc →
      Q.valid (fr.foldl (fun pq pair => Q.push pq (newHuffmanNode pair.1 pair.2)) acc) ∧
      (fr.foldl (fun pq pair => Q.push pq (newHuffmanNode pair.1 pair.2)) acc).Perm
        (fr.map (fun p => newHuffmanNode p.1 p.2) ++ acc) := by
    intro fr
    induction fr with
    | nil => intro acc hv; exact ⟨hv, by simp⟩
    | cons p fr ih =>
      intro acc hv
      simp only [List.foldl_cons, List.map_cons, List.cons_append]
      obtain ⟨hv1, hp1⟩ := ih _ (Q.valid_push acc (newHuffmanNode p.1 p.2) hv)
      refine ⟨hv1, hp1.trans ?_⟩
      refine (List.Perm.append_left _ (Q.push_perm acc _ hv)).trans ?_
      exact List.perm_middle
  simpa [pushLeaves] using key freq [] Q.valid_nil

theorem pushLeaves_perm (Q : PriorityQueue) (freq : UMap Int) :
    (pushLeaves Q freq).Perm (freq.map (fun p => newHuffmanNode p.1 p.2)) :=
  (pushLeaves_valid_perm Q freq).2

theorem buildHuffmanTree_invariant (Q : PriorityQueue) (Inv : List HuffmanNode → Prop)
    (hstep : ∀ q left right rest q1, q.Perm (left :: right :: rest) →
      (∀ y ∈ right :: rest, left.frequency ≤ y.frequency) →
      (∀ y ∈ rest, right.frequency ≤ y.frequency) →
      q1.Perm (mergeNodes left right :: rest) → Inv q → Inv q1)
    (freq : UMap Int) (hne : freq ≠ [])
    (hinit : ∀ q, q.Perm (freq.map (fun p => newHuffmanNode p.1 p.2)) → Inv q) :
    ∃ r, buildHuffmanTree Q freq = .ok r ∧ Inv [r] := by
  have hp := pushLeaves_perm Q freq
  have hne1 : pushLeaves Q freq ≠ [] := by
    intro h
    rw [h] at hp
    have := hp.length_eq
    simp at this
    exact hne (List.length_eq_zero.1 this.symm)
  obtain ⟨r, hrun, hvr, hfin⟩ := mergeLoop_invariant Q Inv hstep (pushLeaves Q freq).length
    (pushLeaves Q freq) (pushLeaves_valid_perm Q freq).1 hne1 (by omega) (hinit _ hp)
  refine ⟨r, ?_, hfin⟩
  simp only [buildHuffmanTree, hrun, top_singleton Q r hvr]

/-! ### Shape of the tree and of the code table -/


theorem isStrict_ne_null {t : HuffmanNode} (h : isStrict t = true) : t.isNull = false := by
  cases t with
  | null => simp [isStrict] at h
  | node _ _ _ _ => rfl

theorem leaves_newHuffmanNode (d : Byte) (f : Int) : leaves (newHuffmanNode d f) = [(d, f)] := by
  simp [newHuffmanNode, leaves, leafInfo, HuffmanNode.isNull]

theorem leaves_mergeNodes {l r : HuffmanNode} (hl : l.isNull = false) :
    leaves (mergeNodes l r) = leaves l ++ leaves r := by
  rw [mergeNodes, leaves_node, hl]
  simp

theorem isStrict_mergeNodes {l r : HuffmanNode} (hl : isStrict l = true)
    (hr : isStrict r = true) : isStrict (mergeNodes l r) = true := by
  simp [mergeNodes, isStrict, hl, hr]

theorem shapeInv_init (freq : UMap Int) (q : List HuffmanNode)
    (hq : q.Perm (freq.map (fun p => newHuffmanNode p.1 p.2))) : ShapeInv freq q := by
  constructor
  · intro t ht
    obtain ⟨p, _, rfl⟩ := List.mem_map.1 (hq.subset ht)
    simp [newHuffmanNode, isStrict, HuffmanNode.isNull]
  · refine (List.Perm.flatMap_right leaves hq).trans ?_
    rw [List.flatMap_map]
    have : ∀ fr : UMap Int, fr.flatMap (fun a => leaves (newHuffmanNode a.1 a.2)) = fr := by
      intro fr
      induction fr with
      | nil => rfl
      | cons a fr ih => simp [List.flatMap_cons, leaves_newHuffmanNode, ih]
    rw [this]

theorem shapeInv_step (freq : UMap Int) (q : List HuffmanNode) (left right : HuffmanNode)
    (rest q1 : List HuffmanNode) (hq : q.Perm (left :: right :: rest))
    (hq1 : q1.Perm (mergeNodes left right :: rest)) (h : ShapeInv freq q) :
    ShapeInv freq q1 := by
  obtain ⟨hs, hp⟩ := h
  have hl : isStrict left = true := hs left (hq.symm.subset (by simp))
  have hr : isStrict right = true := hs right (hq.symm.subset (by simp))
  constructor
  · intro t ht
    rcases List.mem_cons.1 (hq1.subset ht) with rfl | ht
    · exact isStrict_mergeNodes hl hr
    · exact hs t (hq.symm.subset (by simp [ht]))
  · refine (List.Perm.flatMap_right leaves hq1).trans ?_
    refine List.Perm.trans ?_ ((List.Perm.flatMap_right leaves hq).symm.trans hp)
    simp [List.flatMap_cons, leaves_mergeNodes (isStrict_ne_null hl)]

theorem buildHuffmanTree_shape (Q : PriorityQueue) (freq : UMap Int) (hne : freq ≠ []) :
    ∃ root, buildHuffmanTree Q freq = .ok root ∧ isStrict root = true ∧
      (leaves root).Perm freq := by
  obtain ⟨r, hrun, hs, hp⟩ := buildHuffmanTree_invariant Q (ShapeInv freq)
    (fun q left right rest q1 hq _ _ hq1 h => shapeInv_step freq q left right rest q1 hq hq1 h)
    freq hne (shapeInv_init freq)
  refine ⟨r, hrun, hs r (by simp), ?_⟩
  simpa using hp

theorem paths_keys (t : HuffmanNode) (code : CString) :
    (paths t code).keys = (leaves t).keys := by
  simp only [paths, leaves, UMap.keys, List.map_map]
  have := congrArg (List.map Prod.fst) (leafInfo_map_code t code [])
  simpa [List.map_map] using this

theorem generateCodes_eq_paths (t : HuffmanNode) (h : (leaves t).keys.Nodup) :
    generateCodes t [] [] = paths t [] := by
  rw [generateCodes_eq_fold, assign_fold_eq]
  · simp
  · simpa [paths_keys] using h

theorem leafInfo_code_le (t : HuffmanNode) (code : CString) :
    ∀ x ∈ leafInfo t code, code <+: x.2.2 := by
  induction t generalizing code with
  | null => simp [leafInfo]
  | node d f l r ihl ihr =>
    intro x hx
    simp only [leafInfo, List.mem_append] at hx
    rcases hx with hx | hx | hx
    · split at hx
      · rw [List.mem_singleton] at hx
        subst hx
        exact List.prefix_refl _
      · simp at hx
    · exact (List.prefix_append _ _).trans (ihl _ x hx)
    · exact (List.prefix_append _ _).trans (ihr _ x hx)

theorem branch_incomparable (code x y : CString) (hx : code ++ [chr0] <+: x)
    (hy : code ++ [chr1] <+: y) : Incomparable x y := by
  have key : ∀ z, code ++ [chr0] <+: z → code ++ [chr1] <+: z → False := by
    intro z h0 h1
    have h := List.prefix_of_prefix_length_le h0 h1 (by simp)
    have := h.eq_of_length (by simp)
    simp only [List.append_cancel_left_eq, List.cons.injEq, and_true] at this
    exact absurd this (by decide)
  exact ⟨fun h => key y (hx.trans h) hy, fun h => key x hx (hy.trans h)⟩

theorem leafInfo_pairwise (t : HuffmanNode) (code : CString) :
    (leafInfo t code).Pairwise (fun x y => Incomparable x.2.2 y.2.2) := by
  induction t generalizing code with
  | null => simp [leafInfo]
  | node d f l r ihl ihr =>
    simp only [leafInfo]
    by_cases hleaf : (l.isNull && r.isNull) = true
    · simp only [Bool.and_eq_true, isNull_iff] at hleaf
      obtain ⟨rfl, rfl⟩ := hleaf
      simp [leafInfo, HuffmanNode.isNull]
    · rw [if_neg hleaf, List.nil_append]
      rw [List.pairwise_append]
      refine ⟨ihl _, ihr _, ?_⟩
      intro a ha b hb
      exact branch_incomparable code _ _ (leafInfo_code_le l _ a ha) (leafInfo_code_le r _ b hb)

theorem paths_pairwise (t : HuffmanNode) (code : CString) :
    (paths t code).Pairwise (fun x y => Incomparable x.2 y.2) := by
  rw [paths, List.pairwise_map]
  exact leafInfo_pairwise t code

theorem incomparable_symm : Symmetric (fun x y : Byte × CString => Incomparable x.2 y.2) :=
  fun _ _ h => ⟨h.2, h.1⟩

/-- Every map with distinct keys and at least one entry gives a tree, and the
table generated from it lists the leaf paths. -/
theorem buildHuffmanTree_table (Q : PriorityQueue) (freq : UMap Int) (hne : freq ≠ [])
    (hkeys : freq.keys.Nodup) :
    ∃ root, buildHuffmanTree Q freq = .ok root ∧ isStrict root = true ∧
      (leaves root).Perm freq ∧ generateCodes root [] [] = paths root [] := by
  obtain ⟨root, hrun, hs, hp⟩ := buildHuffmanTree_shape Q freq hne
  refine ⟨root, hrun, hs, hp, generateCodes_eq_paths root ?_⟩
  exact ((hp.map Prod.fst).nodup_iff).2 hkeys

/-! ### Kraft sums and the exchange step -/

theorem kraftSum_cons (M l : Nat) (ls : List Nat) :
    kraftSum M (l :: ls) = 2 ^ (M - l) + kraftSum M ls := by
  simp [kraftSum]

theorem assignCost_cons (p : Int × Nat) (ps : List (Int × Nat)) :
    assignCost (p :: ps) = p.1 * (p.2 : Int) + assignCost ps := by
  simp [assignCost]

theorem kraftSum_scale (M d : Nat) (ls : List Nat) (h : ∀ l ∈ ls, l ≤ M) :
    kraftSum (M + d) ls = 2 ^ d * kraftSum M ls := by
  induction ls with
  | nil => simp [kraftSum]
  | cons l ls ih =>
    have hl : l ≤ M := h l (List.mem_cons_self _ _)
    rw [kraftSum_cons, kraftSum_cons, ih (fun x hx => h x (List.mem_cons_of_mem _ hx)),
      Nat.mul_add, ← pow_add]
    congr 2
    omega

theorem kraftSum_perm (M : Nat) {ls1 ls2 : List Nat} (h : ls1.Perm ls2) :
    kraftSum M ls1 = kraftSum M ls2 :=
  (h.map _).sum_eq

theorem assignCost_perm {ps1 ps2 : List (Int × Nat)} (h : ps1.Perm ps2) :
    assignCost ps1 = assignCost ps2 :=
  (h.map _).sum_eq

theorem Feasible.perm {ls1 ls2 : List Nat} (h : ls1.Perm ls2) (hf : Feasible ls1) :
    Feasible ls2 := by
  obtain ⟨M, hb, hk⟩ := hf
  exact ⟨M, fun l hl => hb l (h.symm.subset hl), by rw [← kraftSum_perm M h]; exact hk⟩

theorem Feasible.at {ls : List Nat} (hf : Feasible ls) (M : Nat) (hM : ∀ l ∈ ls, l ≤ M) :
    kraftSum M ls ≤ 2 ^ M := by
  obtain ⟨M0, hb, hk⟩ := hf
  have h1 : kraftSum (M0 + M) ls = 2 ^ M * kraftSum M0 ls := kraftSum_scale M0 M ls hb
  have h2 : kraftSum (M + M0) ls = 2 ^ M0 * kraftSum M ls := kraftSum_scale M M0 ls hM
  rw [Nat.add_comm] at h2
  have h3 : 2 ^ M0 * kraftSum M ls ≤ 2 ^ M0 * 2 ^ M := by
    rw [← h2, h1, Nat.mul_comm (2 ^ M0)]
    exact Nat.mul_le_mul_left _ hk
  exact Nat.le_of_mul_le_mul_left h3 (by positivity)

theorem promote (x : Int) (lx : Nat) (rs : List (Int × Nat)) (hx : ∀ p ∈ rs, x ≤ p.1) :
    ∃ (M : Nat) (rs1 : List (Int × Nat)), rs1.map Prod.fst = rs.map Prod.fst ∧
      (M :: rs1.map Prod.snd).Perm (lx :: rs.map Prod.snd) ∧
      (∀ l ∈ rs1.map Prod.snd, l ≤ M) ∧
      x * (M : Int) + assignCost rs1 ≤ x * (lx : Int) + assignCost rs := by
  induction rs with
  | nil => exact ⟨lx, [], rfl, List.Perm.refl _, by simp, le_refl _⟩
  | cons r rs ih =>
    obtain ⟨w, lr⟩ := r
    obtain ⟨M1, rs1, hfst, hperm, hbound, hcost⟩ :=
      ih (fun p hp => hx p (List.mem_cons_of_mem _ hp))
    have hw : x ≤ w := hx (w, lr) (List.mem_cons_self _ _)
    by_cases hcmp : lr ≤ M1
    · refine ⟨M1, (w, lr) :: rs1, by simp [hfst], ?_, ?_, ?_⟩
      · simp only [List.map_cons]
        exact (List.Perm.swap lr M1 _).trans ((List.Perm.cons lr hperm).trans
          (List.Perm.swap lx lr _))
      · intro l hl
        simp only [List.map_cons, List.mem_cons] at hl
        rcases hl with rfl | hl
        · exact hcmp
        · exact hbound l hl
      · rw [assignCost_cons, assignCost_cons]
        linarith
    · have hlt : M1 < lr := Nat.lt_of_not_le hcmp
      refine ⟨lr, (w, M1) :: rs1, by simp [hfst], ?_, ?_, ?_⟩
      · simp only [List.map_cons]
        exact (List.Perm.cons lr hperm).trans (List.Perm.swap lx lr _)
      · intro l hl
        simp only [List.map_cons, List.mem_cons] at hl
        rcases hl with rfl | hl
        · exact hlt.le
        · exact (hbound l hl).trans hlt.le
      · rw [assignCost_cons, assignCost_cons]
        have h1 : (0 : Int) ≤ (w - x) * ((lr : Int) - (M1 : Int)) :=
          mul_nonneg (by linarith) (by
            have : (M1 : Int) < (lr : Int) := by exact_mod_cast hlt
            linarith)
        simp only
        nlinarith

theorem perm_fst_cons {ps : List (Int × Nat)} {a : Int} {t : List Int}
    (h : (ps.map Prod.fst).Perm (a :: t)) :
    ∃ (la : Nat) (ps1 : List (Int × Nat)), ps.Perm ((a, la) :: ps1) ∧
      (ps1.map Prod.fst).Perm t := by
  have ha : a ∈ ps.map Prod.fst := h.symm.subset (List.mem_cons_self _ _)
  obtain ⟨p, hp, hpa⟩ := List.mem_map.1 ha
  obtain ⟨w, la⟩ := p
  simp only at hpa
  subst hpa
  have h1 := List.perm_cons_erase hp
  refine ⟨la, _, h1, ?_⟩
  have h2 := (h1.map Prod.fst).symm.trans h
  simpa using h2.cons_inv

/-- The exchange step of the optimality argument: lengths for the weights
`a :: b :: rest`, with `a` and `b` the two smallest, give lengths for
`(a + b) :: rest` that cost `a + b` less. -/
theorem merge_bound (a b : Int) (rest : List Int) (ps : List (Int × Nat))
    (ha : 0 ≤ a) (hab : a ≤ b) (hb : ∀ r ∈ rest, b ≤ r)
    (hps : (ps.map Prod.fst).Perm (a :: b :: rest)) (hf : Feasible (ps.map Prod.snd)) :
    ∃ ps1 : List (Int × Nat), (ps1.map Prod.fst).Perm ((a + b) :: rest) ∧
      Feasible (ps1.map Prod.snd) ∧ assignCost ps1 + a + b ≤ assignCost ps := by
  obtain ⟨la, p1, hp1, hp1fst⟩ := perm_fst_cons hps
  have ha1 : ∀ p ∈ p1, a ≤ p.1 := by
    intro p hp
    have : p.1 ∈ b :: rest := hp1fst.subset (List.mem_map_of_mem _ hp)
    rcases List.mem_cons.1 this with h | h
    · rw [h]; exact hab
    · exact hab.trans (hb _ h)
  obtain ⟨M, q1, hq1fst, hq1perm, hq1bound, hq1cost⟩ := promote a la p1 ha1
  rw [← hq1fst] at hp1fst
  obtain ⟨lb, p2, hp2, hp2fst⟩ := perm_fst_cons hp1fst
  have hb2 : ∀ p ∈ p2, b ≤ p.1 := by
    intro p hp
    exact hb _ (hp2fst.subset (List.mem_map_of_mem _ hp))
  obtain ⟨M2, q2, hq2fst, hq2perm, hq2bound, hq2cost⟩ := promote b lb p2 hb2
  -- the lengths after both promotions
  have hlen : (M :: M2 :: q2.map Prod.snd).Perm (ps.map Prod.snd) := by
    have e1 : (M2 :: q2.map Prod.snd).Perm (q1.map Prod.snd) := by
      refine hq2perm.trans ?_
      simpa using (hp2.map Prod.snd).symm
    refine (List.Perm.cons M e1).trans (hq1perm.trans ?_)
    simpa using (hp1.map Prod.snd).symm
  have hM2M : M2 ≤ M := hq1bound M2 (by
    have e1 : (M2 :: q2.map Prod.snd).Perm (q1.map Prod.snd) := by
      refine hq2perm.trans ?_
      simpa using (hp2.map Prod.snd).symm
    exact e1.subset (List.mem_cons_self _ _))
  have hfeas : Feasible (M :: M2 :: q2.map Prod.snd) := hf.perm hlen.symm
  have hk := hfeas.at M (by
    intro l hl
    simp only [List.mem_cons] at hl
    rcases hl with rfl | rfl | hl
    · exact le_refl _
    · exact hM2M
    · exact (hq2bound l hl).trans hM2M)
  obtain ⟨d, rfl⟩ : ∃ d, M = M2 + d := ⟨M - M2, by omega⟩
  rw [kraftSum_cons, kraftSum_cons, kraftSum_scale M2 d _ hq2bound] at hk
  have e0 : M2 + d - (M2 + d) = 0 := by omega
  have e1 : M2 + d - M2 = d := by omega
  rw [e0, e1, pow_add] at hk
  have hpos : 0 < 2 ^ d := by positivity
  -- 1 + 2^d (1 + N) ≤ 2^d 2^M2, hence N + 2 ≤ 2^M2
  have hN : kraftSum M2 (q2.map Prod.snd) + 2 ≤ 2 ^ M2 := by
    by_contra hcon
    have : 2 ^ M2 ≤ kraftSum M2 (q2.map Prod.snd) + 1 := by omega
    have := Nat.mul_le_mul_left (2 ^ d) this
    rw [Nat.mul_comm (2 ^ d) (2 ^ M2)] at this
    nlinarith
  have hM2 : 1 ≤ M2 := by
    by_contra hcon
    have : M2 = 0 := by omega
    subst this
    simp at hN
  refine ⟨(a + b, M2 - 1) :: q2, ?_, ?_, ?_⟩
  · simp only [List.map_cons]
    rw [hq2fst]
    exact List.Perm.cons _ hp2fst
  · refine ⟨M2, ?_, ?_⟩
    · intro l hl
      simp only [List.map_cons, List.mem_cons] at hl
      rcases hl with rfl | hl
      · omega
      · exact hq2bound l hl
    · simp only [List.map_cons]
      rw [kraftSum_cons]
      have : M2 - (M2 - 1) = 1 := by omega
      rw [this]
      omega
  · have c1 : assignCost ps = a * (la : Int) + assignCost p1 := by
      rw [assignCost_perm hp1, assignCost_cons]
    have c2 : assignCost q1 = b * (lb : Int) + assignCost p2 := by
      rw [assignCost_perm hp2, assignCost_cons]
    rw [assignCost_cons, c1]
    have hcast : ((M2 - 1 : Nat) : Int) = (M2 : Int) - 1 := by
      rw [Nat.cast_sub hM2]; simp
    simp only [hcast]
    have hdle : a * (M2 : Int) ≤ a * ((M2 + d : Nat) : Int) := by
      apply mul_le_mul_of_nonneg_left _ ha
      exact_mod_cast Nat.le_add_right M2 d
    nlinarith

/-! ### Kraft's inequality -/

theorem mem_tailsOf (b : Byte) (cs : List CString) (t : CString) :
    t ∈ tailsOf b cs ↔ b :: t ∈ cs := by
  simp only [tailsOf, List.mem_filterMap]
  constructor
  · rintro ⟨c, hc, h⟩
    cases c with
    | nil => simp at h
    | cons x u =>
      simp only at h
      split at h
      · rename_i hx
        simp only [Option.some.injEq] at h
        subst hx h
        exact hc
      · simp at h
  · intro h
    exact ⟨b :: t, h, by simp⟩

theorem tailsOf_pairwise (b : Byte) (cs : List CString) (h : cs.Pairwise Incomparable) :
    (tailsOf b cs).Pairwise Incomparable := by
  refine List.Pairwise.filterMap _ ?_ h
  intro c1 c2 hinc t1 ht1 t2 ht2
  cases c1 with
  | nil => simp at ht1
  | cons x1 u1 =>
    cases c2 with
    | nil => simp at ht2
    | cons x2 u2 =>
      simp only [Option.mem_def] at ht1 ht2
      split at ht1
      · split at ht2
        · rename_i h1 h2
          simp only [Option.some.injEq] at ht1 ht2
          subst h1 ht1 ht2
          subst h2
          refine ⟨fun hp => hinc.1 ?_, fun hp => hinc.2 ?_⟩
          · exact List.cons_prefix_cons.2 ⟨rfl, hp⟩
          · exact List.cons_prefix_cons.2 ⟨rfl, hp⟩
        · simp at ht2
      · simp at ht1

theorem kraftSum_split (M : Nat) (cs : List CString) (hnil : [] ∉ cs)
    (hbin : ∀ c ∈ cs, ∀ b ∈ c, b = chr0 ∨ b = chr1) :
    kraftSum (M + 1) (cs.map List.length) =
      kraftSum M ((tailsOf chr0 cs).map List.length) +
        kraftSum M ((tailsOf chr1 cs).map List.length) := by
  induction cs with
  | nil => simp [kraftSum, tailsOf]
  | cons c cs ih =>
    have ih1 := ih (fun h => hnil (List.mem_cons_of_mem _ h))
      (fun c hc => hbin c (List.mem_cons_of_mem _ hc))
    cases c with
    | nil => exact absurd (List.mem_cons_self _ _) hnil
    | cons x t =>
      have hx := hbin (x :: t) (List.mem_cons_self _ _) x (List.mem_cons_self _ _)
      have e : M + 1 - (t.length + 1) = M - t.length := by omega
      rcases hx with rfl | rfl
      · have h0 : tailsOf chr0 ((chr0 :: t) :: cs) = t :: tailsOf chr0 cs := by
          simp [tailsOf]
        have h1 : tailsOf chr1 ((chr0 :: t) :: cs) = tailsOf chr1 cs := by
          have hne : ¬ (chr0 : Byte) = chr1 := by decide
          simp only [tailsOf, List.filterMap_cons, if_neg hne]
        rw [h0, h1]
        simp only [List.map_cons, List.length_cons, kraftSum_cons]
        rw [ih1, e]
        omega
      · have h0 : tailsOf chr0 ((chr1 :: t) :: cs) = tailsOf chr0 cs := by
          have hne : ¬ (chr1 : Byte) = chr0 := by decide
          simp only [tailsOf, List.filterMap_cons, if_neg hne]
        have h1 : tailsOf chr1 ((chr1 :: t) :: cs) = t :: tailsOf chr1 cs := by
          simp [tailsOf]
        rw [h0, h1]
        simp only [List.map_cons, List.length_cons, kraftSum_cons]
        rw [ih1, e]
        omega

theorem incomparable_nil_mem (cs : List CString) (hnil : [] ∈ cs)
    (h : cs.Pairwise Incomparable) : cs = [[]] := by
  cases cs with
  | nil => simp at hnil
  | cons c cs =>
    rw [List.pairwise_cons] at h
    rcases List.mem_cons.1 hnil with hc | hc
    · subst hc
      have : cs = [] := by
        apply List.eq_nil_iff_forall_not_mem.2
        intro y hy
        exact (h.1 y hy).1 (List.nil_prefix)
      rw [this]
    · exact absurd (List.nil_prefix) (h.1 [] hc).2

/-- Kraft's inequality: the lengths of pairwise incomparable binary strings. -/
theorem kraft_inequality (M : Nat) : ∀ cs : List CString, (∀ c ∈ cs, c.length ≤ M) →
    (∀ c ∈ cs, ∀ b ∈ c, b = chr0 ∨ b = chr1) → cs.Pairwise Incomparable →
    kraftSum M (cs.map List.length) ≤ 2 ^ M := by
  induction M with
  | zero =>
    intro cs hlen _ hpw
    by_cases hnil : [] ∈ cs
    · rw [incomparable_nil_mem cs hnil hpw]
      simp [kraftSum]
    · cases cs with
      | nil => simp [kraftSum]
      | cons c cs =>
        have := hlen c (List.mem_cons_self _ _)
        have hc : c = [] := List.length_eq_zero.1 (by omega)
        exact absurd (hc ▸ List.mem_cons_self _ _) hnil
  | succ M ih =>
    intro cs hlen hbin hpw
    by_cases hnil : [] ∈ cs
    · rw [incomparable_nil_mem cs hnil hpw]
      simp [kraftSum]
    · rw [kraftSum_split M cs hnil hbin]
      have side : ∀ b, kraftSum M ((tailsOf b cs).map List.length) ≤ 2 ^ M := by
        intro b
        apply ih
        · intro t ht
          have := hlen _ ((mem_tailsOf b cs t).1 ht)
          simp at this
          omega
        · intro t ht x hx
          exact hbin _ ((mem_tailsOf b cs t).1 ht) x (List.mem_cons_of_mem _ hx)
        · exact tailsOf_pairwise b cs hpw
      have h0 := side chr0
      have h1 := side chr1
      rw [pow_succ]
      omega

theorem feasible_of_incomparable (cs : List CString)
    (hbin : ∀ c ∈ cs, ∀ b ∈ c, b = chr0 ∨ b = chr1) (hpw : cs.Pairwise Incomparable) :
    Feasible (cs.map List.length) := by
  refine ⟨(cs.map List.length).sum, ?_, ?_⟩
  · intro l hl
    exact List.single_le_sum (fun _ _ => Nat.zero_le _) l hl
  · apply kraft_inequality _ cs _ hbin hpw
    intro c hc
    exact List.single_le_sum (fun _ _ => Nat.zero_le _) _ (List.mem_map_of_mem _ hc)

/-! ### Weights -/

theorem wrapInt32_eq {x : Int} (h0 : -2147483648 ≤ x) (h1 : x < 2147483648) :
    wrapInt32 x = x := by
  unfold wrapInt32
  omega

theorem weight_node (d : Byte) (f : Int) (l r : HuffmanNode) :
    weight (.node d f l r) =
      if l.isNull && r.isNull then f else weight l + weight r := by
  unfold weight
  rw [leaves_node]
  by_cases h : (l.isNull && r.isNull) = true
  · simp only [Bool.and_eq_true, isNull_iff] at h
    obtain ⟨rfl, rfl⟩ := h
    simp [leaves, leafInfo, HuffmanNode.isNull]
  · rw [if_neg h, if_neg h]
    simp

theorem frequency_eq_weight (t : HuffmanNode) (hs : isStrict t = true)
    (hi : sumInvariant t = true) : t.frequency = weight t := by
  induction t with
  | null => simp [isStrict] at hs
  | node d f l r ihl ihr =>
    rw [weight_node]
    by_cases h : (l.isNull && r.isNull) = true
    · rw [if_pos h]; rfl
    · rw [if_neg h]
      have h1 : (l.isNull && r.isNull) = false := by simpa using h
      simp only [isStrict, h1, Bool.false_or, Bool.and_eq_true] at hs
      simp only [sumInvariant, h1, Bool.false_or, Bool.and_eq_true,
        decide_eq_true_eq] at hi
      rw [← ihl hs.1 hi.1.2, ← ihr hs.2 hi.2]
      exact hi.1.1

theorem pathCost_shift (t : HuffmanNode) (code : CString) :
    pathCost t code = pathCost t [] + weight t * (code.length : Int) := by
  induction t generalizing code with
  | null => simp [pathCost, leafInfo, weight, leaves]
  | node d f l r ihl ihr =>
    have e : ∀ c, pathCost (.node d f l r) c =
        (if l.isNull && r.isNull then f * (c.length : Int) else 0) +
          (pathCost l (c ++ [chr0]) + pathCost r (c ++ [chr1])) := by
      intro c
      simp only [pathCost, leafInfo, List.map_append, List.sum_append]
      split <;> simp
    rw [e code, e [], ihl (code ++ [chr0]), ihr (code ++ [chr1]), ihl ([] ++ [chr0]),
      ihr ([] ++ [chr1]), weight_node]
    by_cases h : (l.isNull && r.isNull) = true
    · simp only [Bool.and_eq_true, isNull_iff] at h
      obtain ⟨rfl, rfl⟩ := h
      simp [weight, leaves, leafInfo, HuffmanNode.isNull, pathCost]
    · rw [if_neg h, if_neg h, if_neg h]
      simp only [List.length_append, List.length_singleton, List.length_nil, Nat.cast_add,
        Nat.cast_one, Nat.cast_zero]
      ring

theorem pathCost_mergeNodes (l r : HuffmanNode) (hl : l.isNull = false) :
    pathCost (mergeNodes l r) [] = pathCost l [] + pathCost r [] + weight l + weight r := by
  simp only [mergeNodes, pathCost, leafInfo, hl, Bool.false_and, List.map_append,
    List.sum_append]
  have h0 := pathCost_shift l ([] ++ [chr0])
  have h1 := pathCost_shift r ([] ++ [chr1])
  simp only [pathCost] at h0 h1
  rw [h0, h1]
  simp
  ring

theorem pathCost_leaf (d : Byte) (f : Int) : pathCost (newHuffmanNode d f) [] = 0 := by
  simp [pathCost, newHuffmanNode, leafInfo, HuffmanNode.isNull]

theorem weightInv_step (total : Int) (htotal : total < 2147483648) (q : List HuffmanNode)
    (left right : HuffmanNode) (rest q1 : List HuffmanNode)
    (hq : q.Perm (left :: right :: rest)) (hq1 : q1.Perm (mergeNodes left right :: rest))
    (h : WeightInv total q) :
    WeightInv total q1 ∧ (mergeNodes left right).frequency = left.frequency + right.frequency := by
  obtain ⟨hall, hsum⟩ := h
  have hl := hall left (hq.symm.subset (by simp))
  have hr := hall right (hq.symm.subset (by simp))
  have hrest : ∀ t ∈ rest, sumInvariant t = true ∧ 0 ≤ t.frequency :=
    fun t ht => hall t (hq.symm.subset (by simp [ht]))
  have hsum1 : left.frequency + (right.frequency + (rest.map HuffmanNode.frequency).sum)
      = total := by
    rw [← hsum, (hq.map HuffmanNode.frequency).sum_eq]
    simp
  have hnn : 0 ≤ (rest.map HuffmanNode.frequency).sum := by
    apply List.sum_nonneg
    intro x hx
    obtain ⟨t, ht, rfl⟩ := List.mem_map.1 hx
    exact (hrest t ht).2
  have hfreq : (mergeNodes left right).frequency = left.frequency + right.frequency := by
    show wrapInt32 _ = _
    exact wrapInt32_eq (by linarith [hl.2, hr.2]) (by linarith)
  refine ⟨⟨?_, ?_⟩, hfreq⟩
  · intro t ht
    rcases List.mem_cons.1 (hq1.subset ht) with rfl | ht
    · refine ⟨?_, by rw [hfreq]; linarith [hl.2, hr.2]⟩
      have hw : wrapInt32 (left.frequency + right.frequency)
          = left.frequency + right.frequency := hfreq
      simp [mergeNodes, sumInvariant, hw, hl.1, hr.1]
    · exact hrest t ht
  · rw [(hq1.map HuffmanNode.frequency).sum_eq]
    simp only [List.map_cons, List.sum_cons, hfreq]
    linarith

theorem weightInv_init (freq : UMap Int) (hpos : ∀ p ∈ freq, 0 ≤ p.2) (q : List HuffmanNode)
    (hq : q.Perm (freq.map (fun p => newHuffmanNode p.1 p.2))) :
    WeightInv (freq.map Prod.snd).sum q := by
  constructor
  · intro t ht
    obtain ⟨p, hp, rfl⟩ := List.mem_map.1 (hq.subset ht)
    exact ⟨by simp [newHuffmanNode, sumInvariant, HuffmanNode.isNull], hpos p hp⟩
  · rw [(hq.map HuffmanNode.frequency).sum_eq, List.map_map]
    rfl

/-- With non-negative frequencies that add up to less than `2 ^ 31`, the tree
satisfies the sum invariant and its root carries the total. -/
theorem buildHuffmanTree_weight (Q : PriorityQueue) (freq : UMap Int) (hne : freq ≠ [])
    (hpos : ∀ p ∈ freq, 0 ≤ p.2) (hsum : (freq.map Prod.snd).sum < 2147483648) :
    ∃ root, buildHuffmanTree Q freq = .ok root ∧ sumInvariant root = true ∧
      root.frequency = (freq.map Prod.snd).sum := by
  obtain ⟨r, hrun, hall, hs⟩ := buildHuffmanTree_invariant Q (WeightInv (freq.map Prod.snd).sum)
    (fun q left right rest q1 hq _ _ hq1 h =>
      (weightInv_step _ hsum q left right rest q1 hq hq1 h).1)
    freq hne (weightInv_init freq hpos)
  exact ⟨r, hrun, (hall r (by simp)).1, by simpa using hs⟩

/-! ### Optimality -/

theorem optInv_init (freq : UMap Int) (hpos : ∀ p ∈ freq, 0 ≤ p.2) (q : List HuffmanNode)
    (hq : q.Perm (freq.map (fun p => newHuffmanNode p.1 p.2))) : OptInv freq q := by
  refine ⟨shapeInv_init freq q hq, weightInv_init freq hpos q hq, ?_⟩
  intro K hK ps hps hf
  have h1 := hK ps (hps.trans (by
    refine List.Perm.trans ?_ (hq.map HuffmanNode.frequency).symm
    rw [List.map_map]
    exact List.Perm.refl _)) hf
  have h2 : (q.map (fun t => pathCost t [])).sum = 0 := by
    rw [(hq.map _).sum_eq, List.map_map]
    apply List.sum_eq_zero
    intro x hx
    obtain ⟨p, _, rfl⟩ := List.mem_map.1 hx
    exact pathCost_leaf p.1 p.2
  rw [h2] at h1
  simpa using h1

theorem optInv_step (freq : UMap Int) (hsum : (freq.map Prod.snd).sum < 2147483648)
    (q : List HuffmanNode) (left right : HuffmanNode) (rest q1 : List HuffmanNode)
    (hq : q.Perm (left :: right :: rest))
    (hmin1 : ∀ y ∈ right :: rest, left.frequency ≤ y.frequency)
    (hmin2 : ∀ y ∈ rest, right.frequency ≤ y.frequency)
    (hq1 : q1.Perm (mergeNodes left right :: rest)) (h : OptInv freq q) : OptInv freq q1 := by
  obtain ⟨hshape, hweight, hopt⟩ := h
  obtain ⟨hweight1, hfreq⟩ := weightInv_step _ hsum q left right rest q1 hq hq1 hweight
  refine ⟨shapeInv_step freq q left right rest q1 hq hq1 hshape, hweight1, ?_⟩
  intro K hK
  apply hopt K
  intro ps hps hf
  have hl := hweight.1 left (hq.symm.subset (by simp))
  have hr := hweight.1 right (hq.symm.subset (by simp))
  have hsl := hshape.1 left (hq.symm.subset (by simp))
  have hsr := hshape.1 right (hq.symm.subset (by simp))
  have hps1 : (ps.map Prod.fst).Perm
      (left.frequency :: right.frequency :: rest.map HuffmanNode.frequency) :=
    hps.trans (by simpa using hq.map HuffmanNode.frequency)
  obtain ⟨ps1, hp1, hf1, hcost⟩ := merge_bound left.frequency right.frequency
    (rest.map HuffmanNode.frequency) ps hl.2 (hmin1 right (List.mem_cons_self _ _))
    (by
      intro x hx
      obtain ⟨t, ht, rfl⟩ := List.mem_map.1 hx
      exact hmin2 t ht) hps1 hf
  have hb := hK ps1 (hp1.trans (by
    refine List.Perm.trans ?_ (hq1.map HuffmanNode.frequency).symm
    simp [hfreq])) hf1
  have e1 : (q1.map (fun t => pathCost t [])).sum =
      pathCost (mergeNodes left right) [] + (rest.map (fun t => pathCost t [])).sum := by
    rw [(hq1.map _).sum_eq]
    simp
  have e2 : (q.map (fun t => pathCost t [])).sum =
      pathCost left [] + (pathCost right [] + (rest.map (fun t => pathCost t [])).sum) := by
    rw [(hq.map _).sum_eq]
    simp
  rw [e1, pathCost_mergeNodes left right (isStrict_ne_null hsl),
    ← frequency_eq_weight left hsl hl.1, ← frequency_eq_weight right hsr hr.1] at hb
  rw [e2]
  linarith

theorem at_of_mem (m : UMap CString) (hnd : m.keys.Nodup) (k : Byte) (v : CString)
    (h : (k, v) ∈ m) : UMap.at m k = v := by
  induction m with
  | nil => simp at h
  | cons p m ih =>
    obtain ⟨k1, v1⟩ := p
    simp only [UMap.keys, List.map_cons, List.nodup_cons] at hnd
    rcases List.mem_cons.1 h with e | hm
    · simp only [Prod.mk.injEq] at e
      obtain ⟨rfl, rfl⟩ := e
      simp [UMap.at]
    · have hne : ¬ k1 = k := by
        rintro rfl
        exact hnd.1 (List.mem_map_of_mem Prod.fst hm)
      simp only [UMap.at, if_neg hne]
      exact ih hnd.2 hm

theorem codeCost_paths (root : HuffmanNode) (freq : UMap Int) (hp : (leaves root).Perm freq)
    (hkeys : freq.keys.Nodup) :
    codeCost freq (UMap.at (paths root [])) = pathCost root [] := by
  have hnd : (paths root []).keys.Nodup := by
    rw [paths_keys]
    exact ((hp.map Prod.fst).nodup_iff).2 hkeys
  unfold codeCost
  rw [← (hp.map _).sum_eq]
  simp only [leaves, pathCost, List.map_map]
  congr 1
  apply List.map_congr_left
  intro x hx
  have : (x.1, x.2.2) ∈ paths root [] := List.mem_map_of_mem (fun x => (x.1, x.2.2)) hx
  simp [at_of_mem _ hnd _ _ this]

/-- The cost of the generated table is at most the cost of every assignment of
feasible code lengths to the entries of the map. -/
theorem buildHuffmanTree_optimal (Q : PriorityQueue) (freq : UMap Int) (hne : freq ≠ [])
    (hkeys : freq.keys.Nodup) (hpos : ∀ p ∈ freq, 0 ≤ p.2)
    (hsum : (freq.map Prod.snd).sum < 2147483648) :
    ∃ root, buildHuffmanTree Q freq = .ok root ∧
      OptGoal freq (codeCost freq (UMap.at (generateCodes root [] []))) := by
  obtain ⟨r, hrun, hshape, hweight, hopt⟩ := buildHuffmanTree_invariant Q (OptInv freq)
    (fun q left right rest q1 hq h1 h2 hq1 h =>
      optInv_step freq hsum q left right rest q1 hq h1 h2 hq1 h)
    freq hne (optInv_init freq hpos)
  refine ⟨r, hrun, ?_⟩
  have hp : (leaves r).Perm freq := by simpa using hshape.2
  rw [generateCodes_eq_paths r (((hp.map Prod.fst).nodup_iff).2 hkeys),
    codeCost_paths r freq hp hkeys]
  apply hopt
  intro ps hps hf
  have hr0 := (hweight.1 r (by simp)).2
  have hlen := hps.length_eq
  simp only [List.length_map, List.length_singleton] at hlen
  match ps, hlen with
  | [p], _ =>
    simp only [List.map_cons, List.map_nil, List.perm_singleton, List.cons.injEq,
      and_true] at hps
    simp only [assignCost_cons, assignCost, List.map_nil, List.sum_nil, add_zero, hps,
      List.map_cons, List.sum_cons, le_add_iff_nonneg_left]
    exact mul_nonneg hr0 (by positivity)

/-- The code lengths of a binary code in which no codeword is a beginning of
the codeword of a different symbol satisfy Kraft's inequality. -/
theorem feasible_of_code (freq : UMap Int) (hkeys : freq.keys.Nodup) (code : Byte → CString)
    (hbin : ∀ p ∈ freq, ∀ b ∈ code p.1, b = chr0 ∨ b = chr1)
    (hpf : ∀ p1 ∈ freq, ∀ p2 ∈ freq, p1.1 ≠ p2.1 → ¬ code p1.1 <+: code p2.1) :
    Feasible ((freq.map (fun p => (p.2, (code p.1).length))).map Prod.snd) := by
  have e : (freq.map (fun p => (p.2, (code p.1).length))).map Prod.snd
      = (freq.map (fun p => code p.1)).map List.length := by
    simp [List.map_map, Function.comp_def]
  rw [e]
  apply feasible_of_incomparable
  · intro c hc b hb
    obtain ⟨p, hp, rfl⟩ := List.mem_map.1 hc
    exact hbin p hp b hb
  · rw [List.pairwise_map]
    have h1 : freq.Pairwise (fun p1 p2 => p1.1 ≠ p2.1) := by
      simpa [UMap.keys, List.Nodup, List.pairwise_map] using hkeys
    refine (List.Pairwise.and_mem.1 h1).imp ?_
    rintro p1 p2 ⟨h1, h2, hne⟩
    exact ⟨hpf p1 h1 p2 h2 hne, hpf p2 h2 p1 h1 (Ne.symm hne)⟩

/-! ### The frequency map -/

theorem keys_increment (m : UMap Int) (c : Byte) :
    (UMap.increment m c).keys = if c ∈ m.keys then m.keys else m.keys ++ [c] := by
  induction m with
  | nil => simp [UMap.increment, UMap.keys]
  | cons p m ih =>
    obtain ⟨k, v⟩ := p
    by_cases h : k = c
    · subst h
      simp [UMap.increment, UMap.keys]
    · have hc : ¬ c = k := fun e => h e.symm
      simp only [UMap.increment, if_neg h]
      simp only [UMap.keys, List.map_cons, List.mem_cons, hc, false_or] at ih ⊢
      rw [ih]
      split <;> simp

theorem get_increment (m : UMap Int) (c k : Byte) :
    UMap.get (UMap.increment m c) k =
      if k = c then wrapInt32 (UMap.get m c + 1) else UMap.get m k := by
  induction m with
  | nil =>
    by_cases h : k = c
    · subst h; simp [UMap.increment, UMap.get]
    · have hc : ¬ c = k := fun e => h e.symm
      simp [UMap.increment, UMap.get, h, hc]
  | cons p m ih =>
    obtain ⟨k1, v⟩ := p
    by_cases h1 : k1 = c
    · subst h1
      by_cases h : k = k1
      · subst h; simp [UMap.increment, UMap.get]
      · have hc : ¬ k1 = k := fun e => h e.symm
        simp [UMap.increment, UMap.get, h, hc]
    · simp only [UMap.increment, if_neg h1, UMap.get]
      by_cases h : k = c
      · subst h
        simp only [if_neg h1, if_true]
        rw [ih, if_pos rfl]
      · rw [ih, if_neg h, if_neg h]

theorem entries_eq (m : UMap Int) : m = m.keys.map (fun k => (k, UMap.get m k)) ∨
    ¬ m.keys.Nodup := by
  induction m with
  | nil => left; rfl
  | cons p m ih =>
    obtain ⟨k, v⟩ := p
    by_cases hnd : (UMap.keys ((k, v) :: m)).Nodup
    · left
      simp only [UMap.keys, List.map_cons, List.nodup_cons] at hnd
      rcases ih with ih | ih
      · simp only [UMap.keys, List.map_cons, UMap.get, if_true, List.cons.injEq, true_and]
        conv_lhs => rw [ih]
        simp only [UMap.keys]
        apply List.map_congr_left
        intro a ha
        have : ¬ k = a := by
          rintro rfl
          exact hnd.1 ha
        simp [this]
      · exact absurd hnd.2 ih
    · right; exact hnd

theorem countFreq_fold (input : CString) : ∀ acc : UMap Int, acc.keys.Nodup →
    (input.foldl UMap.increment acc).keys.Nodup ∧
    (∀ b, b ∈ (input.foldl UMap.increment acc).keys ↔ b ∈ acc.keys ∨ b ∈ input) ∧
    (∀ k, 0 ≤ UMap.get acc k → UMap.get acc k + (input.count k : Int) < 2147483648 →
      UMap.get (input.foldl UMap.increment acc) k = UMap.get acc k + (input.count k : Int)) := by
  induction input with
  | nil => intro acc h; simp [h]
  | cons c rest ih =>
    intro acc hnd
    have hnd1 : (UMap.increment acc c).keys.Nodup := by
      rw [keys_increment]
      split
      · exact hnd
      · rename_i hc
        exact List.Nodup.append hnd (List.nodup_singleton c) (by simpa using hc)
    obtain ⟨h1, h2, h3⟩ := ih (UMap.increment acc c) hnd1
    refine ⟨h1, ?_, ?_⟩
    · intro b
      rw [List.foldl_cons, h2 b, keys_increment]
      split
      · rename_i hc
        simp only [List.mem_cons]
        constructor
        · rintro (h | h)
          · exact Or.inl h
          · exact Or.inr (Or.inr h)
        · rintro (h | h | h)
          · exact Or.inl h
          · exact Or.inl (h ▸ hc)
          · exact Or.inr h
      · simp only [List.mem_append, List.mem_singleton, List.mem_cons]
        tauto
    · intro k h0 hlt
      rw [List.foldl_cons, h3 k, get_increment]
      · by_cases hk : k = c
        · subst hk
          rw [if_pos rfl, wrapInt32_eq (by linarith)]
          · simp only [List.count_cons_self, Nat.cast_add, Nat.cast_one]
            ring
          · simp only [List.count_cons_self, Nat.cast_add, Nat.cast_one] at hlt
            linarith
        · rw [if_neg hk, List.count_cons_of_ne hk]
      · rw [get_increment]
        by_cases hk : k = c
        · subst hk
          rw [if_pos rfl, wrapInt32_eq (by linarith)]
          · linarith
          · simp only [List.count_cons_self, Nat.cast_add, Nat.cast_one] at hlt
            linarith
        · rw [if_neg hk]; exact h0
      · rw [get_increment]
        by_cases hk : k = c
        · subst hk
          rw [if_pos rfl]
          simp only [List.count_cons_self, Nat.cast_add, Nat.cast_one] at hlt
          rw [wrapInt32_eq (by linarith) (by linarith)]
          linarith
        · rw [if_neg hk]
          rw [List.count_cons_of_ne hk] at hlt
          exact hlt

/-- The frequency map of an input shorter than `2 ^ 31`: one entry for each
distinct byte, holding its number of occurrences. -/
theorem countFreq_spec (input : CString) (hlen : input.length < 2147483648) :
    (countFreq input).keys.Nodup ∧ (∀ b, b ∈ (countFreq input).keys ↔ b ∈ input) ∧
      countFreq input = (countFreq input).keys.map (fun k => (k, (input.count k : Int))) := by
  obtain ⟨h1, h2, h3⟩ := countFreq_fold input [] (by simp [UMap.keys])
  refine ⟨h1, fun b => by simpa [UMap.keys, countFreq] using h2 b, ?_⟩
  rcases entries_eq (countFreq input) with h | h
  · conv_lhs => rw [h]
    apply List.map_congr_left
    intro k _
    have hc : (input.count k : Int) < 2147483648 := by
      have := List.count_le_length k input
      omega
    have := h3 k (by simp [UMap.get]) (by simpa [UMap.get] using hc)
    simp only [UMap.get, zero_add] at this
    simp only [countFreq, this]
  · exact absurd h1 h

theorem countFreq_keys_nodup (input : CString) : (countFreq input).keys.Nodup :=
  (countFreq_fold input [] (by simp [UMap.keys])).1

theorem countFreq_mem_keys (input : CString) (b : Byte) :
    b ∈ (countFreq input).keys ↔ b ∈ input := by
  simpa [UMap.keys, countFreq] using (countFreq_fold input [] (by simp [UMap.keys])).2.1 b

theorem countFreq_ne_nil (input : CString) (h : input ≠ []) : countFreq input ≠ [] := by
  intro e
  cases input with
  | nil => exact h rfl
  | cons c rest =>
    have := (countFreq_mem_keys (c :: rest) c).2 (List.mem_cons_self _ _)
    rw [e] at this
    simp [UMap.keys] at this

theorem countFreq_pos (input : CString) (hlen : input.length < 2147483648) :
    ∀ p ∈ countFreq input, 0 < p.2 := by
  obtain ⟨_, h2, h3⟩ := countFreq_spec input hlen
  intro p hp
  rw [h3] at hp
  obtain ⟨k, hk, rfl⟩ := List.mem_map.1 hp
  have : 0 < input.count k := List.count_pos_iff.2 ((h2 k).1 hk)
  show (0 : Int) < (input.count k : Int)
  exact_mod_cast this

theorem countFreq_sum (input : CString) (hlen : input.length < 2147483648) :
    ((countFreq input).map Prod.snd).sum = (input.length : Int) := by
  obtain ⟨h1, h2, h3⟩ := countFreq_spec input hlen
  have hperm : (countFreq input).keys.Perm input.dedup := by
    rw [List.perm_ext_iff_of_nodup h1 (List.nodup_dedup _)]
    intro b
    rw [h2 b, List.mem_dedup]
  rw [h3, List.map_map]
  have e : (Prod.snd ∘ fun k => (k, (input.count k : Int))) = fun k => ((input.count k : Nat) : Int) := rfl
  rw [e, (hperm.map _).sum_eq]
  have := List.sum_map_count_dedup_eq_length input
  have h4 : ((input.dedup.map (fun k => input.count k)).sum : Int) = input.length := by
    exact_mod_cast this
  rw [← h4]
  simp [List.map_map, Function.comp_def]

/-! ### Degenerate inputs -/

theorem encodeWith_eq_flatMap (codes : UMap CString) (input : CString) :
    encodeWith codes input = input.flatMap (UMap.at codes) := by
  have key : ∀ (l : CString) (init : CString),
      l.foldl (fun encoded c => encoded ++ UMap.at codes c) init
        = init ++ l.flatMap (UMap.at codes) := by
    intro l
    induction l with
    | nil => intro init; simp
    | cons c l ih =>
      intro init
      rw [List.foldl_cons, ih, List.flatMap_cons, List.append_assoc]
  simpa [encodeWith] using key input []

theorem iterate_ne_nil {V : Type} (O : MapOrder V) (m : UMap V) (h : m ≠ []) :
    O.iterate m ≠ [] := by
  intro e
  have hperm := O.iterate_perm m
  rw [e] at hperm
  exact h hperm.symm.eq_nil

theorem buildHuffmanTree_nil (Q : PriorityQueue) :
    buildHuffmanTree Q [] = .error .emptyQueueTop := by
  simp [buildHuffmanTree, pushLeaves, mergeLoop, Q.top_nil]

theorem buildHuffmanTree_singleton (Q : PriorityQueue) (b : Byte) (v : Int) :
    buildHuffmanTree Q [(b, v)] = .ok (newHuffmanNode b v) := by
  obtain ⟨hv, hp⟩ := pushLeaves_valid_perm Q [(b, v)]
  simp only [List.map_cons, List.map_nil, List.perm_singleton] at hp
  rw [hp] at hv
  simp [buildHuffmanTree, hp, mergeLoop, top_singleton Q _ hv]

theorem countFreq_replicate (b : Byte) (n : Nat) :
    ∃ v, countFreq (List.replicate (n + 1) b) = [(b, v)] := by
  have hnd := countFreq_keys_nodup (List.replicate (n + 1) b)
  have hmem := countFreq_mem_keys (List.replicate (n + 1) b)
  generalize countFreq (List.replicate (n + 1) b) = m at hnd hmem
  have hb : ∀ k ∈ m.keys, k = b := by
    intro k hk
    exact List.eq_of_mem_replicate ((hmem k).1 hk)
  match m, hnd, hmem, hb with
  | [], _, hmem, _ =>
    have := (hmem b).2 (by simp)
    simp [UMap.keys] at this
  | [(k, v)], _, _, hb =>
    have := hb k (by simp [UMap.keys])
    subst this
    exact ⟨v, rfl⟩
  | (k1, v1) :: (k2, v2) :: rest, hnd, _, hb =>
    have h1 := hb k1 (by simp [UMap.keys])
    have h2 := hb k2 (by simp [UMap.keys])
    subst h1 h2
    simp [UMap.keys] at hnd

/-! ### The body of the output -/

theorem bitset8_all (s : CString) (h : IsBits s) :
    s.all (fun c => c == chr0 || c == chr1) = true := by
  rw [List.all_eq_true]
  intro c hc
  rcases h c hc with rfl | rfl <;> decide

set_option maxRecDepth 8000 in
theorem bitset8_expand (w : CString) (hlen : w.length = 8) (hbits : IsBits w) :
    ∃ v, bitset8 w = .ok v ∧ expandByte (toByte v) = w := by
  match w, hlen, hbits with
  | [b7, b6, b5, b4, b3, b2, b1, b0], _, hbits =>
    have h7 := hbits b7 (by simp)
    have h6 := hbits b6 (by simp)
    have h5 := hbits b5 (by simp)
    have h4 := hbits b4 (by simp)
    have h3 := hbits b3 (by simp)
    have h2 := hbits b2 (by simp)
    have h1 := hbits b1 (by simp)
    have h0 := hbits b0 (by simp)
    rcases h7 with rfl | rfl <;> rcases h6 with rfl | rfl <;> rcases h5 with rfl | rfl <;>
      rcases h4 with rfl | rfl <;> rcases h3 with rfl | rfl <;> rcases h2 with rfl | rfl <;>
      rcases h1 with rfl | rfl <;> rcases h0 with rfl | rfl <;>
      exact ⟨_, rfl, by decide⟩
end Huffman
namespace Huffman

theorem padZeros_eq (fuel : Nat) (buf : CString) (h : 8 ≤ buf.length + fuel) :
    padZeros fuel buf = buf ++ List.replicate (8 - buf.length) chr0 := by
  induction fuel generalizing buf with
  | zero =>
    have : 8 - buf.length = 0 := by omega
    simp [padZeros, this]
  | succ fuel ih =>
    unfold padZeros
    split
    · rename_i hlt
      rw [ih (buf ++ [chr0]) (by simp; omega)]
      have : 8 - buf.length = (8 - (buf ++ [chr0]).length) + 1 := by simp; omega
      rw [this, List.replicate_succ, List.append_assoc]
      rfl
    · rename_i hge
      have : 8 - buf.length = 0 := by omega
      simp [this]

theorem isBits_append {s t : CString} (hs : IsBits s) (ht : IsBits t) : IsBits (s ++ t) := by
  intro c hc
  rcases List.mem_append.1 hc with h | h
  · exact hs c h
  · exact ht c h

theorem isBits_replicate (n : Nat) : IsBits (List.replicate n chr0) := by
  intro c hc
  exact Or.inl (List.eq_of_mem_replicate hc)

/-- The packing loop: the bytes written and the buffer left over together
spell the bits consumed. -/
theorem packLoop_spec (s : CString) : ∀ (buf : CString) (out : List Byte),
    buf.length < 8 → IsBits buf → IsBits s →
    ∃ buf1 out1, packLoop s (buf, out) = .ok (buf1, out1) ∧ buf1.length < 8 ∧ IsBits buf1 ∧
      out1.flatMap expandByte ++ buf1 = out.flatMap expandByte ++ buf ++ s ∧
      out1.length * 8 + buf1.length = out.length * 8 + buf.length + s.length := by
  induction s with
  | nil =>
    intro buf out hlen hbuf _
    exact ⟨buf, out, rfl, hlen, hbuf, by simp, by simp⟩
  | cons bit rest ih =>
    intro buf out hlen hbuf hs
    have hbit : IsBits [bit] := by
      intro c hc
      rw [List.mem_singleton] at hc
      exact hs c (hc ▸ List.mem_cons_self _ _)
    have hrest : IsBits rest := fun c hc => hs c (List.mem_cons_of_mem _ hc)
    by_cases h8 : (buf ++ [bit]).length = 8
    · obtain ⟨v, hv, hexp⟩ := bitset8_expand (buf ++ [bit]) h8 (isBits_append hbuf hbit)
      obtain ⟨buf1, out1, hrun, h1, h2, h3, h4⟩ :=
        ih [] (out ++ [toByte v]) (by simp) (by intro c hc; simp at hc) hrest
      refine ⟨buf1, out1, ?_, h1, h2, ?_, ?_⟩
      · simp only [packLoop, packStep, h8, if_true, hv]
        exact hrun
      · rw [h3]
        simp [List.flatMap_append, hexp]
      · simp only [List.length_append, List.length_singleton, List.length_nil,
          List.length_cons] at h4 h8 ⊢
        omega
    · obtain ⟨buf1, out1, hrun, h1, h2, h3, h4⟩ :=
        ih (buf ++ [bit]) out (by
          simp only [List.length_append, List.length_singleton] at h8 ⊢
          omega) (isBits_append hbuf hbit) hrest
      refine ⟨buf1, out1, ?_, h1, h2, ?_, ?_⟩
      · simp only [packLoop, packStep, h8, if_false]
        exact hrun
      · rw [h3]
        simp
      · rw [h4]
        simp only [List.length_append, List.length_singleton, List.length_cons,
          List.length_nil]
        omega

/-- The body: `ceil(n / 8)` bytes whose bits, most significant first, are the
bit string followed by zero bits up to the next multiple of eight. -/
theorem writeBody_spec (s : CString) (hs : IsBits s) :
    ∃ body, writeBody s = .ok body ∧ body.length = (s.length + 7) / 8 ∧
      body.flatMap expandByte = s ++ List.replicate ((8 - s.length % 8) % 8) chr0 := by
  obtain ⟨buf1, out1, hrun, h1, h2, h3, h4⟩ :=
    packLoop_spec s [] [] (by simp) (by intro c hc; simp at hc) hs
  simp only [List.flatMap_nil, List.nil_append, List.length_nil, Nat.zero_mul,
    Nat.zero_add] at h3 h4
  by_cases hempty : buf1 = []
  · subst hempty
    refine ⟨out1, ?_, ?_, ?_⟩
    · simp [writeBody, hrun]
    · simp only [List.length_nil, Nat.add_zero] at h4
      omega
    · simp only [List.length_nil, Nat.add_zero, List.append_nil] at h3 h4
      have : (8 - s.length % 8) % 8 = 0 := by omega
      rw [this, h3]
      simp
  · have hpos : 0 < buf1.length := List.length_pos.2 hempty
    have hpad := padZeros_eq 8 buf1 (by omega)
    obtain ⟨v, hv, hexp⟩ := bitset8_expand (padZeros 8 buf1)
      (by rw [hpad]; simp; omega)
      (by rw [hpad]; exact isBits_append h2 (isBits_replicate _))
    refine ⟨out1 ++ [toByte v], ?_, ?_, ?_⟩
    · have : buf1.isEmpty = false := by
        cases buf1 with
        | nil => exact absurd rfl hempty
        | cons _ _ => rfl
      simp [writeBody, hrun, this, hv]
    · simp only [List.length_append, List.length_singleton]
      omega
    · have : (8 - s.length % 8) % 8 = 8 - buf1.length := by omega
      rw [this]
      simp only [List.flatMap_append, List.flatMap_cons, List.flatMap_nil, List.append_nil,
        hexp, hpad]
      rw [← List.append_assoc, h3]

/-! ### The header of the output -/

theorem int32Bytes_length (x : Int) : (int32Bytes x).length = 4 := rfl

theorem toByte_eq_iff (a b : Nat) : toByte a = toByte b ↔ a % 256 = b % 256 := by
  simp [toByte, Fin.ext_iff]

theorem int32Bytes_inj (x y : Nat) (hx : x < 4294967296) (hy : y < 4294967296)
    (h : int32Bytes (x : Int) = int32Bytes (y : Int)) : x = y := by
  have ex : ((x : Int) % 4294967296).toNat = x := by omega
  have ey : ((y : Int) % 4294967296).toNat = y := by omega
  simp only [int32Bytes, ex, ey, List.cons.injEq, toByte_eq_iff, and_true] at h
  omega

theorem wrapInt32_natCast (n : Nat) (h : n < 2147483648) : wrapInt32 (n : Int) = (n : Int) :=
  wrapInt32_eq (by omega) (by omega)

theorem writeEntry_eq (p : Byte × CString) (h : p.2.length < 2147483648) :
    writeEntry p = p.1 :: (int32Bytes (p.2.length : Int) ++ p.2) := by
  simp [writeEntry, wrapInt32_natCast _ h]

theorem writeHeader_eq (entries : UMap CString) (hsize : entries.length < 2147483648)
    (hlen : ∀ p ∈ entries, p.2.length < 2147483648) :
    writeHeader entries = int32Bytes (entries.length : Int) ++
      entries.flatMap (fun p => p.1 :: (int32Bytes (p.2.length : Int) ++ p.2)) := by
  have e : entries.flatMap writeEntry =
      entries.flatMap (fun p => p.1 :: (int32Bytes (p.2.length : Int) ++ p.2)) :=
    List.flatMap_congr (fun p hp => writeEntry_eq p (hlen p hp))
  simp only [writeHeader, wrapInt32_natCast _ hsize, e]

theorem entries_length (entries : UMap CString) :
    (entries.flatMap (fun p => p.1 :: (int32Bytes (p.2.length : Int) ++ p.2))).length =
      (entries.map (fun p => 5 + p.2.length)).sum := by
  induction entries with
  | nil => rfl
  | cons p rest ih =>
    simp only [List.flatMap_cons, List.length_append, List.length_cons, int32Bytes_length,
      List.map_cons, List.sum_cons, ih]
    omega

theorem entries_inj : ∀ (E1 E2 : UMap CString) (r1 r2 : List Byte),
    E1.length = E2.length → (∀ p ∈ E1, p.2.length < 2147483648) →
    (∀ p ∈ E2, p.2.length < 2147483648) →
    E1.flatMap (fun p => p.1 :: (int32Bytes (p.2.length : Int) ++ p.2)) ++ r1 =
      E2.flatMap (fun p => p.1 :: (int32Bytes (p.2.length : Int) ++ p.2)) ++ r2 →
    E1 = E2 ∧ r1 = r2 := by
  intro E1
  induction E1 with
  | nil =>
    intro E2 r1 r2 hlen _ _ h
    have : E2 = [] := List.length_eq_zero.1 hlen.symm
    subst this
    exact ⟨rfl, by simpa using h⟩
  | cons p1 E1 ih =>
    intro E2 r1 r2 hlen h1 h2 h
    cases E2 with
    | nil => simp at hlen
    | cons p2 E2 =>
      obtain ⟨k1, c1⟩ := p1
      obtain ⟨k2, c2⟩ := p2
      simp only [List.flatMap_cons, List.cons_append, List.append_assoc, List.cons.injEq] at h
      obtain ⟨hk, hrest⟩ := h
      have hl1 := h1 (k1, c1) (List.mem_cons_self _ _)
      have hl2 := h2 (k2, c2) (List.mem_cons_self _ _)
      simp only at hl1 hl2
      obtain ⟨hb, hrest1⟩ := List.append_inj hrest (by simp [int32Bytes_length])
      have hcl : c1.length = c2.length := int32Bytes_inj _ _ (by omega) (by omega) hb
      obtain ⟨hc, hrest2⟩ := List.append_inj hrest1 hcl
      obtain ⟨hE, hr⟩ := ih E2 r1 r2 (by simpa using hlen)
        (fun p hp => h1 p (List.mem_cons_of_mem _ hp))
        (fun p hp => h2 p (List.mem_cons_of_mem _ hp)) hrest2
      exact ⟨by rw [hk, hc, hE], hr⟩

/-- The header determines the table and where the body starts. -/
theorem writeHeader_inj (E1 E2 : UMap CString) (r1 r2 : List Byte)
    (hs1 : E1.length < 2147483648) (hs2 : E2.length < 2147483648)
    (h1 : ∀ p ∈ E1, p.2.length < 2147483648) (h2 : ∀ p ∈ E2, p.2.length < 2147483648)
    (h : writeHeader E1 ++ r1 = writeHeader E2 ++ r2) : E1 = E2 ∧ r1 = r2 := by
  rw [writeHeader_eq E1 hs1 h1, writeHeader_eq E2 hs2 h2, List.append_assoc,
    List.append_assoc] at h
  obtain ⟨hb, hrest⟩ := List.append_inj h (by simp [int32Bytes_length])
  have hlen : E1.length = E2.length := int32Bytes_inj _ _ (by omega) (by omega) hb
  exact entries_inj E1 E2 r1 r2 hlen h1 h2 hrest

/-! ### The whole pipeline -/

theorem leafInfo_isBits (t : HuffmanNode) (code : CString) (hcode : IsBits code) :
    ∀ x ∈ leafInfo t code, IsBits x.2.2 := by
  induction t generalizing code with
  | null => simp [leafInfo]
  | node d f l r ihl ihr =>
    intro x hx
    simp only [leafInfo, List.mem_append] at hx
    rcases hx with hx | hx | hx
    · split at hx
      · rw [List.mem_singleton] at hx
        subst hx
        exact hcode
      · simp at hx
    · exact ihl _ (isBits_append hcode (by intro c hc; simp at hc; exact Or.inl hc)) x hx
    · exact ihr _ (isBits_append hcode (by intro c hc; simp at hc; exact Or.inr hc)) x hx

theorem leafInfo_ne_nil (t : HuffmanNode) (code : CString) (hs : isStrict t = true) :
    0 < (leafInfo t code).length := by
  induction t generalizing code with
  | null => simp [isStrict] at hs
  | node d f l r ihl _ =>
    by_cases h : (l.isNull && r.isNull) = true
    · simp [leafInfo, h]
    · have h1 : (l.isNull && r.isNull) = false := by simpa using h
      simp only [isStrict, h1, Bool.false_or, Bool.and_eq_true] at hs
      have := ihl (code ++ [chr0]) hs.1
      simp only [leafInfo, h1, List.length_append]
      simp
      omega

/-- In a strict tree every path is shorter than the number of leaves. -/
theorem leafInfo_length_lt (t : HuffmanNode) (code : CString) (hs : isStrict t = true) :
    ∀ x ∈ leafInfo t code, x.2.2.length + 1 ≤ code.length + (leafInfo t code).length := by
  induction t generalizing code with
  | null => simp [isStrict] at hs
  | node d f l r ihl ihr =>
    intro x hx
    by_cases h : (l.isNull && r.isNull) = true
    · simp only [Bool.and_eq_true, isNull_iff] at h
      obtain ⟨rfl, rfl⟩ := h
      simp only [leafInfo, HuffmanNode.isNull, Bool.and_self, if_true, List.append_nil,
        List.mem_singleton] at hx ⊢
      subst hx
      simp
    · have h1 : (l.isNull && r.isNull) = false := by simpa using h
      simp only [isStrict, h1, Bool.false_or, Bool.and_eq_true] at hs
      simp only [leafInfo, h1, List.mem_append] at hx
      have hl := leafInfo_ne_nil l (code ++ [chr0]) hs.1
      have hr := leafInfo_ne_nil r (code ++ [chr1]) hs.2
      simp only [leafInfo, h1, List.length_append]
      rcases hx with hx | hx | hx
      · simp at hx
      · have := ihl (code ++ [chr0]) hs.1 x hx
        simp only [List.length_append, List.length_singleton] at this
        simp
        omega
      · have := ihr (code ++ [chr1]) hs.2 x hx
        simp only [List.length_append, List.length_singleton] at this
        simp
        omega

theorem keys_length_le (m : UMap Int) (h : m.keys.Nodup) : m.length ≤ 256 := by
  have h1 : m.keys.length ≤ Fintype.card (Fin 256) := List.Nodup.length_le_card h
  rw [Fintype.card_fin] at h1
  have h2 : m.keys.length = m.length := List.length_map _ _
  omega

/-- What `compressFile` computes on a non-empty input. -/
theorem compressFile_spec (P : Platform) (input : CString) (hne : input ≠ []) :
    ∃ root body, buildHuffmanTree P.queue (P.freqOrder.iterate (countFreq input)) = .ok root ∧
      isStrict root = true ∧ (leaves root).Perm (countFreq input) ∧
      generateCodes root [] [] = paths root [] ∧
      huffmanEncode P input = .ok (input.flatMap (UMap.at (paths root []))) ∧
      IsBits (input.flatMap (UMap.at (paths root []))) ∧
      writeBody (input.flatMap (UMap.at (paths root []))) = .ok body ∧
      compressFile P input =
        .ok (writeHeader (P.codeOrder.iterate (paths root [])) ++ body) := by
  have hperm := P.freqOrder.iterate_perm (countFreq input)
  have hne1 := iterate_ne_nil P.freqOrder _ (countFreq_ne_nil input hne)
  have hnd : (P.freqOrder.iterate (countFreq input)).keys.Nodup :=
    ((hperm.map Prod.fst).nodup_iff).2 (countFreq_keys_nodup input)
  obtain ⟨root, hrun, hs, hp, htab⟩ := buildHuffmanTree_table P.queue _ hne1 hnd
  have henc : huffmanEncode P input = .ok (input.flatMap (UMap.at (paths root []))) := by
    simp [huffmanEncode, hrun, htab, encodeWith_eq_flatMap]
  have hbits : IsBits (input.flatMap (UMap.at (paths root []))) := by
    intro c hc
    obtain ⟨b, _, hcb⟩ := List.mem_flatMap.1 hc
    have hall : ∀ (m : UMap CString), (∀ p ∈ m, IsBits p.2) → ∀ k, IsBits (UMap.at m k) := by
      intro m
      induction m with
      | nil => intro _ k c hc; simp [UMap.at] at hc
      | cons p m ih =>
        intro hm k
        obtain ⟨k1, v1⟩ := p
        simp only [UMap.at]
        split
        · exact hm (k1, v1) (List.mem_cons_self _ _)
        · exact ih (fun p hp => hm p (List.mem_cons_of_mem _ hp)) k
    refine hall (paths root []) ?_ b c hcb
    intro p hp
    obtain ⟨x, hx, rfl⟩ := List.mem_map.1 hp
    exact leafInfo_isBits root [] (by intro c hc; simp at hc) x hx
  obtain ⟨body, hbody, _, _⟩ := writeBody_spec _ hbits
  refine ⟨root, body, hrun, hs, hp.trans hperm, htab, henc, hbits, hbody, ?_⟩
  simp [compressFile, henc, hrun, htab, writeCompressedDataToFile, hbody]

/-- The table written in the header is small enough for the `int` fields. -/
theorem table_bounds (root : HuffmanNode) (freq : UMap Int) (hs : isStrict root = true)
    (hp : (leaves root).Perm freq) (hkeys : freq.keys.Nodup) :
    (paths root []).length ≤ 256 ∧ ∀ p ∈ paths root [], p.2.length < 256 := by
  have hlen : (leafInfo root []).length ≤ 256 := by
    have h1 := keys_length_le freq hkeys
    have h2 := hp.length_eq
    simp only [leaves, List.length_map] at h2
    omega
  refine ⟨by simpa [paths] using hlen, ?_⟩
  intro p hp1
  obtain ⟨x, hx, rfl⟩ := List.mem_map.1 hp1
  have := leafInfo_length_lt root [] hs x hx
  simp only [List.length_nil, Nat.zero_add] at this
  show x.2.2.length < 256
  omega

/-! ### Decoding -/

theorem at_absent (m : UMap CString) (k : Byte) (h : k ∉ m.keys) : UMap.at m k = [] := by
  induction m with
  | nil => rfl
  | cons p m ih =>
    obtain ⟨k1, v1⟩ := p
    simp only [UMap.keys, List.map_cons, List.mem_cons, not_or] at h
    have hne : ¬ k1 = k := fun e => h.1 e.symm
    simp only [UMap.at, if_neg hne]
    exact ih h.2

theorem at_mem (m : UMap CString) (k : Byte) (h : k ∈ m.keys) : (k, UMap.at m k) ∈ m := by
  induction m with
  | nil => simp [UMap.keys] at h
  | cons p m ih =>
    obtain ⟨k1, v1⟩ := p
    by_cases hk : k1 = k
    · subst hk
      simp [UMap.at]
    · simp only [UMap.keys, List.map_cons, List.mem_cons] at h
      have hk1 : ¬ k = k1 := fun e => hk e.symm
      simp only [UMap.at, if_neg hk, List.mem_cons, Prod.mk.injEq, hk1, false_and, false_or]
      exact ih (h.resolve_left hk1)

theorem at_perm (m1 m2 : UMap CString) (hp : m1.Perm m2) (hnd : m1.keys.Nodup) (k : Byte) :
    UMap.at m1 k = UMap.at m2 k := by
  have hnd2 : m2.keys.Nodup := ((hp.map Prod.fst).nodup_iff).1 hnd
  by_cases hk : k ∈ m1.keys
  · have h1 := at_mem m1 k hk
    exact (at_of_mem m2 hnd2 k _ (hp.subset h1)).symm
  · have hk2 : k ∉ m2.keys := fun h => hk ((hp.map Prod.fst).symm.subset h)
    rw [at_absent m1 k hk, at_absent m2 k hk2]

/-- A message is determined by its length and by any string that begins with
its encoding, when no codeword is a beginning of another. -/
theorem decode_unique (c : Byte → CString) (K : List Byte)
    (hpf : ∀ k1 ∈ K, ∀ k2 ∈ K, k1 ≠ k2 → ¬ c k1 <+: c k2) :
    ∀ (B1 B2 : CString) (r1 r2 : CString), B1.length = B2.length →
      (∀ b ∈ B1, b ∈ K) → (∀ b ∈ B2, b ∈ K) →
      B1.flatMap c ++ r1 = B2.flatMap c ++ r2 → B1 = B2 := by
  intro B1
  induction B1 with
  | nil =>
    intro B2 _ _ hlen _ _ _
    exact (List.length_eq_zero.1 hlen.symm).symm
  | cons x B1 ih =>
    intro B2 r1 r2 hlen h1 h2 h
    cases B2 with
    | nil => simp at hlen
    | cons y B2 =>
      simp only [List.flatMap_cons, List.append_assoc] at h
      have hx := h1 x (List.mem_cons_self _ _)
      have hy := h2 y (List.mem_cons_self _ _)
      have hxy : x = y := by
        by_contra hne
        have p1 : c x <+: c x ++ (B1.flatMap c ++ r1) := List.prefix_append _ _
        have p2 : c y <+: c x ++ (B1.flatMap c ++ r1) := by
          rw [h]; exact List.prefix_append _ _
        rcases List.prefix_or_prefix_of_prefix p1 p2 with hp | hp
        · exact hpf x hx y hy hne hp
        · exact hpf y hy x hx (Ne.symm hne) hp
      subst hxy
      have h3 := List.append_cancel_left h
      rw [ih B2 r1 r2 (by simpa using hlen) (fun b hb => h1 b (List.mem_cons_of_mem _ hb))
        (fun b hb => h2 b (List.mem_cons_of_mem _ hb)) h3]

theorem paths_incomparable (root : HuffmanNode)
    (k1 k2 : Byte) (h1 : k1 ∈ (paths root []).keys) (h2 : k2 ∈ (paths root []).keys)
    (hne : k1 ≠ k2) :
    ¬ UMap.at (paths root []) k1 <+: UMap.at (paths root []) k2 := by
  have m1 := at_mem _ k1 h1
  have m2 := at_mem _ k2 h2
  have := (paths_pairwise root []).forall incomparable_symm m1 m2
    (fun e => hne (congrArg Prod.fst e))
  exact this.1

/-- Two inputs of the same length with the same compressed output are equal. -/
theorem compressFile_inj (P : Platform) (B1 B2 : CString) (hlen : B1.length = B2.length)
    (h : compressFile P B1 = compressFile P B2) : B1 = B2 := by
  by_cases hne1 : B1 = []
  · subst hne1
    exact (List.length_eq_zero.1 hlen.symm).symm
  have hne2 : B2 ≠ [] := by
    intro e
    subst e
    exact hne1 (List.length_eq_zero.1 hlen)
  obtain ⟨root1, body1, _, hs1, hp1, _, _, hbits1, hbody1, hout1⟩ :=
    compressFile_spec P B1 hne1
  obtain ⟨root2, body2, _, hs2, hp2, _, _, hbits2, hbody2, hout2⟩ :=
    compressFile_spec P B2 hne2
  rw [hout1, hout2] at h
  have h := Except.ok.inj h
  have hk1 := countFreq_keys_nodup B1
  have hk2 := countFreq_keys_nodup B2
  obtain ⟨hsz1, hcl1⟩ := table_bounds root1 _ hs1 hp1 hk1
  obtain ⟨hsz2, hcl2⟩ := table_bounds root2 _ hs2 hp2 hk2
  have hi1 := P.codeOrder.iterate_perm (paths root1 [])
  have hi2 := P.codeOrder.iterate_perm (paths root2 [])
  obtain ⟨hE, hbody⟩ := writeHeader_inj _ _ body1 body2
    (by have := hi1.length_eq; omega) (by have := hi2.length_eq; omega)
    (fun p hp => by have := hcl1 p (hi1.subset hp); omega)
    (fun p hp => by have := hcl2 p (hi2.subset hp); omega) h
  have hT : (paths root1 []).Perm (paths root2 []) := by
    refine hi1.symm.trans ?_
    rw [hE]
    exact hi2
  have hnd1 : (paths root1 []).keys.Nodup := by
    rw [paths_keys]
    exact ((hp1.map Prod.fst).nodup_iff).2 hk1
  have hat : UMap.at (paths root2 []) = UMap.at (paths root1 []) :=
    funext (fun k => (at_perm _ _ hT hnd1 k).symm)
  rw [hat] at hbits2 hbody2
  obtain ⟨b1, hb1, _, he1⟩ := writeBody_spec _ hbits1
  obtain ⟨b2, hb2, _, he2⟩ := writeBody_spec _ hbits2
  rw [hbody1] at hb1
  rw [hbody2] at hb2
  have e1 := Except.ok.inj hb1
  have e2 := Except.ok.inj hb2
  subst e1 e2
  rw [hbody, he2] at he1
  have hmem1 : ∀ b ∈ B1, b ∈ (paths root1 []).keys := by
    intro b hb
    rw [paths_keys]
    exact (hp1.map Prod.fst).symm.subset ((countFreq_mem_keys B1 b).2 hb)
  have hmem2 : ∀ b ∈ B2, b ∈ (paths root1 []).keys := by
    intro b hb
    have : b ∈ (paths root2 []).keys := by
      rw [paths_keys]
      exact (hp2.map Prod.fst).symm.subset ((countFreq_mem_keys B2 b).2 hb)
    exact (hT.map Prod.fst).symm.subset this
  exact decode_unique (UMap.at (paths root1 [])) (paths root1 []).keys
    (fun k1 h1 k2 h2 hne => paths_incomparable root1 k1 k2 h1 h2 hne)
    B1 B2 _ _ hlen hmem1 hmem2 he1.symm

/-! ### Inputs whose output does not depend on the platform -/

/-- With two symbols of different frequencies the tree does not depend on the
platform: the rarer symbol is the left leaf. -/
theorem buildHuffmanTree_pair (Q : PriorityQueue) (a b : Byte) (fa fb : Int) (hlt : fb < fa)
    (freq : UMap Int) (hfreq : freq.Perm [(a, fa), (b, fb)]) :
    buildHuffmanTree Q freq =
      .ok (mergeNodes (newHuffmanNode b fb) (newHuffmanNode a fa)) := by
  obtain ⟨hv, hp⟩ := pushLeaves_valid_perm Q freq
  have hp0 : (pushLeaves Q freq).Perm [newHuffmanNode a fa, newHuffmanNode b fb] :=
    hp.trans (hfreq.map _)
  have hlen : (pushLeaves Q freq).length = 2 := hp0.length_eq
  have hne : pushLeaves Q freq ≠ [] := by
    intro e; rw [e] at hlen; simp at hlen
  obtain ⟨x, hx, hxmem, hxmin⟩ := Q.top_min _ hv hne
  have hxb : x = newHuffmanNode b fb := by
    have hx1 := hp0.subset hxmem
    simp only [List.mem_cons, List.mem_singleton, List.not_mem_nil, or_false] at hx1
    rcases hx1 with rfl | rfl
    · have := hxmin (newHuffmanNode b fb) (hp0.symm.subset (by simp))
      simp only [Compare, newHuffmanNode, HuffmanNode.frequency, gt_iff_lt,
        decide_eq_false_iff_not, not_lt] at this
      omega
    · rfl
  subst hxb
  have hp1 := Q.pop_perm _ _ hv hx
  have hv1 := Q.valid_pop _ hv hne
  have hp1a : (Q.pop (pushLeaves Q freq)).Perm [newHuffmanNode a fa] := by
    have h := hp1.trans hp0
    have h2 : (newHuffmanNode b fb :: Q.pop (pushLeaves Q freq)).Perm
        [newHuffmanNode b fb, newHuffmanNode a fa] := h.trans (List.Perm.swap _ _ _)
    exact h2.cons_inv
  rw [List.perm_singleton] at hp1a
  rw [hp1a] at hv1
  have ht1 := top_singleton Q _ hv1
  have hp2 := Q.pop_perm _ _ hv1 ht1
  have hv2 := Q.valid_pop _ hv1 (by simp)
  have hp2a : Q.pop [newHuffmanNode a fa] = [] := by
    have := hp2.length_eq
    simp only [List.length_cons, List.length_nil, Nat.zero_add] at this
    exact List.length_eq_zero.1 (by omega)
  rw [hp2a] at hv2
  have hp3 := Q.push_perm [] (mergeNodes (newHuffmanNode b fb) (newHuffmanNode a fa)) hv2
  have hv3 := Q.valid_push [] (mergeNodes (newHuffmanNode b fb) (newHuffmanNode a fa)) hv2
  rw [List.perm_singleton] at hp3
  rw [hp3] at hv3
  have ht3 := top_singleton Q _ hv3
  simp only [buildHuffmanTree, hlen]
  rw [mergeLoop, if_pos (by omega), hx]
  simp only [hp1a, ht1, hp2a]
  have e : Q.push [] (HuffmanNode.node chrHash
      (wrapInt32 ((newHuffmanNode b fb).frequency + (newHuffmanNode a fa).frequency))
      (newHuffmanNode b fb) (newHuffmanNode a fa)) =
      [mergeNodes (newHuffmanNode b fb) (newHuffmanNode a fa)] := hp3
  rw [e]
  simp [mergeLoop, ht3]

/-- On every platform the inputs `aaab` and `aaabb` are compressed to the same
bytes. -/
theorem collision_every_platform (P : Platform) :
    compressFile P [97, 97, 97, 98] = compressFile P [97, 97, 97, 98, 98] ∧
      ∃ out, compressFile P [97, 97, 97, 98] = .ok out := by
  have h1 : countFreq [97, 97, 97, 98] = [(97, 3), (98, 1)] := by decide
  have h2 : countFreq [97, 97, 97, 98, 98] = [(97, 3), (98, 2)] := by decide
  have t1 := buildHuffmanTree_pair P.queue 97 98 3 1 (by decide) _
    (h1 ▸ P.freqOrder.iterate_perm (countFreq [97, 97, 97, 98]))
  have t2 := buildHuffmanTree_pair P.queue 97 98 3 2 (by decide) _
    (h2 ▸ P.freqOrder.iterate_perm (countFreq [97, 97, 97, 98, 98]))
  have g : ∀ f1 f2 : Int,
      generateCodes (mergeNodes (newHuffmanNode 98 f1) (newHuffmanNode 97 f2)) [] []
        = [(98, [chr0]), (97, [chr1])] := by
    intro f1 f2
    simp [mergeNodes, newHuffmanNode, generateCodes, HuffmanNode.isNull, UMap.assign]
  have b1 : writeBody (encodeWith [(98, [chr0]), (97, [chr1])] [97, 97, 97, 98])
      = .ok [224] := by decide
  have b2 : writeBody (encodeWith [(98, [chr0]), (97, [chr1])] [97, 97, 97, 98, 98])
      = .ok [224] := by decide
  constructor
  · simp only [compressFile, huffmanEncode, h1, h2, t1, t2, g, writeCompressedDataToFile,
      b1, b2]
  · simp only [compressFile, huffmanEncode, h1, t1, g, writeCompressedDataToFile, b1]
    exact ⟨_, rfl⟩

/-! ### More inputs whose output does not depend on the platform -/

theorem writeHeader_iterate (O : MapOrder CString) (codes : UMap CString)
    (hsize : codes.length < 2147483648) (hlen : ∀ p ∈ codes, p.2.length < 2147483648) :
    writeHeader (O.iterate codes) =
        int32Bytes (codes.length : Int) ++ (O.iterate codes).flatMap
          (fun p => p.1 :: (int32Bytes (p.2.length : Int) ++ p.2)) ∧
      (writeHeader (O.iterate codes)).length =
        4 + (codes.map (fun p => 5 + p.2.length)).sum := by
  have hperm := O.iterate_perm codes
  have hEq := writeHeader_eq (O.iterate codes)
    (by rw [hperm.length_eq]; exact hsize) (fun p hp => hlen p (hperm.subset hp))
  rw [hperm.length_eq] at hEq
  refine ⟨hEq, ?_⟩
  rw [hEq, List.length_append, int32Bytes_length, entries_length, (hperm.map _).sum_eq]

/-- On every platform the output for the input `aab` is a header of sixteen
bytes followed by the single body byte `192`. -/
theorem aab_every_platform (P : Platform) :
    huffmanEncode P [97, 97, 98] = .ok [chr1, chr1, chr0] ∧
    compressFile P [97, 97, 98] =
      .ok (writeHeader (P.codeOrder.iterate [(98, [chr0]), (97, [chr1])]) ++ [192]) ∧
    (writeHeader (P.codeOrder.iterate [(98, [chr0]), (97, [chr1])])).length = 16 := by
  have h1 : countFreq [97, 97, 98] = [(97, 2), (98, 1)] := by decide
  have t1 := buildHuffmanTree_pair P.queue 97 98 2 1 (by decide) _
    (h1 ▸ P.freqOrder.iterate_perm (countFreq [97, 97, 98]))
  have g : generateCodes (mergeNodes (newHuffmanNode 98 1) (newHuffmanNode 97 2)) [] []
        = [(98, [chr0]), (97, [chr1])] := by
    simp [mergeNodes, newHuffmanNode, generateCodes, HuffmanNode.isNull, UMap.assign]
  have e1 : encodeWith [(98, [chr0]), (97, [chr1])] [97, 97, 98] = [chr1, chr1, chr0] := by
    decide
  have b1 : writeBody [chr1, chr1, chr0] = .ok [192] := by decide
  refine ⟨?_, ?_, ?_⟩
  · simp only [huffmanEncode, h1, t1, g, e1]
  · simp only [compressFile, huffmanEncode, h1, t1, g, e1, writeCompressedDataToFile, b1]
  · rw [(writeHeader_iterate P.codeOrder _ (by decide) (by decide)).2]
    rfl

/-- On every platform the header of a table with codes of 1, 2 and 2 bits has
24 bytes. -/
theorem header_every_platform (P : Platform) :
    ∃ out, writeCompressedDataToFile P []
        [(97, [chr0]), (99, [chr1, chr0]), (98, [chr1, chr1])] = .ok out ∧
      out.length = 24 := by
  have b1 : writeBody [] = .ok [] := by decide
  refine ⟨writeHeader (P.codeOrder.iterate
    [(97, [chr0]), (99, [chr1, chr0]), (98, [chr1, chr1])]) ++ [], ?_, ?_⟩
  · simp only [writeCompressedDataToFile, b1]
  · rw [List.append_nil, (writeHeader_iterate P.codeOrder _ (by decide) (by decide)).2]
    rfl

/-- On every platform the output for an input of one repeated byte is the
nine header bytes of a table holding the empty code, whatever the number of
repetitions. -/
theorem single_symbol_output (P : Platform) (b : Byte) (n : Nat) :
    compressFile P (List.replicate (n + 1) b) = .ok [1, 0, 0, 0, b, 0, 0, 0, 0] := by
  obtain ⟨v, hv⟩ := countFreq_replicate b n
  have hperm := P.freqOrder.iterate_perm (countFreq (List.replicate (n + 1) b))
  rw [hv, List.perm_singleton] at hperm
  have hgen : generateCodes (newHuffmanNode b v) [] [] = [(b, [])] := by
    simp [newHuffmanNode, generateCodes, HuffmanNode.isNull, UMap.assign]
  have henc : encodeWith [(b, [])] (List.replicate (n + 1) b) = [] := by
    rw [encodeWith_eq_flatMap, List.flatMap_eq_nil_iff]
    intro c _
    simp [UMap.at]
  have hiter : P.codeOrder.iterate [(b, [])] = [(b, [])] := by
    have := P.codeOrder.iterate_perm [(b, [])]
    rwa [List.perm_singleton] at this
  have b1 : writeBody [] = .ok [] := by decide
  have e1 : int32Bytes (wrapInt32 ((1 : Nat) : Int)) = [1, 0, 0, 0] := by decide
  have e0 : int32Bytes (wrapInt32 ((0 : Nat) : Int)) = [0, 0, 0, 0] := by decide
  have hhdr : writeHeader [(b, [])] = [1, 0, 0, 0, b, 0, 0, 0, 0] := by
    simp only [writeHeader, writeEntry, List.length_singleton, List.length_nil, e1, e0,
      List.flatMap_cons, List.flatMap_nil]
    rfl
  simp only [compressFile, huffmanEncode, hv, hperm, buildHuffmanTree_singleton, hgen, henc,
    writeCompressedDataToFile, b1, hiter, hhdr, List.append_nil]

/-! ### Reading the body back -/

theorem expandByte_getElem (b : Byte) (i : Nat) (h : i < 8) :
    (expandByte b)[i]? = some (bitChar b i) := by
  have e : expandByte b = [bitChar b 0, bitChar b 1, bitChar b 2, bitChar b 3, bitChar b 4,
      bitChar b 5, bitChar b 6, bitChar b 7] := by
    simp [expandByte, bitChar]
  rw [e]
  interval_cases i <;> rfl

theorem flatMap_expandByte_getElem (bs : List Byte) : ∀ (i : Nat) (byte : Byte),
    bs[i / 8]? = some byte → (bs.flatMap expandByte)[i]? = some (bitChar byte (i % 8)) := by
  induction bs with
  | nil => intro i byte h; simp at h
  | cons b bs ih =>
    intro i byte h
    rw [List.flatMap_cons]
    by_cases hi : i < 8
    · have h0 : i / 8 = 0 := by omega
      rw [h0] at h
      simp only [List.getElem?_cons_zero, Option.some.injEq] at h
      subst h
      rw [List.getElem?_append_left (by simpa [expandByte] using hi)]
      rw [Nat.mod_eq_of_lt hi]
      exact expandByte_getElem b i hi
    · have hlen : (expandByte b).length = 8 := by simp [expandByte]
      rw [List.getElem?_append_right (by rw [hlen]; omega), hlen]
      have h1 : i / 8 = (i - 8) / 8 + 1 := by omega
      rw [h1, List.getElem?_cons_succ] at h
      have := ih (i - 8) byte h
      rw [this]
      congr 2
      omega

/-- Reading the body back: bit `i` of the bit string is bit `7 - i % 8` of
body byte `i / 8`. -/
theorem writeBody_getElem (s : CString) (hs : IsBits s) :
    ∃ body, writeBody s = .ok body ∧
      ∀ i, i < s.length →
        ∃ byte, body[i / 8]? = some byte ∧ s[i]? = some (bitChar byte (i % 8)) := by
  obtain ⟨body, hbody, hlen, hexp⟩ := writeBody_spec s hs
  refine ⟨body, hbody, ?_⟩
  intro i hi
  have hlt : i / 8 < body.length := by omega
  refine ⟨body[i / 8], List.getElem?_eq_getElem hlt, ?_⟩
  have h1 := flatMap_expandByte_getElem body i _ (List.getElem?_eq_getElem hlt)
  rw [hexp, List.getElem?_append_left hi] at h1
  exact h1

/-! ### Leaf paths and Kraft's equality -/

theorem leafPath_not_null {code : CString} {sym : Byte} :
    ¬ LeafPath .null code sym := by
  intro h
  cases h

theorem mem_paths_iff (t : HuffmanNode) : ∀ (pre : CString) (sym : Byte) (c : CString),
    (sym, c) ∈ paths t pre ↔ ∃ code, c = pre ++ code ∧ LeafPath t code sym := by
  induction t with
  | null =>
    intro pre sym c
    simp only [paths, leafInfo, List.map_nil, List.not_mem_nil, false_iff]
    rintro ⟨code, _, h⟩
    exact leafPath_not_null h
  | node d f l r ihl ihr =>
    intro pre sym c
    have e : paths (.node d f l r) pre =
        (if l.isNull && r.isNull then [(d, pre)] else []) ++
          (paths l (pre ++ [chr0]) ++ paths r (pre ++ [chr1])) := by
      simp only [paths, leafInfo, List.map_append]
      split <;> rfl
    rw [e]
    simp only [List.mem_append, ihl, ihr]
    constructor
    · rintro (h | ⟨code, rfl, h⟩ | ⟨code, rfl, h⟩)
      · split at h
        · rename_i hleaf
          simp only [Bool.and_eq_true, isNull_iff] at hleaf
          obtain ⟨rfl, rfl⟩ := hleaf
          simp only [List.mem_singleton, Prod.mk.injEq] at h
          obtain ⟨rfl, rfl⟩ := h
          exact ⟨[], by simp, LeafPath.here _ _⟩
        · simp at h
      · exact ⟨chr0 :: code, by simp, LeafPath.left h⟩
      · exact ⟨chr1 :: code, by simp, LeafPath.right h⟩
    · rintro ⟨code, rfl, h⟩
      cases h with
      | here =>
        left
        simp [HuffmanNode.isNull]
      | left h1 =>
        right; left
        exact ⟨_, by simp, h1⟩
      | right h1 =>
        right; right
        exact ⟨_, by simp, h1⟩

theorem leafInfo_length_pos (t : HuffmanNode) (code : CString)
    (hc : hasChildren t = true) : ∀ x ∈ leafInfo t code, code.length < x.2.2.length := by
  cases t with
  | null => simp [hasChildren] at hc
  | node d f l r =>
    intro x hx
    simp only [hasChildren, Bool.not_eq_true'] at hc
    simp only [leafInfo, hc, List.mem_append] at hx
    rcases hx with hx | hx | hx
    · simp at hx
    · have := (leafInfo_code_le l _ x hx).length_le
      simp only [List.length_append, List.length_singleton] at this
      omega
    · have := (leafInfo_code_le r _ x hx).length_le
      simp only [List.length_append, List.length_singleton] at this
      omega

theorem hasChildren_of_two_leaves (t : HuffmanNode) (h : 2 ≤ (leaves t).length) :
    hasChildren t = true := by
  cases t with
  | null => simp [leaves, leafInfo] at h
  | node d f l r =>
    by_contra hc
    simp only [hasChildren, Bool.not_eq_true', Bool.not_eq_false] at hc
    simp only [Bool.and_eq_true, isNull_iff] at hc
    obtain ⟨rfl, rfl⟩ := hc
    simp [leaves, leafInfo, HuffmanNode.isNull] at h

/-- Kraft's equality for a strict tree: the leaves below a node at depth `k`
weigh `2 ^ (-k)` together. -/
theorem kraft_equality (t : HuffmanNode) (hs : isStrict t = true) : ∀ code : CString,
    ((leafInfo t code).map (fun x => ((2 : ℚ) ^ x.2.2.length)⁻¹)).sum
      = ((2 : ℚ) ^ code.length)⁻¹ := by
  induction t with
  | null => simp [isStrict] at hs
  | node d f l r ihl ihr =>
    intro code
    by_cases h : (l.isNull && r.isNull) = true
    · simp only [Bool.and_eq_true, isNull_iff] at h
      obtain ⟨rfl, rfl⟩ := h
      simp [leafInfo, HuffmanNode.isNull]
    · have h1 : (l.isNull && r.isNull) = false := by simpa using h
      simp only [isStrict, h1, Bool.false_or, Bool.and_eq_true] at hs
      simp only [leafInfo, h1, List.map_append, List.sum_append]
      rw [ihl hs.1, ihr hs.2]
      simp only [Bool.false_eq_true, if_false, List.map_nil, List.sum_nil, zero_add,
        List.length_append, List.length_singleton, pow_succ]
      field_simp
      ring

/-! ### Decoding without the length, child order, code lengths -/

/-- A message is determined by its encoding when no codeword is empty or a
beginning of another. -/
theorem decode_unique_nonempty (c : Byte → CString) (K : List Byte)
    (hpf : ∀ k1 ∈ K, ∀ k2 ∈ K, k1 ≠ k2 → ¬ c k1 <+: c k2) (hne : ∀ k ∈ K, c k ≠ []) :
    ∀ (B1 B2 : CString), (∀ b ∈ B1, b ∈ K) → (∀ b ∈ B2, b ∈ K) →
      B1.flatMap c = B2.flatMap c → B1 = B2 := by
  intro B1
  induction B1 with
  | nil =>
    intro B2 _ h2 h
    cases B2 with
    | nil => rfl
    | cons y B2 =>
      simp only [List.flatMap_nil, List.flatMap_cons] at h
      have := List.append_eq_nil.1 h.symm
      exact absurd this.1 (hne y (h2 y (List.mem_cons_self _ _)))
  | cons x B1 ih =>
    intro B2 h1 h2 h
    cases B2 with
    | nil =>
      simp only [List.flatMap_nil, List.flatMap_cons] at h
      have := List.append_eq_nil.1 h
      exact absurd this.1 (hne x (h1 x (List.mem_cons_self _ _)))
    | cons y B2 =>
      simp only [List.flatMap_cons] at h
      have hx := h1 x (List.mem_cons_self _ _)
      have hy := h2 y (List.mem_cons_self _ _)
      have hxy : x = y := by
        by_contra hxy
        have p1 : c x <+: c x ++ B1.flatMap c := List.prefix_append _ _
        have p2 : c y <+: c x ++ B1.flatMap c := by
          rw [h]; exact List.prefix_append _ _
        rcases List.prefix_or_prefix_of_prefix p1 p2 with hp | hp
        · exact hpf x hx y hy hxy hp
        · exact hpf y hy x hx (Ne.symm hxy) hp
      subst hxy
      rw [ih B2 (fun b hb => h1 b (List.mem_cons_of_mem _ hb))
        (fun b hb => h2 b (List.mem_cons_of_mem _ hb)) (List.append_cancel_left h)]

theorem buildHuffmanTree_childOrdered (Q : PriorityQueue) (freq : UMap Int)
    (hne : freq ≠ []) :
    ∃ root, buildHuffmanTree Q freq = .ok root ∧ childOrdered root = true := by
  obtain ⟨r, hrun, hinv⟩ := buildHuffmanTree_invariant Q
    (fun q => ∀ t ∈ q, childOrdered t = true)
    (fun q left right rest q1 hq hmin1 _ hq1 h => by
      intro t ht
      rcases List.mem_cons.1 (hq1.subset ht) with rfl | ht
      · have hl := h left (hq.symm.subset (by simp))
        have hr := h right (hq.symm.subset (by simp))
        have hle := hmin1 right (List.mem_cons_self _ _)
        simp [mergeNodes, childOrdered, hl, hr, hle]
      · exact h t (hq.symm.subset (by simp [ht])))
    freq hne
    (fun q hq t ht => by
      obtain ⟨p, _, rfl⟩ := List.mem_map.1 (hq.subset ht)
      simp [newHuffmanNode, childOrdered, HuffmanNode.isNull])
  exact ⟨r, hrun, hinv r (by simp)⟩

/-- The codes of a table generated from at least two symbols: none is empty
and each is shorter than the number of symbols. -/
theorem table_lengths (Q : PriorityQueue) (freq : UMap Int) (hkeys : freq.keys.Nodup)
    (h2 : 2 ≤ freq.length) :
    ∃ root, buildHuffmanTree Q freq = .ok root ∧ isStrict root = true ∧
      (leaves root).Perm freq ∧ generateCodes root [] [] = paths root [] ∧
      ∀ p ∈ paths root [], 1 ≤ p.2.length ∧ p.2.length ≤ freq.length - 1 := by
  have hne : freq ≠ [] := by
    intro e; rw [e] at h2; simp at h2
  obtain ⟨root, hrun, hs, hp, htab⟩ := buildHuffmanTree_table Q freq hne hkeys
  refine ⟨root, hrun, hs, hp, htab, ?_⟩
  intro p hmem
  obtain ⟨x, hx, rfl⟩ := List.mem_map.1 hmem
  have hlen : (leafInfo root []).length = freq.length := by
    have := hp.length_eq
    simpa [leaves] using this
  have hc := hasChildren_of_two_leaves root (by rw [hp.length_eq]; exact h2)
  have h1 := leafInfo_length_pos root [] hc x hx
  have h3 := leafInfo_length_lt root [] hs x hx
  simp only [List.length_nil, Nat.zero_add] at h1 h3
  show 1 ≤ x.2.2.length ∧ x.2.2.length ≤ freq.length - 1
  omega

/-! ### The frequency map beyond the range of int -/

theorem wrapInt32_add_wrap (x y : Int) : wrapInt32 (wrapInt32 x + y) = wrapInt32 (x + y) := by
  unfold wrapInt32
  omega

theorem wrapInt32_idem (x : Int) : wrapInt32 (wrapInt32 x) = wrapInt32 x := by
  unfold wrapInt32
  omega

theorem countFreq_fold_get (input : CString) : ∀ acc : UMap Int,
    (∀ k, wrapInt32 (UMap.get acc k) = UMap.get acc k) → ∀ k,
    UMap.get (input.foldl UMap.increment acc) k =
      wrapInt32 (UMap.get acc k + (input.count k : Int)) := by
  induction input with
  | nil => intro acc h k; simp [h k]
  | cons c rest ih =>
    intro acc h k
    have h1 : ∀ k, wrapInt32 (UMap.get (UMap.increment acc c) k) =
        UMap.get (UMap.increment acc c) k := by
      intro k
      rw [get_increment]
      split
      · exact wrapInt32_idem _
      · exact h k
    rw [List.foldl_cons, ih _ h1 k, get_increment]
    by_cases hk : k = c
    · subst hk
      rw [if_pos rfl, wrapInt32_add_wrap]
      simp only [List.count_cons_self, Nat.cast_add, Nat.cast_one]
      congr 1
      ring
    · rw [if_neg hk, List.count_cons_of_ne hk]

/-- The frequency map of any input: one entry for each distinct byte, holding
its number of occurrences reduced to the range of `int`. -/
theorem countFreq_wrap_spec (input : CString) :
    (countFreq input).keys.Nodup ∧ (∀ b, b ∈ (countFreq input).keys ↔ b ∈ input) ∧
      countFreq input =
        (countFreq input).keys.map (fun k => (k, wrapInt32 (input.count k : Int))) := by
  refine ⟨countFreq_keys_nodup input, countFreq_mem_keys input, ?_⟩
  rcases entries_eq (countFreq input) with h | h
  · conv_lhs => rw [h]
    apply List.map_congr_left
    intro k _
    have := countFreq_fold_get input [] (by intro k; simp [UMap.get, wrapInt32]) k
    simp only [UMap.get, zero_add] at this
    simp only [countFreq, this]
  · exact absurd (countFreq_keys_nodup input) h

theorem countFreq_replicate_val (b : Byte) (n : Nat) (hn : 0 < n) :
    countFreq (List.replicate n b) = [(b, wrapInt32 (n : Int))] := by
  obtain ⟨m, rfl⟩ : ∃ m, n = m + 1 := ⟨n - 1, by omega⟩
  obtain ⟨v, hv⟩ := countFreq_replicate b m
  obtain ⟨_, _, h3⟩ := countFreq_wrap_spec (List.replicate (m + 1) b)
  rw [hv] at h3
  simp only [UMap.keys, List.map_cons, List.map_nil, List.count_replicate_self,
    List.cons.injEq, Prod.mk.injEq, true_and, and_true] at h3
  rw [hv, h3]

/-! ### Monotonicity of the code lengths -/

theorem swapKeys_swapKeys (x y k : Byte) : swapKeys x y (swapKeys x y k) = k := by
  unfold swapKeys
  split_ifs <;> simp_all

theorem at_isBits (root : HuffmanNode) (k : Byte) : IsBits (UMap.at (paths root []) k) := by
  have hall : ∀ (m : UMap CString), (∀ p ∈ m, IsBits p.2) → ∀ k, IsBits (UMap.at m k) := by
    intro m
    induction m with
    | nil => intro _ k c hc; simp [UMap.at] at hc
    | cons p m ih =>
      intro hm k
      obtain ⟨k1, v1⟩ := p
      simp only [UMap.at]
      split
      · exact hm (k1, v1) (List.mem_cons_self _ _)
      · exact ih (fun p hp => hm p (List.mem_cons_of_mem _ hp)) k
  refine hall (paths root []) ?_ k
  intro p hp
  obtain ⟨x, hx, rfl⟩ := List.mem_map.1 hp
  exact leafInfo_isBits root [] (by intro c hc; simp at hc) x hx

theorem exists_perm_two {α : Type} [DecidableEq α] {l : List α} {a b : α} (ha : a ∈ l)
    (hb : b ∈ l) (hab : a ≠ b) : ∃ rest, l.Perm (a :: b :: rest) := by
  have h1 := List.perm_cons_erase ha
  have hb1 : b ∈ l.erase a := (List.mem_erase_of_ne (Ne.symm hab)).2 hb
  have h2 := List.perm_cons_erase hb1
  exact ⟨_, h1.trans (List.Perm.cons a h2)⟩

theorem codeCost_cons (p : Byte × Int) (freq : UMap Int) (g : Byte → CString) :
    codeCost (p :: freq) g = p.2 * ((g p.1).length : Int) + codeCost freq g := by
  simp [codeCost]

theorem codeCost_perm {f1 f2 : UMap Int} (h : f1.Perm f2) (g : Byte → CString) :
    codeCost f1 g = codeCost f2 g :=
  (h.map _).sum_eq

theorem codeCost_congr (freq : UMap Int) (g1 g2 : Byte → CString)
    (h : ∀ p ∈ freq, g1 p.1 = g2 p.1) : codeCost freq g1 = codeCost freq g2 := by
  unfold codeCost
  congr 1
  apply List.map_congr_left
  intro p hp
  rw [h p hp]

/-- With non-negative frequencies that add up to less than `2 ^ 31`, a symbol
with a larger frequency never gets a longer code. -/
theorem buildHuffmanTree_monotone (Q : PriorityQueue) (freq : UMap Int) (hne : freq ≠ [])
    (hkeys : freq.keys.Nodup) (hpos : ∀ p ∈ freq, 0 ≤ p.2)
    (hsum : (freq.map Prod.snd).sum < 2147483648) :
    ∃ root, buildHuffmanTree Q freq = .ok root ∧
      ∀ px ∈ freq, ∀ py ∈ freq, py.2 < px.2 →
        (UMap.at (generateCodes root [] []) px.1).length ≤
          (UMap.at (generateCodes root [] []) py.1).length := by
  obtain ⟨root, hrun, hopt⟩ := buildHuffmanTree_optimal Q freq hne hkeys hpos hsum
  obtain ⟨root1, hrun1, _, hp, htab⟩ := buildHuffmanTree_table Q freq hne hkeys
  rw [hrun] at hrun1
  have e := Except.ok.inj hrun1
  subst e
  refine ⟨root, hrun, ?_⟩
  rw [htab] at hopt ⊢
  intro px hx py hy hlt
  by_contra hcon
  have hlen : (UMap.at (paths root []) py.1).length < (UMap.at (paths root []) px.1).length :=
    Nat.lt_of_not_le hcon
  have hpxy : px ≠ py := by
    rintro rfl
    exact lt_irrefl _ hlt
  obtain ⟨rest, hperm⟩ := exists_perm_two hx hy hpxy
  have hnd : (UMap.keys (px :: py :: rest)).Nodup :=
    ((hperm.map Prod.fst).nodup_iff).1 hkeys
  simp only [UMap.keys, List.map_cons, List.nodup_cons, List.mem_cons, not_or] at hnd
  obtain ⟨⟨hkxy, hxrest⟩, hyrest, _⟩ := hnd
  have hkmem : ∀ k ∈ freq.keys, k ∈ (paths root []).keys := by
    intro k hk
    rw [paths_keys]
    exact (hp.map Prod.fst).symm.subset hk
  have hswapmem : ∀ k ∈ freq.keys, swapKeys px.1 py.1 k ∈ freq.keys := by
    intro k hk
    unfold swapKeys
    split_ifs
    · exact List.mem_map_of_mem Prod.fst hy
    · exact List.mem_map_of_mem Prod.fst hx
    · exact hk
  -- the code with the two codewords exchanged satisfies Kraft's inequality
  have hfeas := feasible_of_code freq hkeys
    (fun k => UMap.at (paths root []) (swapKeys px.1 py.1 k))
    (fun p _ b hb => at_isBits root _ b hb)
    (by
      intro p1 hp1 p2 hp2 hne12
      apply paths_incomparable root _ _
        (hkmem _ (hswapmem _ (List.mem_map_of_mem Prod.fst hp1)))
        (hkmem _ (hswapmem _ (List.mem_map_of_mem Prod.fst hp2)))
      intro e
      apply hne12
      rw [← swapKeys_swapKeys px.1 py.1 p1.1, e, swapKeys_swapKeys])
  have hbound := hopt (freq.map (fun p =>
      (p.2, (UMap.at (paths root []) (swapKeys px.1 py.1 p.1)).length)))
    (by simp [List.map_map, Function.comp_def]) hfeas
  have hcost1 : assignCost (freq.map (fun p =>
      (p.2, (UMap.at (paths root []) (swapKeys px.1 py.1 p.1)).length))) =
      codeCost freq (fun k => UMap.at (paths root []) (swapKeys px.1 py.1 k)) := by
    simp [assignCost, codeCost, List.map_map, Function.comp_def]
  rw [hcost1, codeCost_perm hperm, codeCost_perm hperm, codeCost_cons, codeCost_cons,
    codeCost_cons, codeCost_cons] at hbound
  have hrest : codeCost rest (fun k => UMap.at (paths root []) (swapKeys px.1 py.1 k)) =
      codeCost rest (UMap.at (paths root [])) := by
    apply codeCost_congr
    intro p hp1
    have e1 : ¬ p.1 = px.1 := fun e => hxrest (e ▸ List.mem_map_of_mem Prod.fst hp1)
    have e2 : ¬ p.1 = py.1 := fun e => hyrest (e ▸ List.mem_map_of_mem Prod.fst hp1)
    simp [swapKeys, e1, e2]
  have ex : swapKeys px.1 py.1 px.1 = py.1 := by simp [swapKeys]
  have ey : swapKeys px.1 py.1 py.1 = px.1 := by
    have : ¬ py.1 = px.1 := fun e => hkxy e.symm
    simp [swapKeys, this]
  rw [hrest] at hbound
  simp only [ex, ey] at hbound
  have hl : ((UMap.at (paths root []) py.1).length : Int) <
      ((UMap.at (paths root []) px.1).length : Int) := by exact_mod_cast hlen
  nlinarith

/-! ### Runs without ties -/

theorem top_eq_of_nodup (Q : PriorityQueue) (q q1 : List HuffmanNode) (hv : Q.valid q)
    (hp : q.Perm q1) (hnd : (q1.map HuffmanNode.frequency).Nodup) (hne : q ≠ []) :
    ∃ x, Q.top q = some x ∧ refTop q1 = some x := by
  obtain ⟨x, hx, hxmem, hxmin⟩ := Q.top_min q hv hne
  have hne1 : q1 ≠ [] := by
    intro e
    rw [e] at hp
    exact hne hp.eq_nil
  obtain ⟨y, hy, hymem, hymin⟩ := refQueue.top_min q1 trivial hne1
  have h1 := (compare_false_iff _ _).1 (hxmin y (hp.symm.subset hymem))
  have h2 := (compare_false_iff _ _).1 (hymin x (hp.subset hxmem))
  have hxy : x = y :=
    List.inj_on_of_nodup_map hnd (hp.subset hxmem) hymem (le_antisymm h1 h2)
  exact ⟨x, hx, hxy ▸ hy⟩

theorem pop_perm_of_top (Q : PriorityQueue) (q q1 : List HuffmanNode) (hv : Q.valid q)
    (hp : q.Perm q1) (x : HuffmanNode) (hx : Q.top q = some x) (hx1 : refTop q1 = some x) :
    (Q.pop q).Perm (refPop q1) := by
  have h1 := Q.pop_perm q x hv hx
  have h2 := refQueue.pop_perm q1 x trivial hx1
  exact (h1.trans (hp.trans h2.symm)).cons_inv

theorem nodup_of_pop (q1 : List HuffmanNode) (x : HuffmanNode) (hx1 : refTop q1 = some x)
    (hnd : (q1.map HuffmanNode.frequency).Nodup) :
    ((refPop q1).map HuffmanNode.frequency).Nodup := by
  have h2 := refQueue.pop_perm q1 x trivial hx1
  have := ((h2.map HuffmanNode.frequency).nodup_iff).2 hnd
  simp only [List.map_cons, List.nodup_cons] at this
  exact this.2

/-- Without ties the result of the merge loop does not depend on the queue
implementation. -/
theorem mergeLoop_tieFree (Q : PriorityQueue) : ∀ (fuel : Nat) (q q1 : List HuffmanNode),
    Q.valid q → q.Perm q1 → tieFree fuel q1 = true → ∀ r r1,
    mergeLoop Q fuel q = .ok [r] → mergeLoop refQueue fuel q1 = .ok [r1] → r = r1 := by
  intro fuel
  induction fuel with
  | zero =>
    intro q q1 _ hp _ r r1 h h1
    simp only [mergeLoop] at h h1
    split at h
    · simp at h
    · split at h1
      · simp at h1
      · simp only [Except.ok.injEq] at h h1
        subst h h1
        simpa using hp
  | succ fuel ih =>
    intro q q1 hv hp htf r r1 h h1
    have hlen := hp.length_eq
    by_cases hq : q.length > 1
    · have hq1 : q1.length > 1 := by omega
      have hne : q ≠ [] := by
        intro e; rw [e] at hq; simp at hq
      simp only [tieFree, hq1, if_true, Bool.and_eq_true, decide_eq_true_eq] at htf
      obtain ⟨hnd, htf1⟩ := htf
      obtain ⟨x, hx, hx1⟩ := top_eq_of_nodup Q q q1 hv hp hnd hne
      have hpp := pop_perm_of_top Q q q1 hv hp x hx hx1
      have hvp := Q.valid_pop q hv hne
      have hndp := nodup_of_pop q1 x hx1 hnd
      have hnep : Q.pop q ≠ [] := by
        intro e
        have := (Q.pop_perm q x hv hx).length_eq
        rw [e] at this
        simp at this
        omega
      obtain ⟨y, hy, hy1⟩ := top_eq_of_nodup Q _ _ hvp hpp hndp hnep
      have hpp2 := pop_perm_of_top Q _ _ hvp hpp y hy hy1
      have hvp2 := Q.valid_pop _ hvp hnep
      have hnext : (Q.push (Q.pop (Q.pop q)) (mergeNodes x y)).Perm
          (refPop (refPop q1) ++ [mergeNodes x y]) :=
        (Q.push_perm _ _ hvp2).trans
          ((List.Perm.cons _ hpp2).trans (List.perm_append_singleton _ _).symm)
      simp only [hx1, hy1] at htf1
      rw [mergeLoop, if_pos hq, hx] at h
      simp only [hy] at h
      rw [mergeLoop, if_pos hq1] at h1
      have e1 : refQueue.top q1 = some x := hx1
      have e2 : refQueue.top (refQueue.pop q1) = some y := hy1
      rw [e1] at h1
      simp only [e2] at h1
      exact ih _ _ (Q.valid_push _ _ hvp2) hnext htf1 r r1 h h1
    · have hq1 : ¬ q1.length > 1 := by omega
      rw [mergeLoop, if_neg hq] at h
      rw [mergeLoop, if_neg hq1] at h1
      simp only [Except.ok.injEq] at h h1
      subst h h1
      simpa using hp

/-- Without ties the tree does not depend on the queue implementation nor on
the order in which the map is visited. -/
theorem buildHuffmanTree_tieFree (Q : PriorityQueue) (freq freq1 : UMap Int)
    (hne : freq ≠ []) (hp : freq1.Perm freq)
    (htf : tieFree (pushLeaves refQueue freq).length (pushLeaves refQueue freq) = true) :
    buildHuffmanTree Q freq1 = buildHuffmanTree refQueue freq := by
  have hne1 : freq1 ≠ [] := by
    intro e
    rw [e] at hp
    exact hne hp.symm.eq_nil
  obtain ⟨hv, hpl⟩ := pushLeaves_valid_perm Q freq1
  have hpl0 := pushLeaves_perm refQueue freq
  have hperm : (pushLeaves Q freq1).Perm (pushLeaves refQueue freq) :=
    hpl.trans ((hp.map _).trans hpl0.symm)
  have hne2 : pushLeaves Q freq1 ≠ [] := by
    intro e
    rw [e] at hpl
    have := hpl.length_eq
    simp at this
    exact hne1 (List.length_eq_zero.1 this.symm)
  have hne3 : pushLeaves refQueue freq ≠ [] := by
    intro e
    rw [e] at hperm
    exact hne2 hperm.eq_nil
  obtain ⟨r, hrun, hvr, _⟩ := mergeLoop_invariant Q (fun _ => True)
    (fun _ _ _ _ _ _ _ _ _ _ => trivial) (pushLeaves Q freq1).length _ hv hne2 (by omega)
    trivial
  obtain ⟨r1, hrun1, hvr1, _⟩ := mergeLoop_invariant refQueue (fun _ => True)
    (fun _ _ _ _ _ _ _ _ _ _ => trivial) (pushLeaves refQueue freq).length _ trivial hne3
    (by omega) trivial
  have hlen := hperm.length_eq
  have hrr : r = r1 := by
    rw [hlen] at hrun
    exact mergeLoop_tieFree Q _ _ _ hv hperm htf r r1 hrun hrun1
  subst hrr
  simp only [buildHuffmanTree, hrun, hrun1, top_singleton Q r hvr,
    top_singleton refQueue r hvr1]

/-! ### The iterations of the merge loop -/

theorem mergeLoopTrace_snd (Q : PriorityQueue) : ∀ (fuel : Nat) (pq : List HuffmanNode),
    mergeLoop Q fuel pq = (mergeLoopTrace Q fuel pq).map Prod.snd := by
  intro fuel
  induction fuel with
  | zero =>
    intro pq
    simp only [mergeLoop, mergeLoopTrace]
    split <;> rfl
  | succ fuel ih =>
    intro pq
    simp only [mergeLoop, mergeLoopTrace]
    split
    · cases h1 : Q.top pq with
      | none => rfl
      | some left =>
        simp only []
        cases h2 : Q.top (Q.pop pq) with
        | none => rfl
        | some right =>
          simp only []
          rw [ih]
          cases mergeLoopTrace Q fuel (Q.push (Q.pop (Q.pop pq))
            (HuffmanNode.node chrHash (wrapInt32 (left.frequency + right.frequency))
              left right)) with
          | error e => rfl
          | ok v => rfl
    · rfl

/-- The loop runs `q.length - 1` iterations, each of them correct, whenever the
bound allows that many. -/
theorem mergeLoopTrace_spec (Q : PriorityQueue) (Inv : List HuffmanNode → Prop)
    (hstep : ∀ q left right rest q1, q.Perm (left :: right :: rest) →
      (∀ y ∈ right :: rest, left.frequency ≤ y.frequency) →
      (∀ y ∈ rest, right.frequency ≤ y.frequency) →
      q1.Perm (mergeNodes left right :: rest) → Inv q → Inv q1) :
    ∀ (fuel : Nat) (q : List HuffmanNode),
    Q.valid q → q ≠ [] → q.length ≤ fuel + 1 → Inv q →
    ∃ steps r, mergeLoopTrace Q fuel q = .ok (steps, [r]) ∧ steps.length + 1 = q.length ∧
      ∀ s ∈ steps, s.Correct ∧ Inv s.before := by
  intro fuel
  induction fuel with
  | zero =>
    intro q _ hne hlen _
    match q, hne, hlen with
    | [r], _, _ => exact ⟨[], r, by simp [mergeLoopTrace], by simp, by simp⟩
    | _ :: _ :: _, _, h => simp at h
  | succ fuel ih =>
    intro q hv hne hlen hinv
    by_cases hq : q.length > 1
    · obtain ⟨left, hl, hlmem, hlmin⟩ := Q.top_min q hv hne
      have hp1 := Q.pop_perm q left hv hl
      have hv1 := Q.valid_pop q hv hne
      have hlen1 : (Q.pop q).length + 1 = q.length := by
        simpa using hp1.length_eq
      have hne1 : Q.pop q ≠ [] := by
        intro h
        rw [h] at hlen1
        simp at hlen1
        omega
      obtain ⟨right, hr, hrmem, hrmin⟩ := Q.top_min (Q.pop q) hv1 hne1
      have hp2 := Q.pop_perm (Q.pop q) right hv1 hr
      have hv2 := Q.valid_pop (Q.pop q) hv1 hne1
      have hlen2 : (Q.pop (Q.pop q)).length + 1 = (Q.pop q).length := by
        simpa using hp2.length_eq
      have hp3 := Q.push_perm (Q.pop (Q.pop q)) (mergeNodes left right) hv2
      have hv3 := Q.valid_push (Q.pop (Q.pop q)) (mergeNodes left right) hv2
      have hlen3 : (Q.push (Q.pop (Q.pop q)) (mergeNodes left right)).length
          = (Q.pop (Q.pop q)).length + 1 := by
        simpa using hp3.length_eq
      have hperm : q.Perm (left :: right :: Q.pop (Q.pop q)) :=
        hp1.symm.trans (List.Perm.cons left hp2.symm)
      have hmin1 : ∀ y ∈ right :: Q.pop (Q.pop q), left.frequency ≤ y.frequency := by
        intro y hy
        have hyq : y ∈ q := hp1.subset (List.mem_cons_of_mem _ (hp2.subset hy))
        exact (compare_false_iff _ _).1 (hlmin y hyq)
      have hmin2 : ∀ y ∈ Q.pop (Q.pop q), right.frequency ≤ y.frequency := by
        intro y hy
        have hyq : y ∈ Q.pop q := hp2.subset (List.mem_cons_of_mem _ hy)
        exact (compare_false_iff _ _).1 (hrmin y hyq)
      obtain ⟨steps, r, hrun, hcount, hall⟩ :=
        ih (Q.push (Q.pop (Q.pop q)) (mergeNodes left right)) hv3
          (by intro h; rw [h] at hlen3; simp at hlen3) (by omega)
          (hstep q left right _ _ hperm hmin1 hmin2 hp3 hinv)
      refine ⟨⟨q, left, right, Q.push (Q.pop (Q.pop q)) (mergeNodes left right)⟩ :: steps,
        r, ?_, ?_, ?_⟩
      · rw [mergeLoopTrace, if_pos hq, hl]
        simp only [hr]
        have e : HuffmanNode.node chrHash (wrapInt32 (left.frequency + right.frequency))
            left right = mergeNodes left right := rfl
        rw [e, hrun]
      · simp only [List.length_cons]
        omega
      · intro s hs
        rcases List.mem_cons.1 hs with rfl | hs
        · exact ⟨⟨Q.pop (Q.pop q), hperm, hmin1, hmin2, hp3, by simp only; omega⟩, hinv⟩
        · exact hall s hs
    · match q, hne, hq with
      | [r], _, _ => exact ⟨[], r, by simp [mergeLoopTrace], by simp, by simp⟩
      | _ :: _ :: _, _, h => simp at h

theorem leafCount_eq (t : HuffmanNode) : leafCount t = (leaves t).length := by
  induction t with
  | null => rfl
  | node d f l r ihl ihr =>
    rw [leaves_node]
    by_cases h : (l.isNull && r.isNull) = true
    · simp only [Bool.and_eq_true, isNull_iff] at h
      obtain ⟨rfl, rfl⟩ := h
      simp [leafCount, HuffmanNode.isNull, leaves, leafInfo]
    · simp [leafCount, h, ihl, ihr]

theorem internalCount_eq (t : HuffmanNode) (hs : isStrict t = true) :
    internalCount t + 1 = leafCount t := by
  induction t with
  | null => simp [isStrict] at hs
  | node d f l r ihl ihr =>
    by_cases h : (l.isNull && r.isNull) = true
    · simp [internalCount, leafCount, h]
    · have h1 : (l.isNull && r.isNull) = false := by simpa using h
      simp only [isStrict, h1, Bool.false_or, Bool.and_eq_true] at hs
      simp only [internalCount, leafCount, h1, Bool.false_eq_true, if_false]
      have := ihl hs.1
      have := ihr hs.2
      omega

/-! ### The length of the encoding -/

theorem sum_by_symbol (input : CString) (w : Byte → Nat) (keys : List Byte)
    (hnd : keys.Nodup) (hmem : ∀ b, b ∈ keys ↔ b ∈ input) :
    (input.map w).sum = (keys.map (fun k => input.count k * w k)).sum := by
  rw [Finset.sum_list_map_count, ← List.sum_toFinset _ hnd]
  have e : keys.toFinset = input.toFinset := by
    ext b
    simp [hmem b]
  rw [e]
  simp [smul_eq_mul]

/-- The length of an encoding is the sum over the distinct symbols of the
number of occurrences times the length of the code. -/
theorem encoded_length (codes : UMap CString) (input : CString) :
    (encodeWith codes input).length =
      ((countFreq input).keys.map
        (fun k => input.count k * (UMap.at codes k).length)).sum := by
  rw [encodeWith_eq_flatMap, List.length_flatMap]
  exact sum_by_symbol input (fun k => (UMap.at codes k).length) _
    (countFreq_keys_nodup input) (countFreq_mem_keys input)

/-- For inputs shorter than `2 ^ 31` the stored frequencies are the numbers of
occurrences, and the length of the encoding is the cost of the table. -/
theorem encoded_length_codeCost (codes : UMap CString) (input : CString)
    (hlen : input.length < 2147483648) :
    ((encodeWith codes input).length : Int) = codeCost (countFreq input) (UMap.at codes) := by
  rw [encoded_length]
  obtain ⟨_, _, h3⟩ := countFreq_spec input hlen
  conv_rhs => rw [h3]
  simp [codeCost, List.map_map, Function.comp_def]

/-! ### The input aaabbc -/

theorem sum_over_table {M : Type} [AddCommMonoid M] (root : HuffmanNode) (freq : UMap Int)
    (hp : (leaves root).Perm freq) (hkeys : freq.keys.Nodup)
    (h : Byte → Int → CString → M) :
    (freq.map (fun p => h p.1 p.2 (UMap.at (paths root []) p.1))).sum =
      ((leafInfo root []).map (fun x => h x.1 x.2.1 x.2.2)).sum := by
  have hnd : (paths root []).keys.Nodup := by
    rw [paths_keys]
    exact ((hp.map Prod.fst).nodup_iff).2 hkeys
  rw [← (hp.map _).sum_eq]
  simp only [leaves, List.map_map]
  congr 1
  apply List.map_congr_left
  intro x hx
  have : (x.1, x.2.2) ∈ paths root [] := List.mem_map_of_mem (fun x => (x.1, x.2.2)) hx
  simp [at_of_mem _ hnd _ _ this]

/-- Kraft's equality for the generated table, summed over the symbols of the
map. -/
theorem kraft_table (root : HuffmanNode) (freq : UMap Int) (hs : isStrict root = true)
    (hp : (leaves root).Perm freq) (hkeys : freq.keys.Nodup) :
    (freq.map (fun p => ((2 : ℚ) ^ (UMap.at (paths root []) p.1).length)⁻¹)).sum = 1 := by
  rw [sum_over_table root freq hp hkeys (fun _ _ c => ((2 : ℚ) ^ c.length)⁻¹),
    kraft_equality root hs []]
  simp

/-- On every platform the codes for the input `aaabbc` have the lengths 1, 2
and 2. -/
theorem aaabbc_lengths (P : Platform) :
    ∃ root, buildHuffmanTree P.queue
        (P.freqOrder.iterate (countFreq [97, 97, 97, 98, 98, 99])) = .ok root ∧
      (UMap.at (generateCodes root [] []) 97).length = 1 ∧
      (UMap.at (generateCodes root [] []) 98).length = 2 ∧
      (UMap.at (generateCodes root [] []) 99).length = 2 := by
  have h0 : countFreq [97, 97, 97, 98, 98, 99] = [(97, 3), (98, 2), (99, 1)] := by decide
  have hperm := P.freqOrder.iterate_perm (countFreq [97, 97, 97, 98, 98, 99])
  rw [h0] at hperm ⊢
  generalize P.freqOrder.iterate [(97, 3), (98, 2), (99, 1)] = freq at hperm
  have hkeys : freq.keys.Nodup :=
    ((hperm.map Prod.fst).nodup_iff).2 (by decide)
  have hlen3 : freq.length = 3 := hperm.length_eq
  have hma : ((97 : Byte), (3 : Int)) ∈ freq := hperm.symm.subset (by simp)
  have hmb : ((98 : Byte), (2 : Int)) ∈ freq := hperm.symm.subset (by simp)
  have hmc : ((99 : Byte), (1 : Int)) ∈ freq := hperm.symm.subset (by simp)
  obtain ⟨root, hrun, hs, hp, htab, hbounds⟩ := table_lengths P.queue freq hkeys (by omega)
  obtain ⟨root1, hrun1, hmono⟩ := buildHuffmanTree_monotone P.queue freq
    (by intro e; rw [e] at hlen3; simp at hlen3) hkeys
    (by
      intro p hp1
      have := hperm.subset hp1
      simp only [List.mem_cons, List.mem_singleton, List.not_mem_nil, or_false] at this
      rcases this with rfl | rfl | rfl <;> decide)
    (by rw [(hperm.map Prod.snd).sum_eq]; decide)
  rw [hrun] at hrun1
  have e := Except.ok.inj hrun1
  subst e
  refine ⟨root, hrun, ?_⟩
  rw [htab] at hmono ⊢
  have hk := kraft_table root freq hs hp hkeys
  rw [(hperm.map _).sum_eq] at hk
  simp only [List.map_cons, List.map_nil, List.sum_cons, List.sum_nil, add_zero] at hk
  have hmemk : ∀ p ∈ freq, (p.1, UMap.at (paths root []) p.1) ∈ paths root [] := by
    intro p hp1
    apply at_mem
    rw [paths_keys]
    exact (hp.map Prod.fst).symm.subset (List.mem_map_of_mem Prod.fst hp1)
  have ba := hbounds _ (hmemk _ hma)
  have bb := hbounds _ (hmemk _ hmb)
  have bc := hbounds _ (hmemk _ hmc)
  have mab := hmono _ hma _ hmb (by decide)
  have mbc := hmono _ hmb _ hmc (by decide)
  simp only at ba bb bc mab mbc
  rw [hlen3] at ba bb bc
  generalize (UMap.at (paths root []) 97).length = la at *
  generalize (UMap.at (paths root []) 98).length = lb at *
  generalize (UMap.at (paths root []) 99).length = lc at *
  have ha : la = 1 ∨ la = 2 := by omega
  have hb : lb = 1 ∨ lb = 2 := by omega
  have hc : lc = 1 ∨ lc = 2 := by omega
  rcases ha with rfl | rfl <;> rcases hb with rfl | rfl <;> rcases hc with rfl | rfl <;>
    first
    | omega
    | (norm_num at hk)

/-! ### The bound of the merge loop -/

/-- A larger bound on the number of iterations does not change the result. -/
theorem mergeLoopTrace_fuel (Q : PriorityQueue) : ∀ (fuel : Nat) (q : List HuffmanNode)
    (res : List MergeStep × List HuffmanNode), mergeLoopTrace Q fuel q = .ok res →
    ∀ k, mergeLoopTrace Q (fuel + k) q = .ok res := by
  intro fuel
  induction fuel with
  | zero =>
    intro q res h k
    simp only [mergeLoopTrace] at h
    split at h
    · simp at h
    · rename_i hq
      cases k with
      | zero => simp [mergeLoopTrace, hq, h]
      | succ k =>
        rw [Nat.zero_add, mergeLoopTrace, if_neg hq]
        exact h
  | succ fuel ih =>
    intro q res h k
    rw [Nat.add_right_comm]
    rw [mergeLoopTrace] at h ⊢
    split
    · rename_i hq
      rw [if_pos hq] at h
      cases h1 : Q.top q with
      | none => rw [h1] at h; simp at h
      | some left =>
        rw [h1] at h
        simp only [] at h ⊢
        cases h2 : Q.top (Q.pop q) with
        | none => rw [h2] at h; simp at h
        | some right =>
          rw [h2] at h
          simp only [] at h ⊢
          cases h3 : mergeLoopTrace Q fuel (Q.push (Q.pop (Q.pop q))
            (HuffmanNode.node chrHash (wrapInt32 (left.frequency + right.frequency))
              left right)) with
          | error e => rw [h3] at h; simp at h
          | ok v =>
            rw [h3] at h
            rw [ih _ v h3 k]
            exact h
    · rename_i hq
      rw [if_neg hq] at h
      exact h

/-! ### The run of buildHuffmanTree with its iterations -/

/-- The run of `buildHuffmanTree` with its iterations. -/
theorem buildHuffmanTree_trace (Q : PriorityQueue) (Inv : List HuffmanNode → Prop)
    (hstep : ∀ q left right rest q1, q.Perm (left :: right :: rest) →
      (∀ y ∈ right :: rest, left.frequency ≤ y.frequency) →
      (∀ y ∈ rest, right.frequency ≤ y.frequency) →
      q1.Perm (mergeNodes left right :: rest) → Inv q → Inv q1)
    (freq : UMap Int) (hne : freq ≠ [])
    (hinit : ∀ q, q.Perm (freq.map (fun p => newHuffmanNode p.1 p.2)) → Inv q) :
    ∃ steps root,
      mergeLoopTrace Q (pushLeaves Q freq).length (pushLeaves Q freq) = .ok (steps, [root]) ∧
      buildHuffmanTree Q freq = .ok root ∧ steps.length + 1 = freq.length ∧
      ∀ s ∈ steps, s.Correct ∧ Inv s.before := by
  obtain ⟨hv, hp⟩ := pushLeaves_valid_perm Q freq
  have hlen : (pushLeaves Q freq).length = freq.length := by
    simpa using hp.length_eq
  have hne1 : pushLeaves Q freq ≠ [] := by
    intro h
    rw [h] at hlen
    exact hne (List.length_eq_zero.1 hlen.symm)
  obtain ⟨steps, r, hrun, hcount, hall⟩ := mergeLoopTrace_spec Q Inv hstep
    (pushLeaves Q freq).length (pushLeaves Q freq) hv hne1 (by omega) (hinit _ hp)
  obtain ⟨r1, hrun1, hvr, _⟩ := mergeLoop_invariant Q (fun _ => True)
    (fun _ _ _ _ _ _ _ _ _ _ => trivial) (pushLeaves Q freq).length _ hv hne1 (by omega)
    trivial
  have e : r1 = r := by
    rw [mergeLoopTrace_snd, hrun] at hrun1
    simp only [Except.map, Except.ok.injEq, List.cons.injEq, and_true] at hrun1
    exact hrun1.symm
  subst e
  refine ⟨steps, r1, hrun, ?_, by omega, hall⟩
  simp only [buildHuffmanTree, hrun1, top_singleton Q r1 hvr]

/-! ### Assignments to a table that is not empty -/

/-- The entry written by an assignment is in the map. -/
theorem mem_assign_self {V : Type} (m : UMap V) (k : Byte) (v : V) :
    (k, v) ∈ UMap.assign m k v := by
  induction m with
  | nil => simp [UMap.assign]
  | cons p rest ih =>
    obtain ⟨k1, v1⟩ := p
    by_cases h : k1 = k
    · simp [UMap.assign, h]
    · simp only [UMap.assign, h, if_false]
      exact List.mem_cons_of_mem _ ih

/-- An assignment leaves the entries of the other keys as they are. -/
theorem mem_assign_of_ne {V : Type} (m : UMap V) (k k1 : Byte) (v c : V) (hne : k1 ≠ k) :
    (k1, c) ∈ UMap.assign m k v ↔ (k1, c) ∈ m := by
  induction m with
  | nil =>
    simp only [UMap.assign, List.mem_singleton, Prod.mk.injEq, List.not_mem_nil, iff_false,
      not_and]
    intro h
    exact absurd h hne
  | cons p rest ih =>
    obtain ⟨k2, v2⟩ := p
    by_cases h : k2 = k
    · subst h
      simp only [UMap.assign, if_true, List.mem_cons, Prod.mk.injEq]
      constructor
      · rintro (⟨h1, _⟩ | h1)
        · exact absurd h1 hne
        · exact Or.inr h1
      · rintro (⟨h1, _⟩ | h1)
        · exact absurd h1 hne
        · exact Or.inr h1
    · simp only [UMap.assign, h, if_false, List.mem_cons, ih]

/-- A sequence of assignments leaves the entries of the keys it does not assign
as they are. -/
theorem mem_assign_fold_of_not_mem (ps : UMap CString) : ∀ (codes : UMap CString)
    (k : Byte) (c : CString), k ∉ ps.keys →
    ((k, c) ∈ ps.foldl (fun m p => UMap.assign m p.1 p.2) codes ↔ (k, c) ∈ codes) := by
  induction ps with
  | nil => intro codes k c _; simp
  | cons p rest ih =>
    intro codes k c hk
    simp only [UMap.keys, List.map_cons, List.mem_cons, not_or] at hk
    simp only [List.foldl_cons]
    rw [ih _ k c (by simpa [UMap.keys] using hk.2)]
    exact mem_assign_of_ne codes p.1 k p.2 c hk.1

/-- After a sequence of assignments to distinct keys every assigned entry is in
the map. -/
theorem mem_assign_fold (ps : UMap CString) : ∀ (codes : UMap CString),
    ps.keys.Nodup → ∀ p ∈ ps, p ∈ ps.foldl (fun m p => UMap.assign m p.1 p.2) codes := by
  induction ps with
  | nil => intro codes _ p hp; simp at hp
  | cons q rest ih =>
    intro codes hnd p hp
    simp only [UMap.keys, List.map_cons, List.nodup_cons] at hnd
    simp only [List.foldl_cons]
    rcases List.mem_cons.1 hp with h | h
    · subst h
      have := (mem_assign_fold_of_not_mem rest (UMap.assign codes p.1 p.2) p.1 p.2
        (by simpa [UMap.keys] using hnd.1)).2 (mem_assign_self codes p.1 p.2)
      exact this
    · exact ih _ (by simpa [UMap.keys] using hnd.2) p h

/-! ### The sum invariant in int arithmetic -/

/-- For every map the returned tree carries at each node with children the
32-bit sum of the frequencies of the two children. -/
theorem buildHuffmanTree_wrapSum (Q : PriorityQueue) (freq : UMap Int) (hne : freq ≠ []) :
    ∃ root, buildHuffmanTree Q freq = .ok root ∧ wrapSumInvariant root = true := by
  obtain ⟨r, hrun, hall⟩ := buildHuffmanTree_invariant Q
    (fun q => ∀ t ∈ q, wrapSumInvariant t = true)
    (fun q left right rest q1 hq _ _ hq1 h => by
      intro t ht
      have hl := h left (hq.symm.subset (by simp))
      have hr := h right (hq.symm.subset (by simp))
      rcases List.mem_cons.1 (hq1.subset ht) with e | hm
      · subst e
        simp [mergeNodes, wrapSumInvariant, hl, hr]
      · exact h t (hq.symm.subset (by simp [hm])))
    freq hne
    (fun q hq t ht => by
      obtain ⟨p, _, rfl⟩ := List.mem_map.1 (hq.subset ht)
      simp [newHuffmanNode, wrapSumInvariant, HuffmanNode.isNull])
  exact ⟨r, hrun, hall r (by simp)⟩

/-! ## The claims -/

/-- C1 (counterexample): the different inputs `aaab` and `aaabb` are
compressed to the same seventeen bytes on the reference platform, and to equal
outputs on every platform. -/
theorem compress_collision :
    ([97, 97, 97, 98] : CString) ≠ [97, 97, 97, 98, 98] ∧
    compressFile refPlatform [97, 97, 97, 98] =
      .ok [2, 0, 0, 0, 98, 1, 0, 0, 0, 48, 97, 1, 0, 0, 0, 49, 224] ∧
    compressFile refPlatform [97, 97, 97, 98, 98] =
      .ok [2, 0, 0, 0, 98, 1, 0, 0, 0, 48, 97, 1, 0, 0, 0, 49, 224] ∧
    ∀ P : Platform, compressFile P [97, 97, 97, 98] = compressFile P [97, 97, 97, 98, 98] :=
  ⟨by decide, by decide, by decide, fun P => (collision_every_platform P).1⟩

/-- C1 (amended): on every platform two different inputs of the same length
are never compressed to the same byte sequence. -/
theorem compress_injective_same_length (P : Platform) (B1 B2 : CString)
    (hlen : B1.length = B2.length) (hne : B1 ≠ B2) :
    compressFile P B1 ≠ compressFile P B2 :=
  fun h => hne (compressFile_inj P B1 B2 hlen h)

/-- C1 (amended) at the inputs `ab` and `ba`. -/
theorem compress_injective_same_length_witness :
    ([97, 98] : CString).length = ([98, 97] : CString).length ∧
    ([97, 98] : CString) ≠ [98, 97] ∧
    compressFile refPlatform [97, 98] ≠ compressFile refPlatform [98, 97] :=
  ⟨by decide, by decide,
    compress_injective_same_length refPlatform [97, 98] [98, 97] (by decide) (by decide)⟩

/-- C2: for every non-empty map with distinct keys and every priority queue,
`buildHuffmanTree` returns a tree and in the table generated from it no code is
a beginning of the code of a different symbol. -/
theorem generated_codes_prefix_free (Q : PriorityQueue) (freq : UMap Int) (hne : freq ≠ [])
    (hkeys : freq.keys.Nodup) :
    ∃ root, buildHuffmanTree Q freq = .ok root ∧
      ∀ p1 ∈ generateCodes root [] [], ∀ p2 ∈ generateCodes root [] [],
        p1.1 ≠ p2.1 → ¬ p1.2 <+: p2.2 := by
  obtain ⟨root, hrun, _, _, htab⟩ := buildHuffmanTree_table Q freq hne hkeys
  refine ⟨root, hrun, ?_⟩
  rw [htab]
  intro p1 h1 p2 h2 hne12
  have := (paths_pairwise root []).forall incomparable_symm h1 h2
    (fun e => hne12 (congrArg Prod.fst e))
  exact this.1

/-- C2 at the map `{a: 3, b: 2, #: 1}` on the reference queue. -/
theorem generated_codes_prefix_free_witness :
    ([(97, 3), (98, 2), (35, 1)] : UMap Int) ≠ [] ∧
    (UMap.keys ([(97, 3), (98, 2), (35, 1)] : UMap Int)).Nodup ∧
    ∃ root, buildHuffmanTree refQueue [(97, 3), (98, 2), (35, 1)] = .ok root ∧
      ∀ p1 ∈ generateCodes root [] [], ∀ p2 ∈ generateCodes root [] [],
        p1.1 ≠ p2.1 → ¬ p1.2 <+: p2.2 :=
  ⟨by decide, by decide,
    generated_codes_prefix_free refQueue [(97, 3), (98, 2), (35, 1)] (by decide) (by decide)⟩

/-- C3: for every non-empty map with distinct keys and positive frequencies
that add up to less than `2 ^ 31`, the sum of frequency times code length of
the generated table is at most that of every binary code for the same symbols in
which no codeword is a beginning of the codeword of a different symbol. -/
theorem huffman_optimality (Q : PriorityQueue) (freq : UMap Int) (hne : freq ≠ [])
    (hkeys : freq.keys.Nodup) (hpos : ∀ p ∈ freq, 0 < p.2)
    (hsum : (freq.map Prod.snd).sum < 2147483648) (code : Byte → CString)
    (hbin : ∀ p ∈ freq, ∀ b ∈ code p.1, b = chr0 ∨ b = chr1)
    (hpf : ∀ p1 ∈ freq, ∀ p2 ∈ freq, p1.1 ≠ p2.1 → ¬ code p1.1 <+: code p2.1) :
    ∃ root, buildHuffmanTree Q freq = .ok root ∧
      codeCost freq (UMap.at (generateCodes root [] [])) ≤ codeCost freq code := by
  obtain ⟨root, hrun, hopt⟩ := buildHuffmanTree_optimal Q freq hne hkeys
    (fun p hp => (hpos p hp).le) hsum
  refine ⟨root, hrun, ?_⟩
  have h := hopt (freq.map (fun p => (p.2, (code p.1).length)))
    (by simp [List.map_map, Function.comp_def]) (feasible_of_code freq hkeys code hbin hpf)
  simpa [assignCost, codeCost, List.map_map, Function.comp_def] using h

set_option maxRecDepth 8000 in
/-- C3 at the map `{a: 3, b: 2, c: 1}` against the code `a ↦ 00, b ↦ 01,
c ↦ 1`. -/
theorem huffman_optimality_witness :
    ∃ root, buildHuffmanTree refQueue [(97, 3), (98, 2), (99, 1)] = .ok root ∧
      codeCost [(97, 3), (98, 2), (99, 1)] (UMap.at (generateCodes root [] [])) ≤
        codeCost [(97, 3), (98, 2), (99, 1)]
          (fun b => if b = 97 then [chr0, chr0] else if b = 98 then [chr0, chr1] else [chr1]) :=
  huffman_optimality refQueue [(97, 3), (98, 2), (99, 1)] (by decide) (by decide)
    (by decide) (by decide) _ (by decide) (by decide)

/-- C4 (the code at the failing inputs): for an input of one byte repeated
`n + 1` times the tree is a single leaf, the table gives the byte the empty
code, `huffmanEncode` returns no bits at all, and the output is the same nine
bytes for every `n`. -/
theorem single_symbol_code_is_empty (P : Platform) (b : Byte) (n : Nat) :
    ∃ v, buildHuffmanTree P.queue (P.freqOrder.iterate (countFreq (List.replicate (n + 1) b)))
        = .ok (newHuffmanNode b v) ∧
      generateCodes (newHuffmanNode b v) [] [] = [(b, [])] ∧
      huffmanEncode P (List.replicate (n + 1) b) = .ok [] ∧
      compressFile P (List.replicate (n + 1) b) = .ok [1, 0, 0, 0, b, 0, 0, 0, 0] := by
  obtain ⟨v, hv⟩ := countFreq_replicate b n
  have hperm := P.freqOrder.iterate_perm (countFreq (List.replicate (n + 1) b))
  rw [hv, List.perm_singleton] at hperm
  have hgen : generateCodes (newHuffmanNode b v) [] [] = [(b, [])] := by
    simp [newHuffmanNode, generateCodes, HuffmanNode.isNull, UMap.assign]
  refine ⟨v, ?_, hgen, ?_, single_symbol_output P b n⟩
  · rw [hv, hperm, buildHuffmanTree_singleton]
  · simp only [huffmanEncode, hv, hperm, buildHuffmanTree_singleton, hgen,
      encodeWith_eq_flatMap]
    congr 1
    rw [List.flatMap_eq_nil_iff]
    intro c _
    simp [UMap.at]

/-- C5 (the code at the failing input): on the empty input `buildHuffmanTree`
reads `top()` of the empty queue, and so do `huffmanEncode` and
`compressFile`. -/
theorem empty_input_reads_empty_queue (P : Platform) :
    buildHuffmanTree P.queue (P.freqOrder.iterate (countFreq [])) = .error .emptyQueueTop ∧
    huffmanEncode P [] = .error .emptyQueueTop ∧
    compressFile P [] = .error .emptyQueueTop := by
  have hperm := P.freqOrder.iterate_perm (countFreq [])
  have h0 : P.freqOrder.iterate (countFreq []) = [] := by
    simpa [countFreq] using hperm
  refine ⟨?_, ?_, ?_⟩
  · rw [h0, buildHuffmanTree_nil]
  · simp [huffmanEncode, h0, buildHuffmanTree_nil]
  · simp [compressFile, huffmanEncode, h0, buildHuffmanTree_nil]

/-- C6: for every non-empty map with distinct keys the returned tree is strict,
its leaves are exactly the entries of the map (each symbol once, with its own
frequency), and the generated table has exactly one entry for each key; for the
map counted from a non-empty input the keys of the table are the distinct bytes
of the input. -/
theorem tree_shape :
    (∀ (Q : PriorityQueue) (freq : UMap Int), freq ≠ [] → freq.keys.Nodup →
      ∃ root, buildHuffmanTree Q freq = .ok root ∧ isStrict root = true ∧
        (leaves root).Perm freq ∧ (generateCodes root [] []).keys.Perm freq.keys ∧
        (generateCodes root [] []).keys.Nodup) ∧
    (∀ (P : Platform) (input : CString), input ≠ [] →
      ∃ root, buildHuffmanTree P.queue (P.freqOrder.iterate (countFreq input)) = .ok root ∧
        (generateCodes root [] []).keys.Nodup ∧
        ∀ b, b ∈ (generateCodes root [] []).keys ↔ b ∈ input) := by
  have main : ∀ (Q : PriorityQueue) (freq : UMap Int), freq ≠ [] → freq.keys.Nodup →
      ∃ root, buildHuffmanTree Q freq = .ok root ∧ isStrict root = true ∧
        (leaves root).Perm freq ∧ (generateCodes root [] []).keys.Perm freq.keys ∧
        (generateCodes root [] []).keys.Nodup := by
    intro Q freq hne hkeys
    obtain ⟨root, hrun, hs, hp, htab⟩ := buildHuffmanTree_table Q freq hne hkeys
    have hk : (generateCodes root [] []).keys.Perm freq.keys := by
      rw [htab, paths_keys]
      exact hp.map Prod.fst
    exact ⟨root, hrun, hs, hp, hk, (hk.nodup_iff).2 hkeys⟩
  refine ⟨main, ?_⟩
  intro P input hne
  have hperm := P.freqOrder.iterate_perm (countFreq input)
  have hne1 : P.freqOrder.iterate (countFreq input) ≠ [] := by
    intro e
    rw [e] at hperm
    exact countFreq_ne_nil input hne hperm.symm.eq_nil
  have hnd : (P.freqOrder.iterate (countFreq input)).keys.Nodup :=
    ((hperm.map Prod.fst).nodup_iff).2 (countFreq_keys_nodup input)
  obtain ⟨root, hrun, _, _, hk, hknd⟩ := main P.queue _ hne1 hnd
  refine ⟨root, hrun, hknd, ?_⟩
  intro b
  rw [hk.mem_iff, ← countFreq_mem_keys input b]
  exact (hperm.map Prod.fst).mem_iff

/-- C6 at the map `{#: 2, a: 1}` and at the input `#a#`. -/
theorem tree_shape_witness :
    (∃ root, buildHuffmanTree refQueue [(35, 2), (97, 1)] = .ok root ∧ isStrict root = true ∧
      (leaves root).Perm [(35, 2), (97, 1)] ∧
      (generateCodes root [] []).keys.Perm (UMap.keys ([(35, 2), (97, 1)] : UMap Int)) ∧
      (generateCodes root [] []).keys.Nodup) ∧
    (∃ root, buildHuffmanTree refPlatform.queue
        (refPlatform.freqOrder.iterate (countFreq [35, 97, 35])) = .ok root ∧
      (generateCodes root [] []).keys.Nodup ∧
      ∀ b, b ∈ (generateCodes root [] []).keys ↔ b ∈ ([35, 97, 35] : CString)) :=
  ⟨tree_shape.1 refQueue [(35, 2), (97, 1)] (by decide) (by decide),
    tree_shape.2 refPlatform [35, 97, 35] (by decide)⟩

set_option maxRecDepth 20000 in
/-- C7 (counterexample): for the map `{a: 2^30 + 1, b: 2^30}` the root of the
returned tree has the children of frequencies `2^30` and `2^30 + 1` and carries
the frequency `-2^31 + 1`, which is not their sum, on the reference queue and
on every priority queue and in every visiting order of the map. -/
theorem weight_invariant_fails_on_overflow :
    buildHuffmanTree refQueue [(97, 1073741825), (98, 1073741824)] =
      .ok (.node chrHash (-2147483647) (newHuffmanNode 98 1073741824)
        (newHuffmanNode 97 1073741825)) ∧
    (-2147483647 : Int) ≠ 1073741824 + 1073741825 ∧
    ∀ (Q : PriorityQueue) (freq : UMap Int),
      freq.Perm [(97, 1073741825), (98, 1073741824)] →
      (buildHuffmanTree Q freq).map (fun root => (root.frequency, sumInvariant root)) =
        .ok (-2147483647, false) := by
  refine ⟨by decide, by decide, ?_⟩
  intro Q freq hp
  rw [buildHuffmanTree_pair Q 97 98 1073741825 1073741824 (by decide) freq hp]
  decide

/-- C7 (amended): for every non-empty map every node of the returned tree that
has children carries the sum of the frequencies of its two children as 32-bit
`int` addition computes it; with non-negative frequencies that add up to less
than `2 ^ 31` it carries their sum and the root carries the total; for the map
counted from a non-empty input of length `L < 2 ^ 31` the root carries `L`. -/
theorem weight_invariant :
    (∀ (Q : PriorityQueue) (freq : UMap Int), freq ≠ [] →
      ∃ root, buildHuffmanTree Q freq = .ok root ∧ wrapSumInvariant root = true) ∧
    (∀ (Q : PriorityQueue) (freq : UMap Int), freq ≠ [] → (∀ p ∈ freq, 0 ≤ p.2) →
      (freq.map Prod.snd).sum < 2147483648 →
      ∃ root, buildHuffmanTree Q freq = .ok root ∧ sumInvariant root = true ∧
        root.frequency = (freq.map Prod.snd).sum) ∧
    (∀ (P : Platform) (input : CString), input ≠ [] → input.length < 2147483648 →
      ∃ root, buildHuffmanTree P.queue (P.freqOrder.iterate (countFreq input)) = .ok root ∧
        sumInvariant root = true ∧ root.frequency = (input.length : Int)) := by
  refine ⟨buildHuffmanTree_wrapSum, buildHuffmanTree_weight, ?_⟩
  intro P input hne hlen
  have hperm := P.freqOrder.iterate_perm (countFreq input)
  have hne1 : P.freqOrder.iterate (countFreq input) ≠ [] := by
    intro e
    rw [e] at hperm
    exact countFreq_ne_nil input hne hperm.symm.eq_nil
  have hsum : ((P.freqOrder.iterate (countFreq input)).map Prod.snd).sum
      = (input.length : Int) := by
    rw [(hperm.map Prod.snd).sum_eq, countFreq_sum input hlen]
  obtain ⟨root, hrun, hinv, hfreq⟩ := buildHuffmanTree_weight P.queue _ hne1
    (fun p hp => (countFreq_pos input hlen p (hperm.subset hp)).le)
    (by rw [hsum]; exact_mod_cast hlen)
  exact ⟨root, hrun, hinv, by rw [hfreq, hsum]⟩

/-- C7 (amended) at the map `{a: 3, b: 2, c: 1}` and at the input `aaabbc`. -/
theorem weight_invariant_witness :
    (∃ root, buildHuffmanTree refQueue [(97, 3), (98, 2), (99, 1)] = .ok root ∧
      wrapSumInvariant root = true) ∧
    (∃ root, buildHuffmanTree refQueue [(97, 3), (98, 2), (99, 1)] = .ok root ∧
      sumInvariant root = true ∧ root.frequency = 6) ∧
    (∃ root, buildHuffmanTree refPlatform.queue
        (refPlatform.freqOrder.iterate (countFreq [97, 97, 97, 98, 98, 99])) = .ok root ∧
      sumInvariant root = true ∧ root.frequency = 6) :=
  ⟨weight_invariant.1 refQueue [(97, 3), (98, 2), (99, 1)] (by decide),
    weight_invariant.2.1 refQueue [(97, 3), (98, 2), (99, 1)] (by decide) (by decide)
      (by decide),
    weight_invariant.2.2 refPlatform [97, 97, 97, 98, 98, 99] (by decide) (by decide)⟩

/-- C8 (counterexample): for the input `aab` the three encoded bits `110` need
five padding bits, yet the byte after the sixteen header bytes is the body byte
`192`: the output is header and body only, on the reference platform and on
every platform. -/
theorem no_padding_count_stored :
    huffmanEncode refPlatform [97, 97, 98] = .ok [chr1, chr1, chr0] ∧
    compressFile refPlatform [97, 97, 98] =
      .ok ([2, 0, 0, 0, 98, 1, 0, 0, 0, 48, 97, 1, 0, 0, 0, 49] ++ [192]) ∧
    compressFile refPlatform [97, 97, 98] ≠
      .ok ([2, 0, 0, 0, 98, 1, 0, 0, 0, 48, 97, 1, 0, 0, 0, 49] ++ [5] ++ [192]) ∧
    ∀ P : Platform, huffmanEncode P [97, 97, 98] = .ok [chr1, chr1, chr0] ∧
      compressFile P [97, 97, 98] =
        .ok (writeHeader (P.codeOrder.iterate [(98, [chr0]), (97, [chr1])]) ++ [192]) ∧
      (writeHeader (P.codeOrder.iterate [(98, [chr0]), (97, [chr1])])).length = 16 :=
  ⟨by decide, by decide, by decide, aab_every_platform⟩

/-- C8 (amended): for every non-empty input the output is the header
immediately followed by the body bytes, and the body holds the encoded bits
followed by `(8 - totalEncodedBits % 8) % 8` zero bits. -/
theorem padding_bits (P : Platform) (input : CString) (hne : input ≠ []) :
    ∃ root bits body,
      buildHuffmanTree P.queue (P.freqOrder.iterate (countFreq input)) = .ok root ∧
      huffmanEncode P input = .ok bits ∧ writeBody bits = .ok body ∧
      compressFile P input =
        .ok (writeHeader (P.codeOrder.iterate (generateCodes root [] [])) ++ body) ∧
      8 * body.length = bits.length + (8 - bits.length % 8) % 8 ∧
      body.flatMap expandByte = bits ++ List.replicate ((8 - bits.length % 8) % 8) chr0 := by
  obtain ⟨root, body, hrun, _, _, htab, henc, hbits, hbody, hout⟩ :=
    compressFile_spec P input hne
  obtain ⟨body1, hb1, hlen, hexp⟩ := writeBody_spec _ hbits
  rw [hbody] at hb1
  have e := Except.ok.inj hb1
  subst e
  refine ⟨root, _, body, hrun, henc, hbody, by rw [htab]; exact hout, ?_, hexp⟩
  omega

/-- C8 (amended) at the input `aab`. -/
theorem padding_bits_witness :
    ∃ root bits body,
      buildHuffmanTree refPlatform.queue
        (refPlatform.freqOrder.iterate (countFreq [97, 97, 98])) = .ok root ∧
      huffmanEncode refPlatform [97, 97, 98] = .ok bits ∧ writeBody bits = .ok body ∧
      compressFile refPlatform [97, 97, 98] =
        .ok (writeHeader (refPlatform.codeOrder.iterate (generateCodes root [] [])) ++ body) ∧
      8 * body.length = bits.length + (8 - bits.length % 8) % 8 ∧
      body.flatMap expandByte = bits ++ List.replicate ((8 - bits.length % 8) % 8) chr0 :=
  padding_bits refPlatform [97, 97, 98] (by decide)

/-- C9 (counterexample): a table with codes of 1, 2 and 2 bits (and no body)
gets a header of 24 bytes, the codes written one character per bit, on the
reference platform and on every platform; with each code packed into
`ceil(codeLength / 8)` bytes it would have 22. -/
theorem header_codes_not_packed :
    writeCompressedDataToFile refPlatform []
        [(97, [chr0]), (99, [chr1, chr0]), (98, [chr1, chr1])] =
      .ok [3, 0, 0, 0, 97, 1, 0, 0, 0, 48, 99, 2, 0, 0, 0, 49, 48, 98, 2, 0, 0, 0, 49, 49] ∧
    4 + ((5 + (1 + 7) / 8) + (5 + (2 + 7) / 8) + (5 + (2 + 7) / 8)) = 22 ∧
    ∀ P : Platform, ∃ out, writeCompressedDataToFile P []
        [(97, [chr0]), (99, [chr1, chr0]), (98, [chr1, chr1])] = .ok out ∧ out.length = 24 :=
  ⟨by decide, by decide, header_every_platform⟩

/-- C9 (amended): for every table whose entry count and code lengths fit an
`int`, the output begins with the 4-byte entry count followed, for each entry
in the order the map is visited, by the symbol byte, the 4-byte code length and
the code written as one character per bit; this header is
`4 + sum (5 + codeLength)` bytes long and the body follows it. -/
theorem header_layout (P : Platform) (compressedData : CString) (codes : UMap CString)
    (hdata : IsBits compressedData) (hsize : codes.length < 2147483648)
    (hlen : ∀ p ∈ codes, p.2.length < 2147483648) :
    ∃ body, writeBody compressedData = .ok body ∧
      writeCompressedDataToFile P compressedData codes =
        .ok (writeHeader (P.codeOrder.iterate codes) ++ body) ∧
      writeHeader (P.codeOrder.iterate codes) =
        int32Bytes (codes.length : Int) ++ (P.codeOrder.iterate codes).flatMap
          (fun p => p.1 :: (int32Bytes (p.2.length : Int) ++ p.2)) ∧
      (writeHeader (P.codeOrder.iterate codes)).length =
        4 + (codes.map (fun p => 5 + p.2.length)).sum := by
  obtain ⟨body, hbody, _, _⟩ := writeBody_spec compressedData hdata
  obtain ⟨hEq, hLen⟩ := writeHeader_iterate P.codeOrder codes hsize hlen
  exact ⟨body, hbody, by simp [writeCompressedDataToFile, hbody], hEq, hLen⟩

set_option maxRecDepth 8000 in
/-- C9 (amended) at the table `{a: 0, c: 10, b: 11}`. -/
theorem header_layout_witness :
    ∃ body, writeBody [chr1, chr0] = .ok body ∧
      writeCompressedDataToFile refPlatform [chr1, chr0]
          [(97, [chr0]), (99, [chr1, chr0]), (98, [chr1, chr1])] =
        .ok (writeHeader (refPlatform.codeOrder.iterate
          [(97, [chr0]), (99, [chr1, chr0]), (98, [chr1, chr1])]) ++ body) ∧
      writeHeader (refPlatform.codeOrder.iterate
          [(97, [chr0]), (99, [chr1, chr0]), (98, [chr1, chr1])]) =
        int32Bytes ((List.length [(97, [chr0]), (99, [chr1, chr0]), (98, [chr1, chr1])] : Nat) : Int)
          ++ (refPlatform.codeOrder.iterate
            [(97, [chr0]), (99, [chr1, chr0]), (98, [chr1, chr1])]).flatMap
          (fun p => p.1 :: (int32Bytes (p.2.length : Int) ++ p.2)) ∧
      (writeHeader (refPlatform.codeOrder.iterate
          [(97, [chr0]), (99, [chr1, chr0]), (98, [chr1, chr1])])).length =
        4 + (List.map (fun p => 5 + p.2.length)
          [((97 : Byte), [chr0]), (99, [chr1, chr0]), (98, [chr1, chr1])]).sum :=
  header_layout refPlatform [chr1, chr0] [(97, [chr0]), (99, [chr1, chr0]), (98, [chr1, chr1])]
    (by decide) (by decide) (by decide)

/-- C10: for every string of `n` characters `'0'`/`'1'` the packing loop
emits exactly `ceil(n / 8)` body bytes after the header: none when `n = 0` and
`n / 8` when `n` is a multiple of eight. -/
theorem body_byte_count (P : Platform) (compressedData : CString) (codes : UMap CString)
    (hdata : IsBits compressedData) :
    ∃ body, writeBody compressedData = .ok body ∧
      writeCompressedDataToFile P compressedData codes =
        .ok (writeHeader (P.codeOrder.iterate codes) ++ body) ∧
      body.length = (compressedData.length + 7) / 8 ∧
      (compressedData = [] → body = []) ∧
      (compressedData.length % 8 = 0 → body.length * 8 = compressedData.length) := by
  obtain ⟨body, hbody, hlen, _⟩ := writeBody_spec compressedData hdata
  refine ⟨body, hbody, by simp [writeCompressedDataToFile, hbody], hlen, ?_, ?_⟩
  · intro h
    subst h
    simpa using hlen
  · intro h
    omega

set_option maxRecDepth 8000 in
/-- C10 at a string of nine bits. -/
theorem body_byte_count_witness :
    ∃ body, writeBody [chr1, chr0, chr1, chr1, chr0, chr0, chr0, chr1, chr1] = .ok body ∧
      writeCompressedDataToFile refPlatform
          [chr1, chr0, chr1, chr1, chr0, chr0, chr0, chr1, chr1] [] =
        .ok (writeHeader (refPlatform.codeOrder.iterate []) ++ body) ∧
      body.length = (List.length [chr1, chr0, chr1, chr1, chr0, chr0, chr0, chr1, chr1] + 7) / 8 ∧
      (([chr1, chr0, chr1, chr1, chr0, chr0, chr0, chr1, chr1] : CString) = [] → body = []) ∧
      (List.length [chr1, chr0, chr1, chr1, chr0, chr0, chr0, chr1, chr1] % 8 = 0 →
        body.length * 8 = List.length [chr1, chr0, chr1, chr1, chr0, chr0, chr0, chr1, chr1]) :=
  body_byte_count refPlatform [chr1, chr0, chr1, chr1, chr0, chr0, chr0, chr1, chr1] []
    (by decide)

/-- C11: for every string `s` of `n` characters `'0'`/`'1'` the file written by
`writeCompressedDataToFile` is the header followed by body bytes which,
expanded most significant bit first, give `s` followed by exactly
`(8 - n % 8) % 8` characters `'0'`; bit `i` of `s` is bit `7 - i % 8` of the
body byte `i / 8`. -/
theorem bit_packing_content (P : Platform) (compressedData : CString) (codes : UMap CString)
    (hdata : IsBits compressedData) :
    ∃ body, writeBody compressedData = .ok body ∧
      writeCompressedDataToFile P compressedData codes =
        .ok (writeHeader (P.codeOrder.iterate codes) ++ body) ∧
      body.flatMap expandByte =
        compressedData ++ List.replicate ((8 - compressedData.length % 8) % 8) chr0 ∧
      ∀ i, i < compressedData.length →
        ∃ byte, body[i / 8]? = some byte ∧
          compressedData[i]? = some (bitChar byte (i % 8)) := by
  obtain ⟨body, hbody, _, hexp⟩ := writeBody_spec compressedData hdata
  obtain ⟨body1, hbody1, hbits⟩ := writeBody_getElem compressedData hdata
  have e : body1 = body := by
    rw [hbody] at hbody1
    exact (Except.ok.inj hbody1).symm
  subst e
  exact ⟨body1, hbody, by simp [writeCompressedDataToFile, hbody], hexp, hbits⟩

set_option maxRecDepth 8000 in
/-- C11 at the ten bits `1011000111`: the body is the bytes `177` and `192`. -/
theorem bit_packing_content_witness :
    ∃ body, writeBody [chr1, chr0, chr1, chr1, chr0, chr0, chr0, chr1, chr1, chr1] = .ok body ∧
      writeCompressedDataToFile refPlatform
          [chr1, chr0, chr1, chr1, chr0, chr0, chr0, chr1, chr1, chr1] [] =
        .ok (writeHeader (refPlatform.codeOrder.iterate []) ++ body) ∧
      body.flatMap expandByte =
        [chr1, chr0, chr1, chr1, chr0, chr0, chr0, chr1, chr1, chr1] ++
          List.replicate
            ((8 - List.length [chr1, chr0, chr1, chr1, chr0, chr0, chr0, chr1, chr1, chr1] % 8)
              % 8) chr0 ∧
      ∀ i, i < List.length [chr1, chr0, chr1, chr1, chr0, chr0, chr0, chr1, chr1, chr1] →
        ∃ byte, body[i / 8]? = some byte ∧
          ([chr1, chr0, chr1, chr1, chr0, chr0, chr0, chr1, chr1, chr1] : CString)[i]? =
            some (bitChar byte (i % 8)) :=
  bit_packing_content refPlatform [chr1, chr0, chr1, chr1, chr0, chr0, chr0, chr1, chr1, chr1] []
    (by decide)

/-- C12: for every non-empty input `huffmanEncode` returns the concatenation,
in input order, of the codes of the bytes of the input; its length is the sum
over the distinct bytes of the number of occurrences times the length of the
code, which for an input shorter than `2 ^ 31` is the sum of stored frequency
times code length over the frequency map; for the input `aaabbc` it is nine
bits. -/
theorem encoded_length_sum (P : Platform) (input : CString) (hne : input ≠ []) :
    ∃ root bits,
      buildHuffmanTree P.queue (P.freqOrder.iterate (countFreq input)) = .ok root ∧
      huffmanEncode P input = .ok bits ∧
      bits = input.flatMap (UMap.at (generateCodes root [] [])) ∧
      bits.length = ((countFreq input).keys.map
        (fun k => input.count k * (UMap.at (generateCodes root [] []) k).length)).sum ∧
      (input.length < 2147483648 →
        (bits.length : Int) =
          codeCost (countFreq input) (UMap.at (generateCodes root [] []))) ∧
      (input = [97, 97, 97, 98, 98, 99] →
        bits.length = 3 * (UMap.at (generateCodes root [] []) 97).length +
            2 * (UMap.at (generateCodes root [] []) 98).length +
            1 * (UMap.at (generateCodes root [] []) 99).length ∧
        bits.length = 9) := by
  obtain ⟨root, body, hrun, _, _, htab, henc, _, _, _⟩ := compressFile_spec P input hne
  have hbits : input.flatMap (UMap.at (paths root [])) =
      encodeWith (generateCodes root [] []) input := by
    rw [encodeWith_eq_flatMap, htab]
  refine ⟨root, _, hrun, henc, by rw [htab], ?_, ?_, ?_⟩
  · rw [hbits]
    exact encoded_length _ input
  · intro hlen
    rw [hbits]
    exact encoded_length_codeCost _ input hlen
  · intro hin
    subst hin
    obtain ⟨root1, hrun1, ha, hb, hc⟩ := aaabbc_lengths P
    have e : root1 = root := by
      rw [hrun] at hrun1
      exact (Except.ok.inj hrun1).symm
    subst e
    have hl := encoded_length (generateCodes root1 [] []) [97, 97, 97, 98, 98, 99]
    rw [← hbits] at hl
    have hk : (countFreq ([97, 97, 97, 98, 98, 99] : CString)).keys = [97, 98, 99] := by decide
    have h97 : List.count (97 : Byte) [97, 97, 97, 98, 98, 99] = 3 := by decide
    have h98 : List.count (98 : Byte) [97, 97, 97, 98, 98, 99] = 2 := by decide
    have h99 : List.count (99 : Byte) [97, 97, 97, 98, 98, 99] = 1 := by decide
    rw [hk] at hl
    simp only [List.map_cons, List.map_nil, List.sum_cons, List.sum_nil, h97, h98, h99] at hl
    constructor
    · rw [hl]; omega
    · rw [hl]; omega

set_option maxRecDepth 20000 in
/-- C12 at the input `aaabbc` on the reference platform. -/
theorem encoded_length_sum_witness :
    ∃ bits, huffmanEncode refPlatform [97, 97, 97, 98, 98, 99] = .ok bits ∧
      bits.length = 9 := by
  obtain ⟨root, bits, _, henc, _, _, _, h9⟩ :=
    encoded_length_sum refPlatform [97, 97, 97, 98, 98, 99] (by decide)
  exact ⟨bits, henc, (h9 rfl).2⟩

set_option maxRecDepth 20000 in
/-- C13 (counterexample): for the map `{y: 10, p: 2^30, q: 2^30 + 1,
x: 2^30 + 2, z: 2^30 + 3}` the sum of the two smallest large counts does not
fit an `int`; the generated table gives `x` three bits and `y` two bits although
`x` is more frequent than `y`, on the reference queue and, the run having no
ties, on every priority queue and in every visiting order of the map. -/
theorem monotonicity_fails_on_overflow :
    (buildHuffmanTree refQueue
        [(121, 10), (112, 1073741824), (113, 1073741825), (120, 1073741826),
          (122, 1073741827)]).map (fun root => generateCodes root [] []) =
      .ok [(113, [chr0, chr0, chr0]), (120, [chr0, chr0, chr1]), (122, [chr0, chr1]),
        (121, [chr1, chr0]), (112, [chr1, chr1])] ∧
    (10 : Int) < 1073741826 ∧
    ¬ (UMap.at [(113, [chr0, chr0, chr0]), (120, [chr0, chr0, chr1]), (122, [chr0, chr1]),
          (121, [chr1, chr0]), (112, [chr1, chr1])] 120).length ≤
        (UMap.at [(113, [chr0, chr0, chr0]), (120, [chr0, chr0, chr1]), (122, [chr0, chr1]),
          (121, [chr1, chr0]), (112, [chr1, chr1])] 121).length ∧
    ∀ (Q : PriorityQueue) (freq1 : UMap Int),
      freq1.Perm [(121, 10), (112, 1073741824), (113, 1073741825), (120, 1073741826),
        (122, 1073741827)] →
      buildHuffmanTree Q freq1 =
        buildHuffmanTree refQueue
          [(121, 10), (112, 1073741824), (113, 1073741825), (120, 1073741826),
            (122, 1073741827)] :=
  ⟨by decide, by decide, by decide,
    fun Q freq1 hp => buildHuffmanTree_tieFree Q _ freq1 (by decide) hp (by decide)⟩

/-- C13 (amended): for every non-empty map with distinct keys and non-negative
frequencies that add up to less than `2 ^ 31`, a symbol of larger frequency
never has a longer code than a symbol of smaller frequency; for the map of the
input `aaabbc` this gives `length(a) ≤ length(b) ≤ length(c)`. -/
theorem code_length_monotone (Q : PriorityQueue) (freq : UMap Int) (hne : freq ≠ [])
    (hkeys : freq.keys.Nodup) (hpos : ∀ p ∈ freq, 0 ≤ p.2)
    (hsum : (freq.map Prod.snd).sum < 2147483648) :
    ∃ root, buildHuffmanTree Q freq = .ok root ∧
      (∀ px ∈ freq, ∀ py ∈ freq, py.2 < px.2 →
        (UMap.at (generateCodes root [] []) px.1).length ≤
          (UMap.at (generateCodes root [] []) py.1).length) ∧
      (freq.Perm (countFreq [97, 97, 97, 98, 98, 99]) →
        (UMap.at (generateCodes root [] []) 97).length ≤
            (UMap.at (generateCodes root [] []) 98).length ∧
          (UMap.at (generateCodes root [] []) 98).length ≤
            (UMap.at (generateCodes root [] []) 99).length) := by
  obtain ⟨root, hrun, hmono⟩ := buildHuffmanTree_monotone Q freq hne hkeys hpos hsum
  refine ⟨root, hrun, hmono, ?_⟩
  intro hp
  have hc : countFreq ([97, 97, 97, 98, 98, 99] : CString) = [(97, 3), (98, 2), (99, 1)] := by
    decide
  rw [hc] at hp
  have ha : ((97 : Byte), (3 : Int)) ∈ freq := hp.symm.subset (by simp)
  have hb : ((98 : Byte), (2 : Int)) ∈ freq := hp.symm.subset (by simp)
  have hcc : ((99 : Byte), (1 : Int)) ∈ freq := hp.symm.subset (by simp)
  exact ⟨hmono _ ha _ hb (by decide), hmono _ hb _ hcc (by decide)⟩

set_option maxRecDepth 20000 in
/-- C13 (amended) at the map `{c: 1, a: 3, b: 2}`, the counts of `aaabbc`. -/
theorem code_length_monotone_witness :
    ∃ root, buildHuffmanTree refQueue [(99, 1), (97, 3), (98, 2)] = .ok root ∧
      (∀ px ∈ ([(99, 1), (97, 3), (98, 2)] : UMap Int),
        ∀ py ∈ ([(99, 1), (97, 3), (98, 2)] : UMap Int), py.2 < px.2 →
        (UMap.at (generateCodes root [] []) px.1).length ≤
          (UMap.at (generateCodes root [] []) py.1).length) ∧
      (List.Perm ([(99, 1), (97, 3), (98, 2)] : UMap Int)
          (countFreq [97, 97, 97, 98, 98, 99]) →
        (UMap.at (generateCodes root [] []) 97).length ≤
            (UMap.at (generateCodes root [] []) 98).length ∧
          (UMap.at (generateCodes root [] []) 98).length ≤
            (UMap.at (generateCodes root [] []) 99).length) :=
  code_length_monotone refQueue [(99, 1), (97, 3), (98, 2)] (by decide) (by decide)
    (by decide) (by decide)

/-- C14 (counterexample): for the input of `2 ^ 31` bytes `a` the map holds the
count `-2 ^ 31` for `a`, which is neither the number of occurrences nor at
least one. -/
theorem count_wraps_at_two_gib :
    countFreq (List.replicate 2147483648 97) = [(97, -2147483648)] ∧
    List.count (97 : Byte) (List.replicate 2147483648 97) = 2147483648 ∧
    ¬ (1 : Int) ≤ -2147483648 := by
  refine ⟨?_, ?_, by decide⟩
  · rw [countFreq_replicate_val 97 2147483648 (by norm_num)]
    norm_num [wrapInt32]
  · exact List.count_replicate_self _ _

/-- C14 (amended): for every input the keys of the frequency map are exactly
the distinct bytes of the input and each stored count is the number of
occurrences reduced to a 32-bit `int`; a count below `2 ^ 31` is stored as it
is and is at least one, and for an input shorter than `2 ^ 31` the counts add up
to the length of the input. -/
theorem frequency_analysis (input : CString) :
    (countFreq input).keys.Nodup ∧ (∀ b, b ∈ (countFreq input).keys ↔ b ∈ input) ∧
    (∀ p ∈ countFreq input, p.2 = wrapInt32 (input.count p.1 : Int)) ∧
    (∀ p ∈ countFreq input, input.count p.1 < 2147483648 →
      p.2 = (input.count p.1 : Int) ∧ 1 ≤ p.2) ∧
    (input.length < 2147483648 →
      ((countFreq input).map Prod.snd).sum = (input.length : Int)) := by
  obtain ⟨hnd, hmem, heq⟩ := countFreq_wrap_spec input
  have hval : ∀ p ∈ countFreq input, p.2 = wrapInt32 (input.count p.1 : Int) := by
    intro p hp
    rw [heq] at hp
    obtain ⟨k, _, rfl⟩ := List.mem_map.1 hp
    rfl
  refine ⟨hnd, hmem, hval, ?_, countFreq_sum input⟩
  intro p hp hlt
  have hk : p.1 ∈ input := (hmem p.1).1 (List.mem_map.2 ⟨p, hp, rfl⟩)
  have hc : 0 < input.count p.1 := List.count_pos_iff.2 hk
  rw [hval p hp, wrapInt32_natCast _ hlt]
  exact ⟨rfl, by exact_mod_cast hc⟩

set_option maxRecDepth 8000 in
/-- C14 (amended) at the input `aaabbc`: the map is `{a: 3, b: 2, c: 1}`. -/
theorem frequency_analysis_witness :
    countFreq [97, 97, 97, 98, 98, 99] = [(97, 3), (98, 2), (99, 1)] ∧
    ((countFreq [97, 97, 97, 98, 98, 99]).map Prod.snd).sum =
      ((List.length ([97, 97, 97, 98, 98, 99] : CString) : Nat) : Int) :=
  ⟨by decide, (frequency_analysis [97, 97, 97, 98, 98, 99]).2.2.2.2 (by decide)⟩

set_option maxRecDepth 20000 in
/-- C16 (counterexample): for the map `{a: 2^30 + 1, b: 2^30}` the single
iteration extracts the nodes of frequencies `2^30` and `2^30 + 1` and pushes a
node of frequency `-2^31 + 1`, which is not their sum; the returned root has
this frequency on every priority queue and in every visiting order. -/
theorem merge_sum_overflow :
    (mergeLoopTrace refQueue
        (pushLeaves refQueue [(97, 1073741825), (98, 1073741824)]).length
        (pushLeaves refQueue [(97, 1073741825), (98, 1073741824)])).map
      (fun r => r.1.map (fun s =>
        (s.left.frequency, s.right.frequency, s.after.map HuffmanNode.frequency))) =
      .ok [(1073741824, 1073741825, [-2147483647])] ∧
    (-2147483647 : Int) ≠ 1073741824 + 1073741825 ∧
    ∀ (Q : PriorityQueue) (freq : UMap Int),
      freq.Perm [(97, 1073741825), (98, 1073741824)] →
      (buildHuffmanTree Q freq).map HuffmanNode.frequency = .ok (-2147483647) := by
  refine ⟨by decide, by decide, ?_⟩
  intro Q freq hp
  rw [buildHuffmanTree_pair Q 97 98 1073741825 1073741824 (by decide) freq hp]
  decide

/-- C16 (amended): for every map with `n ≥ 1` entries the loop of
`buildHuffmanTree` ends after exactly `n - 1` iterations (with every bound on
the iterations from `n` on); each iteration extracts two nodes with the two
smallest frequencies of the queue and pushes one node whose frequency is their
sum in 32-bit `int` arithmetic, which is their sum when the frequencies are
non-negative and add up to less than `2 ^ 31`; the returned tree has `n` leaves
and `n - 1` nodes with children, and for `n = 1` there is no iteration and the
root is the single leaf. -/
theorem merge_steps (Q : PriorityQueue) (freq : UMap Int) (hne : freq ≠ []) :
    ∃ steps root,
      mergeLoopTrace Q (pushLeaves Q freq).length (pushLeaves Q freq) = .ok (steps, [root]) ∧
      (∀ k, mergeLoopTrace Q ((pushLeaves Q freq).length + k) (pushLeaves Q freq) =
        .ok (steps, [root])) ∧
      buildHuffmanTree Q freq = .ok root ∧
      steps.length = freq.length - 1 ∧
      (∀ s ∈ steps, s.Correct ∧
        (mergeNodes s.left s.right).frequency =
          wrapInt32 (s.left.frequency + s.right.frequency)) ∧
      ((∀ p ∈ freq, 0 ≤ p.2) → (freq.map Prod.snd).sum < 2147483648 →
        ∀ s ∈ steps,
          (mergeNodes s.left s.right).frequency = s.left.frequency + s.right.frequency) ∧
      leafCount root = freq.length ∧ internalCount root = freq.length - 1 ∧
      (freq.length = 1 → steps = [] ∧ ∀ p ∈ freq, root = newHuffmanNode p.1 p.2) := by
  obtain ⟨steps, root, hrun, hbuild, hcount, hall⟩ := buildHuffmanTree_trace Q
    (fun q => (∀ p ∈ freq, 0 ≤ p.2) → (freq.map Prod.snd).sum < 2147483648 →
      WeightInv (freq.map Prod.snd).sum q)
    (fun q left right rest q1 hq _ _ hq1 hinv hpos hsum =>
      (weightInv_step _ hsum q left right rest q1 hq hq1 (hinv hpos hsum)).1)
    freq hne (fun q hq hpos _ => weightInv_init freq hpos q hq)
  obtain ⟨root1, hbuild1, hs, hperm⟩ := buildHuffmanTree_shape Q freq hne
  have e : root1 = root := by
    rw [hbuild] at hbuild1
    exact (Except.ok.inj hbuild1).symm
  subst e
  have hleaf : leafCount root1 = freq.length := by
    rw [leafCount_eq, hperm.length_eq]
  have hint := internalCount_eq root1 hs
  refine ⟨steps, root1, hrun, mergeLoopTrace_fuel Q _ _ _ hrun, hbuild, by omega, ?_, ?_,
    hleaf, by omega, ?_⟩
  · intro s hs1
    exact ⟨(hall s hs1).1, rfl⟩
  · intro hpos hsum s hs1
    obtain ⟨⟨rest, hq, _, _, hq1, _⟩, hinv⟩ := hall s hs1
    exact (weightInv_step _ hsum s.before s.left s.right rest s.after hq hq1
      (hinv hpos hsum)).2
  · intro h1
    refine ⟨List.length_eq_zero.1 (by omega), ?_⟩
    intro p hp
    obtain ⟨q, hq⟩ := List.length_eq_one.1 h1
    subst hq
    obtain rfl := List.mem_singleton.1 hp
    rw [buildHuffmanTree_singleton] at hbuild
    exact (Except.ok.inj hbuild).symm

set_option maxRecDepth 20000 in
/-- C16 (amended) at the map `{a: 3, b: 2, c: 1}`: two iterations. -/
theorem merge_steps_witness :
    ∃ steps root,
      mergeLoopTrace refQueue (pushLeaves refQueue [(97, 3), (98, 2), (99, 1)]).length
        (pushLeaves refQueue [(97, 3), (98, 2), (99, 1)]) = .ok (steps, [root]) ∧
      buildHuffmanTree refQueue [(97, 3), (98, 2), (99, 1)] = .ok root ∧
      steps.length = 2 ∧
      (∀ s ∈ steps, s.Correct ∧
        (mergeNodes s.left s.right).frequency = s.left.frequency + s.right.frequency) ∧
      leafCount root = 3 ∧ internalCount root = 2 := by
  obtain ⟨steps, root, hrun, _, hbuild, hlen, hstep, hsum, hleaf, hint, _⟩ :=
    merge_steps refQueue [(97, 3), (98, 2), (99, 1)] (by decide)
  exact ⟨steps, root, hrun, hbuild, hlen, fun s hs =>
    ⟨(hstep s hs).1, hsum (by decide) (by decide) s hs⟩, hleaf, hint⟩

/-- C17: for every tree with pairwise distinct leaf symbols (strict or not),
the table `generateCodes(root, "", codes)` fills from the empty table has the
entry `(sym, code)` exactly when `code` is the path from the root to the leaf
of `sym`, `'0'` for each step to the left and `'1'` for each step to the right,
so the length of a code is the depth of its leaf; the table has one entry for
each leaf and none for a node with children; started from any table `codes`,
every leaf symbol gets its path and the entries of all other keys stay as they
are. -/
theorem codes_are_leaf_paths (t : HuffmanNode) (hnd : (leaves t).keys.Nodup) :
    (∀ sym code, (sym, code) ∈ generateCodes t [] [] ↔ LeafPath t code sym) ∧
    (generateCodes t [] []).keys.Nodup ∧
    (generateCodes t [] []).length = leafCount t ∧
    (∀ sym code, LeafPath t code sym → UMap.at (generateCodes t [] []) sym = code) ∧
    (∀ (codes : UMap CString) sym code, LeafPath t code sym →
      (sym, code) ∈ generateCodes t [] codes) ∧
    (∀ (codes : UMap CString) k c, (∀ code, ¬ LeafPath t code k) →
      ((k, c) ∈ generateCodes t [] codes ↔ (k, c) ∈ codes)) := by
  have htab := generateCodes_eq_paths t hnd
  have hmem : ∀ sym code, (sym, code) ∈ paths t [] ↔ LeafPath t code sym := by
    intro sym code
    rw [mem_paths_iff t [] sym code]
    constructor
    · rintro ⟨c, hc, hp⟩
      rw [List.nil_append] at hc
      rw [hc]
      exact hp
    · intro hp
      exact ⟨code, by simp, hp⟩
  have hkeys : (paths t []).keys.Nodup := by
    rw [paths_keys]
    exact hnd
  refine ⟨?_, ?_, ?_, ?_, ?_, ?_⟩
  · intro sym code
    rw [htab]
    exact hmem sym code
  · rw [htab]
    exact hkeys
  · rw [htab, leafCount_eq]
    simp [paths, leaves]
  · intro sym code hp
    rw [htab]
    exact at_of_mem _ hkeys sym code ((hmem sym code).2 hp)
  · intro codes sym code hp
    rw [generateCodes_eq_fold]
    exact mem_assign_fold (paths t []) codes hkeys (sym, code) ((hmem sym code).2 hp)
  · intro codes k c hk
    rw [generateCodes_eq_fold]
    apply mem_assign_fold_of_not_mem
    intro hin
    obtain ⟨p, hp, rfl⟩ := List.mem_map.1 hin
    exact hk p.2 ((hmem p.1 p.2).1 hp)

set_option maxRecDepth 8000 in
/-- C17 at the tree with the leaf `b` on the left and the leaf `a` on the
right: the table is `{b: 0, a: 1}`. -/
theorem codes_are_leaf_paths_witness :
    generateCodes (mergeNodes (newHuffmanNode 98 2) (newHuffmanNode 97 3)) [] [] =
      [(98, [chr0]), (97, [chr1])] ∧
    (∀ sym code,
      (sym, code) ∈ generateCodes (mergeNodes (newHuffmanNode 98 2) (newHuffmanNode 97 3)) [] []
        ↔ LeafPath (mergeNodes (newHuffmanNode 98 2) (newHuffmanNode 97 3)) code sym) :=
  ⟨by decide,
    (codes_are_leaf_paths (mergeNodes (newHuffmanNode 98 2) (newHuffmanNode 97 3))
      (by decide)).1⟩

/-- C18: for every map with at least two distinct symbols the concatenation of
codes is injective on the sequences of symbols of the table: two different
sequences never give the same bit string in the encoding loop. -/
theorem body_bits_decodable (Q : PriorityQueue) (freq : UMap Int)
    (hkeys : freq.keys.Nodup) (h2 : 2 ≤ freq.length) :
    ∃ root, buildHuffmanTree Q freq = .ok root ∧
      (generateCodes root [] []).keys.Perm freq.keys ∧
      ∀ B1 B2 : CString,
        (∀ b ∈ B1, b ∈ (generateCodes root [] []).keys) →
        (∀ b ∈ B2, b ∈ (generateCodes root [] []).keys) →
        encodeWith (generateCodes root [] []) B1 = encodeWith (generateCodes root [] []) B2 →
        B1 = B2 := by
  obtain ⟨root, hrun, _, hperm, htab, hlen⟩ := table_lengths Q freq hkeys h2
  refine ⟨root, hrun, ?_, ?_⟩
  · rw [htab, paths_keys]
    exact hperm.map Prod.fst
  · rw [htab]
    intro B1 B2 h1 h2 henc
    rw [encodeWith_eq_flatMap, encodeWith_eq_flatMap] at henc
    refine decode_unique_nonempty (UMap.at (paths root [])) (paths root []).keys
      (fun k1 hk1 k2 hk2 hne => paths_incomparable root k1 k2 hk1 hk2 hne) ?_ B1 B2 h1 h2 henc
    intro k hk hnil
    have := (hlen _ (at_mem (paths root []) k hk)).1
    rw [hnil] at this
    simp at this

set_option maxRecDepth 8000 in
/-- C18 at the map `{a: 3, b: 2}`. -/
theorem body_bits_decodable_witness :
    ∃ root, buildHuffmanTree refQueue [(97, 3), (98, 2)] = .ok root ∧
      (generateCodes root [] []).keys.Perm (UMap.keys ([(97, 3), (98, 2)] : UMap Int)) ∧
      ∀ B1 B2 : CString,
        (∀ b ∈ B1, b ∈ (generateCodes root [] []).keys) →
        (∀ b ∈ B2, b ∈ (generateCodes root [] []).keys) →
        encodeWith (generateCodes root [] []) B1 = encodeWith (generateCodes root [] []) B2 →
        B1 = B2 :=
  body_bits_decodable refQueue [(97, 3), (98, 2)] (by decide) (by decide)

/-- C19: for every map with `n ≥ 2` distinct symbols every generated code has
between `1` and `n - 1` bits, hence at most `255`, and the sum over the
symbols of `2 ^ (-length(code))` is exactly one. -/
theorem code_length_bounds (Q : PriorityQueue) (freq : UMap Int)
    (hkeys : freq.keys.Nodup) (h2 : 2 ≤ freq.length) :
    ∃ root, buildHuffmanTree Q freq = .ok root ∧
      (∀ p ∈ generateCodes root [] [],
        1 ≤ p.2.length ∧ p.2.length ≤ freq.length - 1 ∧ p.2.length ≤ 255) ∧
      ((generateCodes root [] []).map (fun p => ((2 : ℚ) ^ p.2.length)⁻¹)).sum = 1 ∧
      (freq.map
        (fun p => ((2 : ℚ) ^ (UMap.at (generateCodes root [] []) p.1).length)⁻¹)).sum = 1 := by
  obtain ⟨root, hrun, hs, hperm, htab, hlen⟩ := table_lengths Q freq hkeys h2
  have h256 := keys_length_le freq hkeys
  refine ⟨root, hrun, ?_, ?_, ?_⟩
  · rw [htab]
    intro p hp
    obtain ⟨h1, hn⟩ := hlen p hp
    exact ⟨h1, hn, by omega⟩
  · rw [htab]
    have := kraft_equality root hs []
    simpa [paths, List.map_map, Function.comp_def] using this
  · rw [htab]
    exact kraft_table root freq hs hperm hkeys

set_option maxRecDepth 8000 in
/-- C19 at the map `{a: 3, b: 2, c: 1}`. -/
theorem code_length_bounds_witness :
    ∃ root, buildHuffmanTree refQueue [(97, 3), (98, 2), (99, 1)] = .ok root ∧
      (∀ p ∈ generateCodes root [] [],
        1 ≤ p.2.length ∧ p.2.length ≤ List.length ([(97, 3), (98, 2), (99, 1)] : UMap Int) - 1 ∧
          p.2.length ≤ 255) ∧
      ((generateCodes root [] []).map (fun p => ((2 : ℚ) ^ p.2.length)⁻¹)).sum = 1 ∧
      (List.map
        (fun p => ((2 : ℚ) ^ (UMap.at (generateCodes root [] []) p.1).length)⁻¹)
        ([(97, 3), (98, 2), (99, 1)] : UMap Int)).sum = 1 :=
  code_length_bounds refQueue [(97, 3), (98, 2), (99, 1)] (by decide) (by decide)

/-- C20: in every tree returned by `buildHuffmanTree`, at each node with
children the frequency of the left child is at most the frequency of the right
child; this holds whether or not a sum of frequencies reaches `2 ^ 31`. -/
theorem child_ordering (Q : PriorityQueue) (freq : UMap Int) (hne : freq ≠ []) :
    ∃ root, buildHuffmanTree Q freq = .ok root ∧ childOrdered root = true :=
  buildHuffmanTree_childOrdered Q freq hne

set_option maxRecDepth 8000 in
/-- C20 at the map `{a: 3, b: 2, c: 1}`. -/
theorem child_ordering_witness :
    ∃ root, buildHuffmanTree refQueue [(97, 3), (98, 2), (99, 1)] = .ok root ∧
      childOrdered root = true :=
  child_ordering refQueue [(97, 3), (98, 2), (99, 1)] (by decide)

end Huffman
